import Mathlib

/-!
Shallow embedding of the S-expression library for Python
(sxprlib.py together with ratcomplex.py): the value model, the
rational-complex arithmetic, the interning tables, the attribute guards,
a heap of cons cells for the cycle-safe traversals, and the
streamer/tokenizer/parser and the printer, together with proofs of the
properties claimed for them.
-/

namespace SxprSpec

/-! ### Python numeric scalars (ratcomplex.py operates on int / float / Fraction) -/

/-- Python real scalars as the library uses them: `pint` is a Python `int`,
`pfrac` a `fractions.Fraction` (kept reduced with positive denominator,
exactly the normal form of `ℚ`), `pfloat` a host float.  A float is modelled
by the exact rational value it denotes; floats only occur in claims about
type propagation and in concrete inputs whose values doubles represent
exactly, never in claims about rounding. -/
inductive PyReal where
  | pint (z : ℤ)
  | pfrac (q : ℚ)
  | pfloat (q : ℚ)
deriving DecidableEq

namespace PyReal

/-- Numeric value of a scalar; Python comparisons between int, float and
Fraction compare values. -/
def toRat : PyReal → ℚ
  | pint z => z
  | pfrac q => q
  | pfloat q => q

/-- Python mixed-mode `+`: a float operand is contagious, otherwise a
Fraction operand is, otherwise the result is an int. -/
def pyAdd : PyReal → PyReal → PyReal
  | pfloat a, y => pfloat (a + y.toRat)
  | x, pfloat b => pfloat (x.toRat + b)
  | pint a, pint b => pint (a + b)
  | pint a, pfrac b => pfrac ((a : ℚ) + b)
  | pfrac a, pint b => pfrac (a + (b : ℚ))
  | pfrac a, pfrac b => pfrac (a + b)

/-- Python mixed-mode `-`, with the same promotion rules as `+`. -/
def pySub : PyReal → PyReal → PyReal
  | pfloat a, y => pfloat (a - y.toRat)
  | x, pfloat b => pfloat (x.toRat - b)
  | pint a, pint b => pint (a - b)
  | pint a, pfrac b => pfrac ((a : ℚ) - b)
  | pfrac a, pint b => pfrac (a - (b : ℚ))
  | pfrac a, pfrac b => pfrac (a - b)

/-- Python mixed-mode `*`, with the same promotion rules as `+`. -/
def pyMul : PyReal → PyReal → PyReal
  | pfloat a, y => pfloat (a * y.toRat)
  | x, pfloat b => pfloat (x.toRat * b)
  | pint a, pint b => pint (a * b)
  | pint a, pfrac b => pfrac ((a : ℚ) * b)
  | pfrac a, pint b => pfrac (a * (b : ℚ))
  | pfrac a, pfrac b => pfrac (a * b)

/-- Python true division `/`: `int / int` produces a float, a Fraction
operand (with no float involved) produces a Fraction, a float operand
produces a float.  A zero divisor raises ZeroDivisionError, modelled as
`none`. -/
def pyDiv (x y : PyReal) : Option PyReal :=
  if y.toRat = 0 then none else
  match x, y with
  | pfloat a, y => some (pfloat (a / y.toRat))
  | x, pfloat b => some (pfloat (x.toRat / b))
  | pint a, pint b => some (pfloat ((a : ℚ) / (b : ℚ)))
  | pint a, pfrac b => some (pfrac ((a : ℚ) / b))
  | pfrac a, pint b => some (pfrac (a / (b : ℚ)))
  | pfrac a, pfrac b => some (pfrac (a / b))

/-- A scalar is exact when it is an int or a Fraction (not a float). -/
def isExact : PyReal → Bool
  | pint _ => true
  | pfrac _ => true
  | pfloat _ => false

/-- A scalar is in reduced form when it is not a Fraction with
denominator 1 (such a Fraction must have been lowered to an int). -/
def isReduced : PyReal → Bool
  | pfrac q => !(q.den == 1)
  | _ => true

end PyReal

/-- `Complex.__reduce_frac` (ratcomplex.py lines 250-255): a Fraction with
denominator 1 is lowered to the corresponding int; anything else passes
through. -/
def reduceFrac : PyReal → PyReal
  | .pfrac q => if q.den = 1 then .pint q.num else .pfrac q
  | x => x

/-- The result of the `Complex` constructor: either a plain real scalar
(returned when the reduced imaginary part is 0) or a Complex object with
its two stored components. -/
inductive PyNum where
  | ofReal (r : PyReal)
  | ofCplx (re im : PyReal)
deriving DecidableEq

/-- An argument accepted by `Complex()`: complex-like (a native complex or
a Complex, carrying two parts) or a real scalar. -/
inductive CplxArg where
  | ccx (re im : PyReal)
  | cre (r : PyReal)
deriving DecidableEq

/-- `Complex.__new__` value computation (ratcomplex.py lines 46-66):
Gaussian recomposition when an argument is itself complex-like, reduction
of both parts via `reduceFrac`, and collapse to the real part when the
imaginary part equals 0.  The interning step (lines 67-86) is modelled
separately by `complexNewStateful`. -/
def complexNewVal (v1 v2 : CplxArg) : PyNum :=
  let rawRe : PyReal :=
    match v1, v2 with
    | .ccx r1 _, .ccx _ i2 => PyReal.pySub r1 i2
    | .ccx r1 _, .cre _ => r1
    | .cre r1, .ccx _ i2 => PyReal.pySub r1 i2
    | .cre r1, .cre _ => r1
  let rawIm : PyReal :=
    match v1, v2 with
    | .ccx _ i1, .ccx r2 _ => PyReal.pyAdd i1 r2
    | .ccx _ i1, .cre v2v => PyReal.pyAdd i1 v2v
    | .cre _, .ccx r2 _ => r2
    | .cre _, .cre v2v => v2v
  let real := reduceFrac rawRe
  let imag := reduceFrac rawIm
  if imag.toRat = 0 then .ofReal real else .ofCplx real imag

/-- `Complex.__reduce_comp` (ratcomplex.py lines 257-264): reduce both
parts, return the real part alone when the imaginary part is 0, otherwise
construct a Complex. -/
def reduceComp (real imag : PyReal) : PyNum :=
  let r := reduceFrac real
  let i := reduceFrac imag
  if i.toRat = 0 then .ofReal r else complexNewVal (.cre r) (.cre i)

/-- `Complex.__truediv__` (ratcomplex.py lines 214-222) on a Complex whose
parts are `sre` and `sim`, divided by `v`. -/
def complexTrueDiv (sre sim : PyReal) (v : CplxArg) : Option PyNum :=
  match v with
  | .ccx vre vim =>
    let d := PyReal.pyAdd (PyReal.pyMul vre vre) (PyReal.pyMul vim vim)
    match PyReal.pyDiv (PyReal.pyAdd (PyReal.pyMul sre vre) (PyReal.pyMul sim vim)) d,
          PyReal.pyDiv (PyReal.pySub (PyReal.pyMul sim vre) (PyReal.pyMul sre vim)) d with
    | some real, some imag => some (reduceComp real imag)
    | _, _ => none
  | .cre vr =>
    match PyReal.pyDiv sre vr, PyReal.pyDiv sim vr with
    | some real, some imag => some (reduceComp real imag)
    | _, _ => none

/-- Both parts of a constructor result are exact scalars. -/
def PyNum.exactParts : PyNum → Bool
  | .ofReal r => r.isExact
  | .ofCplx re im => re.isExact && im.isExact

/-- Both parts of a constructor result are in reduced form. -/
def PyNum.reducedParts : PyNum → Bool
  | .ofReal r => r.isReduced
  | .ofCplx re im => re.isReduced && im.isReduced

/-! ### Python exceptions raised by the library -/

/-- The exception classes the two modules raise. -/
inductive PyExc where
  | permissionError
  | attributeError
  | indexError
  | valueError
  | typeError
  | zeroDivisionError
  | notImplementedError
deriving DecidableEq

/-! ### Attribute guards (write-once attributes)

An object instance dictionary (`self.__dict__`) is modelled as an
association list from attribute names to values; `__setattr__` and
`__delattr__` return the raised exception or the updated dictionary, paired
with the dictionary after the call (unchanged when an exception is raised,
since the guard raises before any assignment). -/

/-- `name in self.__dict__` -/
def dictHas {α : Type} (d : List (String × α)) (name : String) : Bool :=
  d.any (fun e => e.1 == name)

/-- `self.__dict__[name] = value` (replace an existing binding or append) -/
def dictSet {α : Type} : List (String × α) → String → α → List (String × α)
  | [], n, v => [(n, v)]
  | e :: es, n, v => if e.1 == n then (n, v) :: es else e :: dictSet es n v

/-- `del self.__dict__[name]` -/
def dictDel {α : Type} : List (String × α) → String → List (String × α)
  | [], _ => []
  | e :: es, n => if e.1 == n then es else e :: dictDel es n

/-- `Symbol.__setattr__` (sxprlib.py lines 531-535): refuse to overwrite an
existing `value` attribute, otherwise assign. -/
def symbolSetattr {α : Type} (d : List (String × α)) (name : String) (v : α) :
    Except PyExc Unit × List (String × α) :=
  if name == "value" && dictHas d name then (.error .permissionError, d)
  else (.ok (), dictSet d name v)

/-- `Symbol.__delattr__` (lines 537-541): deleting `value` is refused;
any other name is handed to the default deleter (AttributeError when the
name is absent). -/
def symbolDelattr {α : Type} (d : List (String × α)) (name : String) :
    Except PyExc Unit × List (String × α) :=
  if name == "value" then (.error .permissionError, d)
  else if dictHas d name then (.ok (), dictDel d name)
  else (.error .attributeError, d)

/-- `Char.__setattr__` (lines 417-421): same guard as Symbol. -/
def charSetattr {α : Type} (d : List (String × α)) (name : String) (v : α) :
    Except PyExc Unit × List (String × α) :=
  if name == "value" && dictHas d name then (.error .permissionError, d)
  else (.ok (), dictSet d name v)

/-- `Char.__delattr__` (lines 423-427). -/
def charDelattr {α : Type} (d : List (String × α)) (name : String) :
    Except PyExc Unit × List (String × α) :=
  if name == "value" then (.error .permissionError, d)
  else if dictHas d name then (.ok (), dictDel d name)
  else (.error .attributeError, d)

/-- `String.__setattr__` (lines 582-586): same guard as Symbol. -/
def stringSetattr {α : Type} (d : List (String × α)) (name : String) (v : α) :
    Except PyExc Unit × List (String × α) :=
  if name == "value" && dictHas d name then (.error .permissionError, d)
  else (.ok (), dictSet d name v)

/-- `String.__delattr__` (lines 588-592). -/
def stringDelattr {α : Type} (d : List (String × α)) (name : String) :
    Except PyExc Unit × List (String × α) :=
  if name == "value" then (.error .permissionError, d)
  else if dictHas d name then (.ok (), dictDel d name)
  else (.error .attributeError, d)

/-- `Complex.__setattr__` (ratcomplex.py lines 112-115): refuse to overwrite
an existing `real` or `imag` attribute, otherwise assign. -/
def complexSetattr {α : Type} (d : List (String × α)) (name : String) (v : α) :
    Except PyExc Unit × List (String × α) :=
  if (name == "real" || name == "imag") && dictHas d name then (.error .permissionError, d)
  else (.ok (), dictSet d name v)

/-- `Complex.__delattr__` (lines 117-121). -/
def complexDelattr {α : Type} (d : List (String × α)) (name : String) :
    Except PyExc Unit × List (String × α) :=
  if name == "real" || name == "imag" then (.error .permissionError, d)
  else if dictHas d name then (.ok (), dictDel d name)
  else (.error .attributeError, d)

/-! ### Interning

Symbol, Char and Complex each keep a process-wide WeakValueDictionary from
a canonical key to the one live instance for that key.  The dictionary is
modelled as an association list threaded through the constructor, an object
as an identity (the result of Python `id`) together with its stored data;
weak reclamation is not modelled (a single growing session).  Dictionary
key equality is Python `==`, passed in explicitly because Complex keys are
4-tuples of numbers compared by value. -/

/-- An interned object: its identity and the data stored on it at
construction time. -/
structure InternObj (ν : Type) where
  oid : Nat
  value : ν
deriving DecidableEq

/-- An intern dictionary plus the next unused object identity. -/
structure InternTable (κ ν : Type) where
  entries : List (κ × InternObj ν)
  next : Nat
deriving DecidableEq

/-- The common body of `Symbol.__new__` / `Char.__new__` / `Complex.__new__`
after canonicalization: look the canonical key up, return the existing
object if present, otherwise create a fresh object, store it and return
it. -/
def internNew {κ ν : Type} (keyEq : κ → κ → Bool) (t : InternTable κ ν) (k : κ) (v : ν) :
    InternObj ν × InternTable κ ν :=
  match t.entries.find? (fun e => keyEq e.1 k) with
  | some e => (e.2, t)
  | none => (⟨t.next, v⟩, ⟨(k, ⟨t.next, v⟩) :: t.entries, t.next + 1⟩)

/-- Identities are consistent: every stored identity is below `next`, and
no two entries share an identity. -/
def tblOidsOk {κ ν : Type} (t : InternTable κ ν) : Prop :=
  (∀ e ∈ t.entries, e.2.oid < t.next) ∧
  ∀ e1 ∈ t.entries, ∀ e2 ∈ t.entries, e1.2.oid = e2.2.oid → e1 = e2

/-- Python `str.lower`, modelled character by character (identical to
Python on ASCII, which is where the dialect options use it). -/
def pyLower (s : String) : String := ⟨s.data.map Char.toLower⟩

/-- The canonical key of `Symbol.__new__`: case-fold when the ignore-case
option is set. -/
def symbolCanon (ignoreCase : Bool) (value : String) : String :=
  if ignoreCase then pyLower value else value

/-- `Symbol.__new__` (sxprlib.py lines 474-492) for a `str` argument (a
Symbol argument is passed through and a String argument is unwrapped to
this case): case-fold when the ignore-case option is set, reject the empty
string, intern. -/
def symbolNew (ignoreCase : Bool) (t : InternTable String String) (value : String) :
    Except PyExc (InternObj String × InternTable String String) :=
  if symbolCanon ignoreCase value = "" then .error .valueError
  else .ok (internNew (· == ·) t (symbolCanon ignoreCase value) (symbolCanon ignoreCase value))

/-- `Symbol.__eq__` (lines 546-549) between two Symbol objects. -/
def symbolEqPy (a b : InternObj String) : Bool := a.value == b.value

/-- Hexadecimal digit recognition, as in the `[0-9a-fA-F]` character
class. -/
def isHexDigitCh (c : Char) : Bool :=
  c.isDigit || (decide ('a' ≤ c) && decide (c ≤ 'f')) || (decide ('A' ≤ c) && decide (c ≤ 'F'))

/-- Value of one hexadecimal digit. -/
def hexDigitVal (c : Char) : Nat :=
  if c.isDigit then c.toNat - 48
  else if decide ('a' ≤ c) && decide (c ≤ 'f') then c.toNat - 87
  else c.toNat - 55

/-- `int(s, 16)` on a string of hexadecimal digits. -/
def hexVal (cs : List Char) : Nat := cs.foldl (fun a c => 16 * a + hexDigitVal c) 0

/-- The `_is_charhex` regular expression (line 76): a full match of
hash, backslash, one of `uxUX`, then one or more hex digits. -/
def isCharHexStr (s : String) : Bool :=
  match s.toList with
  | '#' :: c1 :: u :: rest =>
    c1 == '\\' && (u == 'u' || u == 'x' || u == 'U' || u == 'X') &&
      !rest.isEmpty && rest.all isHexDigitCh
  | _ => false

/-- The named-character table `Char.__NameToCharDic` (lines 348-358). -/
def nameToCharDic : List (String × String) :=
  [("Backspace", "\x08"), ("Escape", "\x1b"), ("Linefeed", "\n"), ("Newline", "\n"),
   ("Page", "\x0c"), ("Return", "\r"), ("Rubout", "\x1f"), ("Space", " "), ("Tab", "\t")]

/-- Python `str.capitalize` restricted to ASCII (upper-case the first
character, lower-case the rest); the named-character table is ASCII. -/
def pyCapitalize (s : String) : String :=
  match s.toList with
  | [] => ""
  | c :: cs => String.mk (c.toUpper :: cs.map Char.toLower)

/-- `s.startswith("#\\")` on the character list. -/
def startsHashBackslash (s : String) : Bool :=
  match s.data with
  | '#' :: c :: _ => c == '\\'
  | _ => false

/-- `s.replace("#\\", "")`: remove every (non-overlapping, left-to-right)
occurrence of the two-character sequence hash backslash. -/
def stripHashBackslashAux : List Char → List Char
  | '#' :: c :: rest =>
    if c = '\\' then stripHashBackslashAux rest
    else '#' :: stripHashBackslashAux (c :: rest)
  | c :: rest => c :: stripHashBackslashAux rest
  | [] => []

/-- `s.replace("#\\", "")` as a string operation. -/
def stripHashBackslash (s : String) : String := ⟨stripHashBackslashAux s.data⟩

/-- `Char.IsChar` (lines 450-465): a hex escape must encode a code point
at most 0x10FFFF; otherwise, after stripping `#\`, a single character or a
recognized name (matched after capitalization) is accepted. -/
def charIsChar (s : String) : Bool :=
  if isCharHexStr s then decide (hexVal (s.toList.drop 3) ≤ 0x10FFFF)
  else
    let s1 := if startsHashBackslash s then stripHashBackslash s else s
    if s1.length == 1 then true
    else (nameToCharDic.find? (fun e => e.1 == pyCapitalize s1)).isSome

/-- The canonical key computed by `Char.__new__` (lines 381-385): decode a
hex escape to its character, strip a `#\` prefix, then canonicalize named
characters through the name table.  (Python `chr` also accepts lone
surrogates, which Lean characters cannot represent; claims are settled
away from surrogates.) -/
def charCanonStr (s : String) : String :=
  let v :=
    if isCharHexStr s then String.singleton (Char.ofNat (hexVal (s.toList.drop 3)))
    else if startsHashBackslash s then stripHashBackslash s else s
  match nameToCharDic.find? (fun e => e.1 == pyCapitalize v) with
  | some e => e.2
  | none => v

/-- `Char.__new__` (lines 370-391) for a `str` argument: validate, compute
the canonical key, intern. -/
def charNew (t : InternTable String String) (value : String) :
    Except PyExc (InternObj String × InternTable String String) :=
  if charIsChar value then .ok (internNew (· == ·) t (charCanonStr value) (charCanonStr value))
  else .error .valueError

/-- `Char.__eq__` (lines 432-437) between two Char objects. -/
def charEqPy (a b : InternObj String) : Bool := a.value == b.value

/-- Python `==` between the numbers appearing in a Complex intern key
(value comparison across int, float and Fraction). -/
def pyNumEq (a b : PyReal) : Bool := decide (a.toRat = b.toRat)

/-- Python `==` on the canonical 4-tuples used as Complex intern keys. -/
def keyEq4 (a b : PyReal × PyReal × PyReal × PyReal) : Bool :=
  pyNumEq a.1 b.1 && pyNumEq a.2.1 b.2.1 && pyNumEq a.2.2.1 b.2.2.1 && pyNumEq a.2.2.2 b.2.2.2

/-- The canonical `(rnum, rden, inum, iden)` 4-tuple of `Complex.__new__`
(ratcomplex.py lines 67-79): numerator and denominator for a Fraction
part, the part itself and 1 otherwise. -/
def complexKey (real imag : PyReal) : PyReal × PyReal × PyReal × PyReal :=
  let rp : PyReal × PyReal :=
    match real with
    | .pfrac q => (.pint q.num, .pint (q.den : ℤ))
    | x => (x, .pint 1)
  let ip : PyReal × PyReal :=
    match imag with
    | .pfrac q => (.pint q.num, .pint (q.den : ℤ))
    | x => (x, .pint 1)
  (rp.1, rp.2, ip.1, ip.2)

/-- The Complex intern dictionary: canonical 4-tuples to objects storing
the reduced real and imaginary parts. -/
abbrev CTable := InternTable (PyReal × PyReal × PyReal × PyReal) (PyReal × PyReal)

/-- `Complex.__new__` (lines 46-86) with the intern dictionary threaded
explicitly: compute the value as `complexNewVal`; a real result bypasses
the dictionary, a complex result is interned by its canonical 4-tuple. -/
def complexNewStateful (t : CTable) (v1 v2 : CplxArg) :
    (PyReal ⊕ InternObj (PyReal × PyReal)) × CTable :=
  match complexNewVal v1 v2 with
  | .ofReal r => (.inl r, t)
  | .ofCplx re im =>
    let p := internNew keyEq4 t (complexKey re im) (re, im)
    (.inr p.1, p.2)

/-- `Complex.__eq__` (lines 131-135) between two Complex objects: compare
both parts by value. -/
def complexEqPy (a b : InternObj (PyReal × PyReal)) : Bool :=
  (a.value.1.toRat == b.value.1.toRat) && (a.value.2.toRat == b.value.2.toRat)

deriving instance DecidableEq for Except

/-! ### Cons cells with identity: a heap model

`Cons.__len__`, `Cons.__getitem__` and `_ConsIterator` walk cdr chains and
must cope with shared and cyclic structure, which they detect through
`id()`.  A collection of cons cells is therefore modelled as a heap: a
list of (address, car, cdr) triples; a car or cdr field holds the Nil
singleton, a reference to another cons cell by address, or an atom. -/

/-- A value stored in a car or cdr field: the Nil singleton, a cons cell
referenced by its identity, or an atom of the host type `α`. -/
inductive HV (α : Type) where
  | hnil
  | href (a : Nat)
  | hatom (v : α)
deriving DecidableEq

/-- A heap of cons cells: address, car, cdr.  Lookup takes the first
matching address. -/
abbrev Heap (α : Type) := List (Nat × HV α × HV α)

/-- Address lookup. -/
def heapFind {α : Type} (h : Heap α) (a : Nat) : Option (HV α × HV α) :=
  (h.find? (fun e => e.1 == a)).map (fun e => e.2)

/-- The car field of the cell at `a` (`hnil` placeholder for a dangling
address, which cannot occur for heaps that model Python objects: every
reference resolves). -/
def heapCar {α : Type} (h : Heap α) (a : Nat) : HV α :=
  match heapFind h a with
  | some cell => cell.1
  | none => .hnil

/-- The cdr field of the cell at `a` (same placeholder remark). -/
def heapCdr {α : Type} (h : Heap α) (a : Nat) : HV α :=
  match heapFind h a with
  | some cell => cell.2
  | none => .hnil

/-- The loop of `Cons.__len__` (sxprlib.py lines 190-200): `c` is the
current cell, `occ` the set of visited identities, `n` the count; walk
while the cdr is a Cons not seen before.  The while loop is modelled with
fuel; `h.length` steps always suffice because each step pushes a distinct
resolvable address. -/
def lenLoop {α : Type} (h : Heap α) : Nat → Nat → List Nat → Nat → Nat
  | 0, _, _, n => n
  | fuel + 1, c, occ, n =>
    match heapFind h c with
    | some cell =>
      match cell.2 with
      | .href b => if b ∈ occ then n else lenLoop h fuel b (b :: occ) (n + 1)
      | _ => n
    | none => n

/-- `Cons.__len__` of the cell at address `a`. -/
def consLen {α : Type} (h : Heap α) (a : Nat) : Nat := lenLoop h h.length a [a] 1

/-- One cdr step between cons cells: defined exactly when the cdr of the
cell at `a` is itself a cell reference. -/
def cdrNext {α : Type} (h : Heap α) (a : Nat) : Option Nat :=
  match heapFind h a with
  | some (_, .href b) => some b
  | _ => none

/-- `k` cdr steps from `a`. -/
def cdrIterN {α : Type} (h : Heap α) : Nat → Nat → Option Nat
  | 0, a => some a
  | k + 1, a =>
    match cdrNext h a with
    | some b => cdrIterN h k b
    | none => none

/-- The cell `b` is reachable from `a` by following cdr through cons
cells. -/
def ReachCdr {α : Type} (h : Heap α) (a b : Nat) : Prop :=
  ∃ k, cdrIterN h k a = some b

/-- The walk of `Cons.__getitem__` (lines 202-217) after the negative-index
check, with `m` indexing steps left: an atom that is neither Nil nor a
Cons raises IndexError when more indexing remains, Nil keeps walking
because `Nil.cdr` is Nil (the class variable set up in `Nil.__new__`), and
at the end a Cons yields its car while anything else is returned as is.
The slice case raises NotImplementedError before this loop and is not
modelled. -/
def getLoop {α : Type} (h : Heap α) : Nat → HV α → Except PyExc (HV α)
  | 0, c =>
    match c with
    | .href b => .ok (heapCar h b)
    | c => .ok c
  | m + 1, c =>
    match c with
    | .hnil => getLoop h m .hnil
    | .href b => getLoop h m (heapCdr h b)
    | _ => .error .indexError

/-- `Cons.__getitem__` on the cell at `a` with integer index `n`. -/
def consGetItem {α : Type} (h : Heap α) (a : Nat) (n : ℤ) : Except PyExc (HV α) :=
  if n < 0 then .error .indexError
  else getLoop h n.toNat (.href a)

/-- `_ConsIterator.__next__` (lines 679-690) iterated to exhaustion,
collecting the yielded values: stop at Nil or at a previously seen cell,
yield the car and move to the cdr at an unseen cell, and yield a terminal
atom itself (the iterator then parks on Nil).  Fuel `h.length + 1` always
suffices: every iteration that recurses pushes a distinct address. -/
def iterLoop {α : Type} (h : Heap α) : Nat → HV α → List Nat → List (HV α)
  | 0, _, _ => []
  | fuel + 1, cur, occ =>
    match cur with
    | .hnil => []
    | .href a =>
      if a ∈ occ then []
      else heapCar h a :: iterLoop h fuel (heapCdr h a) (a :: occ)
    | .hatom v => [.hatom v]

/-- Iterating a Cons chain or Nil (`Cons.__iter__` / `Nil.__iter__`, via
`_ConsIterator`): the list of yielded values. -/
def consIter {α : Type} (h : Heap α) (v : HV α) : List (HV α) :=
  iterLoop h (h.length + 1) v []

/-! ### Dialect configuration, S-expression values, tokens, reader errors -/

/-- The dialect options (the `sxprlib_enable...` module globals, lines
36-51), gathered in a record and passed explicitly. -/
structure Dialect where
  enableLineComment : Bool
  enableBlockComment : Bool
  enableEscape : Bool
  enableQuote : Bool
  enableFuncRef : Bool
  enableBin : Bool
  enableOct : Bool
  enableHex : Bool
  enableRadix : Bool
  enableComplex : Bool
  enableArray : Bool
  enableFrac : Bool
  enableChar : Bool
  ignoreCase : Bool
deriving DecidableEq

/-- The module defaults: only the line comment option is on. -/
def defaultDialect : Dialect :=
  ⟨true, false, false, false, false, false, false, false, false, false, false,
   false, false, false⟩

/-- An S-expression value.  `sreal` covers the Python int / float /
Fraction atoms (see `PyReal`); `scplx` is a ratcomplex Complex object;
`schar` holds the canonical one-character value string of a Char object;
`pynone` is Python `None`, which `_sxpr_read_obj` returns at end of
stream and which can end up inside a Cons when a quote or function
prefix meets the end of the input. -/
inductive SExpr where
  | snil
  | scons (car cdr : SExpr)
  | sreal (r : PyReal)
  | scplx (re im : PyReal)
  | ssym (s : String)
  | sstr (s : String)
  | schar (s : String)
  | sarr (dim : Nat) (payload : SExpr)
  | pynone
deriving DecidableEq

/-- A token of `_sxpr_tokenizer`: the `__TokenType` sentinels, an Array
object built for an array prefix, or an atomic value. -/
inductive Tok where
  | lparT
  | rparT
  | dotT
  | quoteT
  | funcrefT
  | complexT
  | arrT (dim : Nat)
  | valT (v : SExpr)
deriving DecidableEq

/-- The exceptions the reader raises, by raise site, with the line and
column they carry. -/
inductive SxErr where
  | eofError (line col : Nat)
  | syntaxUnexpectedEOF (line col : Nat)
  | syntaxInvalidComplex (line col : Nat)
  | syntaxInvalidArray (line col : Nat)
  | syntaxRParExpected (line col : Nat)
  | syntaxUnexpectedToken (line col : Nat)
  | zeroDivision
  | outOfFuel
deriving DecidableEq

/-- The apostrophe and double-quote characters. -/
def squoteCh : Char := Char.ofNat 39

/-- The double-quote character. -/
def dquoteCh : Char := Char.ofNat 34

/-- Whitespace as the tokenizer defines it. -/
def isWsCh (c : Char) : Bool := c == ' ' || c == '\t' || c == '\r' || c == '\n'

/-- Delimiters: parentheses, the string quote, whitespace. -/
def isDelimCh (c : Char) : Bool := c == '(' || c == ')' || c == dquoteCh || isWsCh c

/-! ### The numeric token shapes (ports of the `re` patterns, lines 64-76) -/

/-- Consume one optional `+` or `-`. -/
def dropSign : List Char → List Char
  | c :: cs => if c = '+' ∨ c = '-' then cs else c :: cs
  | [] => []

/-- `_is_integer`: a full match of `[+-]?` then one or more digits. -/
def isIntegerChars (cs : List Char) : Bool :=
  match dropSign cs with
  | [] => false
  | ds => ds.all Char.isDigit

/-- `_is_number`: `[+-]?(\d+(\.\d*)?|\d*\.\d+)([defsDEFS][+-]?\d+)?`. -/
def isNumberChars (cs : List Char) : Bool :=
  let cs1 := dropSign cs
  let d1 := cs1.takeWhile Char.isDigit
  let r1 := cs1.dropWhile Char.isDigit
  let mant : Option (List Char) :=
    match r1 with
    | '.' :: r2 =>
      let d2 := r2.takeWhile Char.isDigit
      if d1.isEmpty && d2.isEmpty then none else some (r2.dropWhile Char.isDigit)
    | _ => if d1.isEmpty then none else some r1
  match mant with
  | none => false
  | some [] => true
  | some (m :: r4) =>
    if m == 'd' || m == 'e' || m == 'f' || m == 's' ||
       m == 'D' || m == 'E' || m == 'F' || m == 'S' then
      match dropSign r4 with
      | [] => false
      | r5 => r5.all Char.isDigit
    else false

/-- `_is_fraction`: `[+-]?\d+/\d+`. -/
def isFractionChars (cs : List Char) : Bool :=
  let cs1 := dropSign cs
  let d1 := cs1.takeWhile Char.isDigit
  match cs1.dropWhile Char.isDigit with
  | '/' :: r2 => !d1.isEmpty && !r2.isEmpty && r2.all Char.isDigit
  | _ => false

/-- The digit run with an optional `/` digit run, shared by the bin, oct,
hex and radix patterns. -/
def isBaseRun (p : Char → Bool) (cs : List Char) : Bool :=
  let d1 := cs.takeWhile p
  match cs.dropWhile p with
  | [] => !d1.isEmpty
  | '/' :: r2 => !d1.isEmpty && !r2.isEmpty && r2.all p
  | _ => false

/-- Binary digits. -/
def isBinDigitCh (c : Char) : Bool := c == '0' || c == '1'

/-- Octal digits, as in `__is_oct_digit`. -/
def isOctDigitCh (c : Char) : Bool := decide ('0' ≤ c) && decide (c ≤ '7')

/-- `_is_bin`: `[+-]?#[bB][01]+(/[01]+)?`. -/
def isBinChars (cs : List Char) : Bool :=
  match dropSign cs with
  | '#' :: b :: rest => (b == 'b' || b == 'B') && isBaseRun isBinDigitCh rest
  | _ => false

/-- `_is_oct`: `[+-]?#[oO][0-7]+(/[0-7]+)?`. -/
def isOctChars (cs : List Char) : Bool :=
  match dropSign cs with
  | '#' :: b :: rest => (b == 'o' || b == 'O') && isBaseRun isOctDigitCh rest
  | _ => false

/-- `_is_hex`: `[+-]?#[xX][0-9a-fA-F]+(/[0-9a-fA-F]+)?`. -/
def isHexChars (cs : List Char) : Bool :=
  match dropSign cs with
  | '#' :: b :: rest => (b == 'x' || b == 'X') && isBaseRun isHexDigitCh rest
  | _ => false

/-- ASCII letters and digits, the digit class of the radix pattern. -/
def isAlnumAscii (c : Char) : Bool :=
  c.isDigit || (decide ('a' ≤ c) && decide (c ≤ 'z')) || (decide ('A' ≤ c) && decide (c ≤ 'Z'))

/-- `_is_radix`: `[+-]?#[1-9][0-9]?[rR][0-9a-zA-Z]+(/[0-9a-zA-Z]+)?`. -/
def isRadixChars (cs : List Char) : Bool :=
  match dropSign cs with
  | '#' :: d1 :: rest =>
    decide ('1' ≤ d1) && decide (d1 ≤ '9') &&
      (match rest with
       | d2 :: r2 =>
         if d2.isDigit then
           match r2 with
           | r :: r3 => (r == 'r' || r == 'R') && isBaseRun isAlnumAscii r3
           | [] => false
         else (d2 == 'r' || d2 == 'R') && isBaseRun isAlnumAscii r2
       | [] => false)
  | _ => false

/-- `_is_arrayprefix`: `#[0-9]+[aA]`. -/
def isArrayPfxChars (cs : List Char) : Bool :=
  match cs with
  | '#' :: rest =>
    let d := rest.takeWhile Char.isDigit
    (!d.isEmpty) &&
      (match rest.dropWhile Char.isDigit with
       | [a] => a == 'a' || a == 'A'
       | _ => false)
  | _ => false

/-! ### Numeric parsing and printing -/

/-- Decimal value of a digit run. -/
def digitsToNat (cs : List Char) : Nat := cs.foldl (fun a c => 10 * a + (c.toNat - 48)) 0

/-- `int(s)` on a `[+-]?\d+` match. -/
def pyParseInt (cs : List Char) : ℤ :=
  match cs with
  | '-' :: ds => -(digitsToNat ds : ℤ)
  | '+' :: ds => (digitsToNat ds : ℤ)
  | ds => (digitsToNat ds : ℤ)

/-- The decimal digits of `n`, most significant first, with the division
recursion bounded by fuel (`n + 1` always suffices since `n / 10 < n`
for positive `n`). -/
def natDigitsAux : Nat → Nat → List Char
  | 0, _ => []
  | f + 1, n =>
    if n < 10 then [Char.ofNat (48 + n)]
    else natDigitsAux f (n / 10) ++ [Char.ofNat (48 + n % 10)]

/-- The decimal digits of `n`, most significant first. -/
def natDigits (n : Nat) : List Char := natDigitsAux (n + 1) n

/-- Python `str` of a natural number. -/
def pyNatStr (n : Nat) : String := ⟨natDigits n⟩

/-- Python `str` of an int. -/
def pyIntStr (z : ℤ) : String :=
  if z < 0 then "-" ++ pyNatStr z.natAbs else pyNatStr z.toNat

/-- The exact value of a `_is_number` match, as computed by `float()` up
to rounding (host doubles are modelled by exact rationals; claims never
depend on rounding). -/
def parseFloatChars (cs : List Char) : ℚ :=
  let sgn : ℚ := match cs with
    | '-' :: _ => -1
    | _ => 1
  let cs1 := dropSign cs
  let d1 := cs1.takeWhile Char.isDigit
  let r1 := cs1.dropWhile Char.isDigit
  let ip : Nat := digitsToNat d1
  let fp : ℚ × List Char :=
    match r1 with
    | '.' :: rr =>
      let d2 := rr.takeWhile Char.isDigit
      ((digitsToNat d2 : ℚ) / ((10 : ℚ) ^ d2.length), rr.dropWhile Char.isDigit)
    | _ => (0, r1)
  let ex : ℤ :=
    match fp.2 with
    | _ :: rr => pyParseInt rr
    | [] => 0
  sgn * ((ip : ℚ) + fp.1) * (10 : ℚ) ^ ex

/-- Value of one digit in bases up to 36 (`int(s, base)` accepts both
letter cases). -/
def digitValBase (c : Char) : Nat :=
  if c.isDigit then c.toNat - 48
  else if decide ('a' ≤ c) && decide (c ≤ 'z') then c.toNat - 87
  else if decide ('A' ≤ c) && decide (c ≤ 'Z') then c.toNat - 55
  else 99

/-- All digits legal for `int(s, base)` (and at least one digit). -/
def validBaseDigits (base : Nat) (cs : List Char) : Bool :=
  !cs.isEmpty && cs.all (fun c => digitValBase c < base)

/-- Digit-run value in a given base. -/
def baseVal (base : Nat) (cs : List Char) : Nat :=
  cs.foldl (fun a c => base * a + digitValBase c) 0

/-- The `#b` / `#o` / `#x` token value (lines 1194-1220): strip the sign
and the two-character prefix, parse the digit run, and for a `/` form
build a Fraction, lowering denominator 1 to an int; a zero denominator
raises ZeroDivisionError. -/
def parseHashBase (base : Nat) (run : List Char) : Except SxErr PyReal :=
  let sp : Bool × List Char :=
    match run with
    | '-' :: r => (true, r)
    | '+' :: r => (false, r)
    | r => (false, r)
  let body := sp.2.drop 2
  let d1 := body.takeWhile (fun c => !(c == '/'))
  let v1 : ℤ := (if sp.1 then -1 else 1) * (baseVal base d1 : ℤ)
  match body.dropWhile (fun c => !(c == '/')) with
  | [] => .ok (.pint v1)
  | _ :: d2 =>
    let x := baseVal base d2
    if x = 0 then .error .zeroDivision
    else
      let q := mkRat v1 x
      if q.den = 1 then .ok (.pint q.num) else .ok (.pfrac q)

/-- The canonical value of a Symbol constructed by the tokenizer (always
from a nonempty run). -/
def mkSymbol (cfg : Dialect) (s : String) : SExpr := .ssym (symbolCanon cfg.ignoreCase s)

/-- The `#<base>r` token value (lines 1221-1239): lower-case, split the
sign, base and digit runs, and parse inside a bare `except` whose failure
(base outside 2..36, an illegal digit, or a zero denominator) falls back
to a Symbol built from the original run. -/
def radixToken (cfg : Dialect) (run : List Char) : SExpr :=
  let low := run.map Char.toLower
  let sp : ℤ × List Char :=
    match low with
    | '-' :: r => (-1, r)
    | '+' :: r => (1, r)
    | r => (1, r)
  let body := sp.2.drop 1
  let bdigits := body.takeWhile (fun c => !(c == 'r'))
  let after := (body.dropWhile (fun c => !(c == 'r'))).drop 1
  let base := digitsToNat bdigits
  let nd := after.takeWhile (fun c => !(c == '/'))
  if base < 2 || 36 < base then mkSymbol cfg ⟨run⟩
  else if !validBaseDigits base nd then mkSymbol cfg ⟨run⟩
  else
    let ret : ℤ := sp.1 * baseVal base nd
    match after.dropWhile (fun c => !(c == '/')) with
    | [] => .sreal (.pint ret)
    | _ :: dd =>
      if !validBaseDigits base dd then mkSymbol cfg ⟨run⟩
      else if baseVal base dd = 0 then mkSymbol cfg ⟨run⟩
      else
        let q := mkRat ret (baseVal base dd)
        if q.den = 1 then .sreal (.pint q.num) else .sreal (.pfrac q)

/-- The `_is_fraction` token value (lines 1240-1245): `Fraction(s)`,
lowered to an int when the denominator reduces to 1; a zero denominator
raises ZeroDivisionError. -/
def parseFractionChars (run : List Char) : Except SxErr PyReal :=
  let sp : ℤ × List Char :=
    match run with
    | '-' :: r => (-1, r)
    | '+' :: r => (1, r)
    | r => (1, r)
  let nd := sp.2.takeWhile Char.isDigit
  let dd := (sp.2.dropWhile Char.isDigit).drop 1
  let den := digitsToNat dd
  if den = 0 then .error .zeroDivision
  else
    let q := mkRat (sp.1 * digitsToNat nd) den
    if q.den = 1 then .ok (.pint q.num) else .ok (.pfrac q)

/-! ### The printer (the str renderings) -/

/-- The per-character rewrites of `Symbol.__str__` (the `maketrans` table,
lines 498-515). -/
def symTranslate (c : Char) : List Char :=
  if c = '(' then ['\\', '(']
  else if c = ')' then ['\\', ')']
  else if c = ' ' then ['_']
  else if c = '|' then ['\\', '|']
  else if c = dquoteCh then ['\\', dquoteCh]
  else if c = Char.ofNat 7 then ['\\', 'a']
  else if c = Char.ofNat 8 then ['\\', 'b']
  else if c = Char.ofNat 12 then ['\\', 'f']
  else if c = '\n' then ['\\', 'n']
  else if c = '\r' then ['\\', 'r']
  else if c = '\t' then ['\\', 't']
  else if c = Char.ofNat 11 then ['\\', 'v']
  else [c]

/-- `Symbol.__str__` (lines 494-526): the dot symbol prints as backslash
dot; otherwise the characters are rewritten and a rendering that would
lex as a number under the active dialect is wrapped in vertical bars. -/
def symbolStr (cfg : Dialect) (v : String) : String :=
  if v = "." then ⟨['\\', '.']⟩
  else
    let s := (v.data.map symTranslate).flatten
    if isIntegerChars s
       || (cfg.enableBin && isBinChars s)
       || (cfg.enableOct && isOctChars s)
       || (cfg.enableHex && isHexChars s)
       || (cfg.enableRadix && isRadixChars s)
       || (cfg.enableFrac && isFractionChars s)
       || isNumberChars s
    then ⟨'|' :: (s ++ ['|'])⟩
    else ⟨s⟩

/-- Lowercase hexadecimal digits, as the `x` format code prints them. -/
def hexDigitChar (n : Nat) : Char :=
  if n < 10 then Char.ofNat (48 + n) else Char.ofNat (87 + n)

/-- `n` printed in exactly `width` lowercase hex digits. -/
def hexChars (width n : Nat) : List Char :=
  (List.range width).map (fun i => hexDigitChar (n / 16 ^ (width - 1 - i) % 16))

/-- One character under `json.dumps(..., ensure_ascii=False)`. -/
def jsonEscChar (c : Char) : List Char :=
  if c = dquoteCh then ['\\', dquoteCh]
  else if c = '\\' then ['\\', '\\']
  else if c = Char.ofNat 8 then ['\\', 'b']
  else if c = '\t' then ['\\', 't']
  else if c = '\n' then ['\\', 'n']
  else if c = Char.ofNat 12 then ['\\', 'f']
  else if c = '\r' then ['\\', 'r']
  else if decide (c.toNat < 32) then '\\' :: 'u' :: hexChars 4 c.toNat
  else [c]

/-- `json.dumps(s, ensure_ascii=False)`. -/
def pyDumps (s : String) : String := ⟨dquoteCh :: ((s.data.map jsonEscChar).flatten ++ [dquoteCh])⟩

/-- Collapse doubled backslashes, as `s.replace` with a two-backslash
pattern and a one-backslash replacement does. -/
def collapseBackslash : List Char → List Char
  | '\\' :: c :: rest => if c = '\\' then '\\' :: collapseBackslash rest
                         else '\\' :: collapseBackslash (c :: rest)
  | c :: rest => c :: collapseBackslash rest
  | [] => []

/-- `String.__str__` (lines 573-577): a JSON-style literal, with the
backslash doubling undone when the escape option is off. -/
def stringStr (cfg : Dialect) (v : String) : String :=
  let s := pyDumps v
  if !cfg.enableEscape then ⟨collapseBackslash s.data⟩ else s

/-- `Char.__CharToNameDic` (lines 359-368). -/
def charToNameDic : List (Char × String) :=
  [(Char.ofNat 8, "Backspace"), ('\t', "Tab"), ('\n', "Linefeed"), (Char.ofNat 12, "Page"),
   ('\r', "Return"), (Char.ofNat 27, "Escape"), (Char.ofNat 31, "Rubout"), (' ', "Space")]

/-- `Char.__str__` (lines 393-404) on the canonical one-character value
string. -/
def charStr (v : String) : String :=
  let c := v.data.headD (Char.ofNat 0)
  let n := c.toNat
  if n ≤ 32 || (127 ≤ n && n ≤ 255) then
    match charToNameDic.find? (fun e => e.1 == c) with
    | some e => ⟨'#' :: '\\' :: e.2.data⟩
    | none => ⟨'#' :: '\\' :: 'x' :: hexChars 2 n⟩
  else
    let inner := ((pyDumps v).data.drop 1).dropLast
    let v2 := '#' :: '\\' :: collapseBackslash inner
    if 12 ≤ v2.length then ⟨'#' :: '\\' :: 'U' :: hexChars 8 n⟩ else ⟨v2⟩

/-- `str` of an int / Fraction / float atom; Python float repr (the
shortest round-tripping decimal) is not modelled, so a float renders as
`none`. -/
def realStr : PyReal → Option String
  | .pint z => some (pyIntStr z)
  | .pfrac q => some (pyIntStr q.num ++ "/" ++ pyNatStr q.den)
  | .pfloat _ => none

/-- The number of constructor nodes of a finite value; a fuel budget for
the printer recursion. -/
def esize : SExpr → Nat
  | .scons a d => esize a + esize d + 1
  | .sarr _ p => esize p + 1
  | _ => 1

mutual

/-- `Cons.__Sxpr2Str` (lines 257-267) together with the `str` renderings
of the atoms (`Nil.__str__`, the numbers, `Complex.__str__` with the
format spec set to `#C({0} {1})` at import, `Symbol.__str__`,
`String.__str__`, `Char.__str__`, `Array.__str__`, `str(None)`).  On the
finite acyclic values this printer covers, the visited sets threaded by
the source can never contain the cell being printed (a cell is never its
own ancestor in a tree), so the cycle markers are unreachable and are
dropped from the model.  The recursion is bounded by fuel; `esize`
always suffices. -/
def sxpr2StrF (cfg : Dialect) : Nat → SExpr → Option String
  | 0, _ => none
  | f + 1, e =>
    match e with
    | .scons a d =>
      match a, d with
      | .ssym q, .scons x dd =>
        if cfg.enableQuote && q == "quote" && dd == .snil then
          (sxpr2StrF cfg f x).map (fun s => ⟨squoteCh :: s.data⟩)
        else if cfg.enableFuncRef && q == "function" && dd == .snil &&
            (match x with | .ssym _ => true | _ => false) then
          (sxpr2StrF cfg f x).map (fun s => ⟨'#' :: squoteCh :: s.data⟩)
        else (cons2SeqStrF cfg f (.ssym q) (.scons x dd)).map (fun s => "(" ++ s ++ ")")
      | a2, d2 => (cons2SeqStrF cfg f a2 d2).map (fun s => "(" ++ s ++ ")")
    | .snil => some "()"
    | .sreal r => realStr r
    | .scplx re im =>
      match realStr re, realStr im with
      | some a, some b => some ("#C(" ++ a ++ " " ++ b ++ ")")
      | _, _ => none
    | .ssym s => some (symbolStr cfg s)
    | .sstr s => some (stringStr cfg s)
    | .schar s => some (charStr s)
    | .sarr dim payload =>
      (sxpr2StrF cfg f payload).map
        (fun s => if dim = 1 then "#" ++ s else "#" ++ pyNatStr dim ++ "A" ++ s)
    | .pynone => some "None"

/-- `Cons.__Cons2SeqStr` (lines 269-294) on a tree: the space-separated
element renderings, with a ` . ` dotted tail for a non-list cdr. -/
def cons2SeqStrF (cfg : Dialect) : Nat → SExpr → SExpr → Option String
  | 0, _, _ => none
  | f + 1, a, d =>
    match sxpr2StrF cfg f a with
    | none => none
    | some s =>
      match d with
      | .snil => some s
      | .scons b dd =>
        match cons2SeqStrF cfg f b dd with
        | none => none
        | some s2 => some (s ++ " " ++ s2)
      | atom =>
        match sxpr2StrF cfg f atom with
        | none => none
        | some s2 => some (s ++ " . " ++ s2)

end

/-- `str` of a value (`Cons.__str__` and the atom renderings), with the
sufficient fuel supplied. -/
def sxpr2Str (cfg : Dialect) (e : SExpr) : Option String := sxpr2StrF cfg (esize e) e

/-- `Cons.__Cons2SeqStr` with the sufficient fuel supplied. -/
def cons2SeqStr (cfg : Dialect) (a d : SExpr) : Option String :=
  cons2SeqStrF cfg (esize a + esize d) a d

/-! ### The streamer and the tokenizer -/

/-- The streamer state: the pending characters (the one-character
lookahead of `SxprStreamerBaseClass` collapsed into the front of the
list, observationally identical for the deterministic character sources),
the token-level position `line`/`col` (stamped when a token is consumed),
the character-level position `lkLine`/`lkCol` (the position after the
last character read), and the one-token lookahead buffer (`none` models
`_Undef`; `some none` a buffered end-of-stream). -/
structure St where
  chars : List Char
  line : Nat
  col : Nat
  lkLine : Nat
  lkCol : Nat
  lkTok : Option (Option Tok)
deriving DecidableEq

/-- The initial streamer over a text (`SxprStreamerBaseClass.__init__`,
`_StringStreamer`). -/
def St.init (text : String) : St := ⟨text.data, 1, 0, 1, 0, none⟩

/-- The position update of `read` (lines 1378-1389) for one character:
CR and LF reset the column and advance the line, anything else advances
the column by its display width `w`.  The width function models the
composition of `unicodedata.east_asian_width` with `eawcolumncount`
(W, F, A count 2; H, Na, N count 1) - external Unicode data, so it is a
parameter. -/
def advancePos (w : Char → Nat) (p : Nat × Nat) (c : Char) : Nat × Nat :=
  if c = '\r' ∨ c = '\n' then (p.1 + 1, 0) else (p.1, p.2 + w c)

/-- The position after reading a run of characters one by one. -/
def advancePosList (w : Char → Nat) (p : Nat × Nat) (cs : List Char) : Nat × Nat :=
  cs.foldl (advancePos w) p

/-- The width function for plain ASCII text (every claim instance uses
width-1 characters). -/
def unitW : Char → Nat := fun _ => 1

/-- The escape decoder of the string loop (lines 1129-1173), given the
character after the backslash and the rest of the input: the decoded
character and how many further characters are consumed.  (`chr` of an
out-of-range `\U` escape raises in Python; such escapes occur in no
claim and decode to a placeholder here.) -/
def escDecodeStep (e : Char) (rest : List Char) : Char × Nat :=
  if isOctDigitCh e then
    let more := (rest.takeWhile isOctDigitCh).take 2
    (Char.ofNat ((e :: more).foldl (fun a ch => 8 * a + (ch.toNat - 48)) 0), more.length)
  else if (e == 'x' || e == 'X') &&
      (match rest.head? with | some c2 => isHexDigitCh c2 | none => false) then
    let ds := (rest.takeWhile isHexDigitCh).take 2
    (Char.ofNat (hexVal ds), ds.length)
  else if e == 'u' &&
      (match rest.head? with | some c2 => isHexDigitCh c2 | none => false) then
    let ds := (rest.takeWhile isHexDigitCh).take 4
    (Char.ofNat (hexVal ds), ds.length)
  else if e == 'U' &&
      (match rest.head? with | some c2 => isHexDigitCh c2 | none => false) then
    let ds := (rest.takeWhile isHexDigitCh).take 8
    (Char.ofNat (hexVal ds), ds.length)
  else
    (if e = 'a' then Char.ofNat 7 else if e = 'b' then Char.ofNat 8
     else if e = 'e' then Char.ofNat 27 else if e = 'f' then Char.ofNat 12
     else if e = 'n' then '\n' else if e = 'r' then '\r'
     else if e = 't' then '\t' else if e = 'v' then Char.ofNat 11 else e, 0)

/-- The string loop (lines 1125-1180) on the characters after the opening
quote: the accumulated contents and the characters after the closing
quote, or `none` when the input ends before the closing quote
(EOFError).  A backslash at end of input reads the empty string,
contributes nothing, and the loop then stops at EOF.  The recursion is
bounded by fuel; every step consumes at least one character, so the
caller's `length + 1` always suffices and the exhaustion case is
unreachable. -/
def stringScan (cfg : Dialect) : Nat → List Char → Option (List Char × List Char)
  | 0, _ => none
  | _ + 1, [] => none
  | f + 1, c :: rest =>
    if c = dquoteCh then some ([], rest)
    else if cfg.enableEscape ∧ c = '\\' then
      match rest with
      | [] => none
      | e :: rest2 =>
        let dk := escDecodeStep e rest2
        match stringScan cfg f (rest2.drop dk.2) with
        | none => none
        | some p => some (dk.1 :: p.1, p.2)
    else
      match stringScan cfg f rest with
      | none => none
      | some p => some (c :: p.1, p.2)

/-- Whether the next pending character satisfies a predicate (the
`lookahead` tests of the tokenizer). -/
def headSat (p : Char → Bool) : List Char → Bool
  | [] => false
  | c :: _ => p c

/-- Whether a token text is `#C` up to case (`s.upper() == "#C"`). -/
def isHashC : List Char → Bool
  | ['#', c] => c == 'C' || c == 'c'
  | _ => false

/-- The block comment scanner (lines 1091-1103): consume up to and
including the closing bar-hash pair, or `none` at end of input
(EOFError).  Fueled like `stringScan`. -/
def blockScan : Nat → List Char → Option (List Char)
  | 0, _ => none
  | _ + 1, [] => none
  | f + 1, '|' :: rest =>
    match rest with
    | c :: rest2 => if c = '#' then some rest2 else blockScan f (c :: rest2)
    | [] => none
  | f + 1, _ :: rest => blockScan f rest

/-- `_sxpr_tokenizer` (lines 1081-1273) as a function of the pending
characters, carrying the token-level position for raised errors (the
whole tokenizer runs between token boundaries, so `streamer.line` and
`streamer.col` are unchanged while it runs and every raise uses the
entry values).  The fuel only bounds the comment restarts, each of which
consumes at least one character, so `length + 1` always suffices; the
character loops of the source are modelled by `takeWhile`/`dropWhile`
over the same characters. -/
def tokenizeCore (cfg : Dialect) : Nat → List Char → Nat → Nat →
    Except SxErr (Option Tok × List Char)
  | 0, _, _, _ => .error .outOfFuel
  | fuel + 1, cs0, line, col =>
    let csw := cs0.dropWhile isWsCh
    if cfg.enableLineComment ∧ csw.head? = some ';' then
      match (csw.drop 1).dropWhile (fun c => !(c == '\r' || c == '\n')) with
      | [] => tokenizeCore cfg fuel [] line col
      | _ :: rest2 => tokenizeCore cfg fuel rest2 line col
    else if cfg.enableBlockComment ∧ csw.head? = some '#' ∧
        (csw.drop 1).head? = some '|' then
      match blockScan ((csw.drop 2).length + 1) (csw.drop 2) with
      | none => .error (.eofError line col)
      | some rest => tokenizeCore cfg fuel rest line col
    else
      match csw with
      | [] => .ok (none, [])
      | d :: cs =>
        if cfg.enableQuote ∧ d = squoteCh then
          if (match cs.head? with | some c => isWsCh c | none => false) then
            .ok (some (.valT (mkSymbol cfg ⟨[squoteCh]⟩)), cs)
          else .ok (some .quoteT, cs)
        else if cfg.enableFuncRef ∧ d = '#' ∧ cs.head? = some squoteCh then
          if (match (cs.drop 1).head? with | some c => isDelimCh c | none => false) then
            .ok (some (.valT (mkSymbol cfg ⟨['#', squoteCh]⟩)), cs.drop 1)
          else .ok (some .funcrefT, cs.drop 1)
        else if d = '(' then .ok (some .lparT, cs)
        else if d = ')' then .ok (some .rparT, cs)
        else if d = '.' ∧ headSat isDelimCh cs then
          .ok (some .dotT, cs)
        else if d = dquoteCh then
          match stringScan cfg (cs.length + 1) cs with
          | none => .error (.eofError line col)
          | some p => .ok (some (.valT (.sstr ⟨p.1⟩)), p.2)
        else
          let run := d :: cs.takeWhile (fun c => !isDelimCh c)
          let rest := cs.dropWhile (fun c => !isDelimCh c)
          if isIntegerChars run then
            .ok (some (.valT (.sreal (.pint (pyParseInt run)))), rest)
          else if isNumberChars run then
            .ok (some (.valT (.sreal (.pfloat (parseFloatChars run)))), rest)
          else if isBinChars run ∧ cfg.enableBin then
            match parseHashBase 2 run with
            | .error e => .error e
            | .ok v => .ok (some (.valT (.sreal v)), rest)
          else if isOctChars run ∧ cfg.enableOct then
            match parseHashBase 8 run with
            | .error e => .error e
            | .ok v => .ok (some (.valT (.sreal v)), rest)
          else if isHexChars run ∧ cfg.enableHex then
            match parseHashBase 16 run with
            | .error e => .error e
            | .ok v => .ok (some (.valT (.sreal v)), rest)
          else if isRadixChars run ∧ cfg.enableRadix then
            .ok (some (.valT (radixToken cfg run)), rest)
          else if isFractionChars run ∧ cfg.enableFrac then
            match parseFractionChars run with
            | .error e => .error e
            | .ok v => .ok (some (.valT (.sreal v)), rest)
          else if d = '#' then
            if cfg.enableChar ∧ startsHashBackslash ⟨run⟩ then
              if charIsChar ⟨run⟩ then
                .ok (some (.valT (.schar (charCanonStr ⟨run⟩))), rest)
              else .ok (some (.valT (mkSymbol cfg ⟨run⟩)), rest)
            else if cfg.enableArray ∧ run = ['#'] ∧ rest.head? = some '(' then
              .ok (some (.arrT 1), rest)
            else
              let rest2 := rest.dropWhile isWsCh
              if cfg.enableComplex ∧ isHashC run ∧ rest2.head? = some '(' then
                .ok (some .complexT, rest2)
              else if cfg.enableArray ∧ isArrayPfxChars run ∧ rest2.head? = some '(' then
                .ok (some (.arrT (digitsToNat ((run.drop 1).takeWhile Char.isDigit))), rest2)
              else .ok (some (.valT (mkSymbol cfg ⟨run⟩)), rest2)
          else .ok (some (.valT (mkSymbol cfg ⟨run⟩)), rest)

/-- `_sxpr_tokenizer` on the streamer state: run `tokenizeCore` on the
pending characters and advance the character-level position over the
consumed prefix (each consumed character advances the position exactly
as `read` does, so the fold equals the sequential updates). -/
def sxprTokenizer (cfg : Dialect) (w : Char → Nat) (st : St) :
    Except SxErr (Option Tok × St) :=
  match tokenizeCore cfg (st.chars.length + 1) st.chars st.line st.col with
  | .error e => .error e
  | .ok (t, rest) =>
    let consumed := st.chars.take (st.chars.length - rest.length)
    let p := advancePosList w (st.lkLine, st.lkCol) consumed
    .ok (t, { st with chars := rest, lkLine := p.1, lkCol := p.2 })

/-- Fill the one-token lookahead buffer when it is still `_Undef` (the
first line of `_next_token`, lines 1070-1072). -/
def fillTok (cfg : Dialect) (w : Char → Nat) (st : St) : Except SxErr St :=
  match st.lkTok with
  | some _ => .ok st
  | none =>
    match sxprTokenizer cfg w st with
    | .error e => .error e
    | .ok (t, st1) => .ok { st1 with lkTok := some t }

/-- `_next_token` (lines 1070-1078): take the buffered token, stamp the
token-level position from the character-level one, and eagerly tokenize
the next token into the buffer - unless end of stream was delivered, in
which case the buffered `None` stays. -/
def nextToken (cfg : Dialect) (w : Char → Nat) (st : St) :
    Except SxErr (Option Tok × St) :=
  match fillTok cfg w st with
  | .error e => .error e
  | .ok st1 =>
    let st2 : St := { st1 with line := st1.lkLine, col := st1.lkCol }
    match st1.lkTok.getD none with
    | none => .ok (none, st2)
    | some t =>
      match sxprTokenizer cfg w st2 with
      | .error e => .error e
      | .ok (t2, st3) => .ok (some t, { st3 with lkTok := some t2 })

/-! ### The parser -/

/-- `Cons(x)` wraps the result of a recursive read; at end of stream the
read returns `None`, which is stored as is. -/
def optSx : Option SExpr → SExpr
  | some v => v
  | none => .pynone

/-- The result of the `Complex` constructor as a parser value. -/
def pyNumToSx : PyNum → SExpr
  | .ofReal r => .sreal r
  | .ofCplx re im => .scplx re im

mutual

/-- `_sxpr_read_obj` (lines 1283-1333): one complete S-expression per
call, or `none` at end of stream.  The mutual recursion is bounded by
fuel; `sxparse` supplies enough for any input (each nesting level
consumes at least one character). -/
def readObj (cfg : Dialect) (w : Char → Nat) : Nat → St → Except SxErr (Option SExpr × St)
  | 0, _ => .error .outOfFuel
  | fuel + 1, st =>
    match nextToken cfg w st with
    | .error e => .error e
    | .ok (tkn, st) =>
      match tkn with
      | none => .ok (none, st)
      | some .quoteT =>
        match readObj cfg w fuel st with
        | .error e => .error e
        | .ok (v, st) =>
          .ok (some (.scons (mkSymbol cfg "quote") (.scons (optSx v) .snil)), st)
      | some .funcrefT =>
        match readObj cfg w fuel st with
        | .error e => .error e
        | .ok (v, st) =>
          .ok (some (.scons (mkSymbol cfg "function") (.scons (optSx v) .snil)), st)
      | some (.valT v) => .ok (some v, st)
      | some .complexT =>
        match nextToken cfg w st with
        | .error e => .error e
        | .ok (some .lparT, st) =>
          match nextToken cfg w st with
          | .error e => .error e
          | .ok (some (.valT (.sreal re)), st) =>
            match nextToken cfg w st with
            | .error e => .error e
            | .ok (some (.valT (.sreal im)), st) =>
              match nextToken cfg w st with
              | .error e => .error e
              | .ok (some .rparT, st) =>
                .ok (some (pyNumToSx (complexNewVal (.cre re) (.cre im))), st)
              | .ok (_, st) => .error (.syntaxInvalidComplex st.line st.col)
            | .ok (_, st) => .error (.syntaxInvalidComplex st.line st.col)
          | .ok (_, st) => .error (.syntaxInvalidComplex st.line st.col)
        | .ok (_, st) => .error (.syntaxInvalidComplex st.line st.col)
      | some (.arrT n) =>
        match st.lkTok with
        | some (some .lparT) =>
          match nextToken cfg w st with
          | .error e => .error e
          | .ok (_, st) =>
            match readList cfg w fuel st with
            | .error e => .error e
            | .ok (lst, st) => .ok (some (.sarr n lst), st)
        | _ =>
          match nextToken cfg w st with
          | .error e => .error e
          | .ok (_, st) => .error (.syntaxInvalidArray st.line st.col)
      | some .lparT =>
        match readList cfg w fuel st with
        | .error e => .error e
        | .ok (lst, st) => .ok (some lst, st)
      | some .rparT => .error (.syntaxUnexpectedToken st.line st.col)
      | some .dotT => .error (.syntaxUnexpectedToken st.line st.col)

/-- `_sxpr_read_list` (lines 1336-1363), entered after the opening
parenthesis: an immediate closing parenthesis is NIL, otherwise the first
element followed by the CONSSEQ loop. -/
def readList (cfg : Dialect) (w : Char → Nat) : Nat → St → Except SxErr (SExpr × St)
  | 0, _ => .error .outOfFuel
  | fuel + 1, st =>
    match st.lkTok with
    | some (some .rparT) =>
      match nextToken cfg w st with
      | .error e => .error e
      | .ok (_, st) => .ok (.snil, st)
    | _ =>
      match readObj cfg w fuel st with
      | .error e => .error e
      | .ok (v, st) =>
        match consTail cfg w fuel st with
        | .error e => .error e
        | .ok (d, st) => .ok (.scons (optSx v) d, st)

/-- The CONSSEQ while loop of `_sxpr_read_list` (lines 1343-1363), as
the cdr it assigns to the current cell: a closing parenthesis ends the
list with NIL, a buffered end-of-stream raises the unexpected-EOF syntax
error (after consuming the token so the error carries its position), a
dot reads the final cdr and requires a closing parenthesis, and anything
else is a further element. -/
def consTail (cfg : Dialect) (w : Char → Nat) : Nat → St → Except SxErr (SExpr × St)
  | 0, _ => .error .outOfFuel
  | fuel + 1, st =>
    match st.lkTok with
    | some (some .rparT) =>
      match nextToken cfg w st with
      | .error e => .error e
      | .ok (_, st) => .ok (.snil, st)
    | some none =>
      match nextToken cfg w st with
      | .error e => .error e
      | .ok (_, st) => .error (.syntaxUnexpectedEOF st.line st.col)
    | some (some .dotT) =>
      match nextToken cfg w st with
      | .error e => .error e
      | .ok (_, st) =>
        match readObj cfg w fuel st with
        | .error e => .error e
        | .ok (v, st) =>
          match st.lkTok with
          | some (some .rparT) =>
            match nextToken cfg w st with
            | .error e => .error e
            | .ok (_, st) => .ok (optSx v, st)
          | _ =>
            match nextToken cfg w st with
            | .error e => .error e
            | .ok (_, st) => .error (.syntaxRParExpected st.line st.col)
    | _ =>
      match readObj cfg w fuel st with
      | .error e => .error e
      | .ok (v, st) =>
        match consTail cfg w fuel st with
        | .error e => .error e
        | .ok (d, st) => .ok (.scons (optSx v) d, st)

end

/-- `sxparse` (lines 1462-1466): read a single S-expression from a text.
The fuel bounds the parser recursion and the CONSSEQ loop; every element
and every nesting level consumes at least one character, so twice the
length plus a constant always suffices. -/
def sxparse (cfg : Dialect) (w : Char → Nat) (text : String) : Except SxErr (Option SExpr) :=
  match readObj cfg w (2 * text.length + 4) (St.init text) with
  | .error e => .error e
  | .ok (v, _) => .ok v

/-- A reader dialect with the quote, complex and fraction options on and
everything else (comments, escapes, funcref, the alternative radixes,
arrays, chars, case folding) off. -/
def rdCfg : Dialect :=
  ⟨false, false, false, true, false, false, false, false, false, true, false, true, false, false⟩

/-- The dialect of the round-trip statements: the complex and fraction
options on, everything else off. -/
def stdCfg : Dialect :=
  ⟨false, false, false, false, false, false, false, false, false, true, false, true, false, false⟩

mutual

/-- The token stream that the printed form of a tree denotes (used to
relate printing and parsing): atoms are single value tokens, a Complex
prints as the five-token `#C ( re im )` group, a list as its parenthesis
tokens around the element groups with a dot token before a dotted tail. -/
def toks : SExpr → List Tok
  | .snil => [.lparT, .rparT]
  | .scons a d => .lparT :: (seqToks a d ++ [.rparT])
  | .sreal r => [.valT (.sreal r)]
  | .scplx re im => [.complexT, .lparT, .valT (.sreal re), .valT (.sreal im), .rparT]
  | .ssym s => [.valT (.ssym s)]
  | .sstr s => [.valT (.sstr s)]
  | .schar s => [.valT (.schar s)]
  | .sarr _ _ => []
  | .pynone => []
termination_by e => 3 * sizeOf e

/-- The token stream of the element sequence of a printed list. -/
def seqToks (a d : SExpr) : List Tok :=
  toks a ++ tailToks d
termination_by 3 * sizeOf a + 3 * sizeOf d + 2

/-- The token stream of the cdr of a printed list cell: nothing for the
NIL terminator, the further elements for a list, a dot token and the
atom for a dotted tail. -/
def tailToks : SExpr → List Tok
  | .snil => []
  | .scons b dd => seqToks b dd
  | atom => .dotT :: toks atom
termination_by d => 3 * sizeOf d + 1

end

/-- Symbols that round trip untouched: nonempty, all lowercase ASCII
letters (so `Symbol.__str__` rewrites nothing, adds no vertical bars,
and the tokenizer reads the rendering back as the same symbol). -/
def goodSym (s : String) : Bool :=
  !s.data.isEmpty && s.data.all (fun c => decide (97 ≤ c.toNat) && decide (c.toNat ≤ 122))

/-- Strings that round trip untouched: printable ASCII with no double
quote and no backslash, so `json.dumps` escapes nothing. -/
def goodStr (s : String) : Bool :=
  s.data.all (fun c =>
    decide (32 ≤ c.toNat) && decide (c.toNat ≤ 126) && !(c == dquoteCh) && !(c == '\\'))

/-- Scalars that round trip: any int, or a Fraction in reduced form with
denominator other than 1 (the only Fractions the library constructs);
floats are excluded because their `repr` rendering is not modelled. -/
def goodReal : PyReal → Bool
  | .pint _ => true
  | .pfrac q => decide (q.den ≠ 1)
  | .pfloat _ => false

/-- The values of the amended round-trip statement: trees of NIL cells,
good symbols, good strings, exact scalars, and Complex values with a
nonzero imaginary part, under `stdCfg`.  In cdr position NIL reads as
the proper-list terminator and any other good value as a dotted tail. -/
def good : SExpr → Bool
  | .snil => true
  | .scons a d => good a && good d
  | .sreal r => goodReal r
  | .scplx re im => goodReal re && goodReal im && !(decide (im.toRat = 0))
  | .ssym s => goodSym s
  | .sstr s => goodStr s
  | .schar _ => false
  | .sarr _ _ => false
  | .pynone => false

/-- The repeated-tokenization relation: `Toked cs ts` says the pending
characters `cs` tokenize (with the fuel `sxprTokenizer` supplies) to
exactly the tokens `ts` and then a clean end of stream, independently of
the error-position arguments. -/
def Toked (cfg : Dialect) : List Char → List Tok → Prop
  | cs, [] => ∀ l c, tokenizeCore cfg (cs.length + 1) cs l c = .ok (none, [])
  | cs, t :: ts =>
    ∃ rest, (∀ l c, tokenizeCore cfg (cs.length + 1) cs l c = .ok (some t, rest)) ∧
      Toked cfg rest ts

/-- The buffered-stream invariant of the parser: the one-token lookahead
holds the head of the remaining token stream (or the end-of-stream mark),
and the pending characters tokenize to the rest of the stream. -/
def Strm (cfg : Dialect) (st : St) (ts : List Tok) : Prop :=
  st.lkTok = some ts.head? ∧ Toked cfg st.chars ts.tail

/-! ## Theorems -/

set_option allowUnsafeReducibility true

attribute [local semireducible] Rat.add Rat.mul Rat.inv Rat.sub

/-- Exactness is preserved by mixed-mode addition. -/
theorem isExact_pyAdd {a b : PyReal} (ha : a.isExact = true) (hb : b.isExact = true) :
    (a.pyAdd b).isExact = true := by
  cases a <;> cases b <;> simp_all [PyReal.pyAdd, PyReal.isExact]

/-- Exactness is preserved by mixed-mode subtraction. -/
theorem isExact_pySub {a b : PyReal} (ha : a.isExact = true) (hb : b.isExact = true) :
    (a.pySub b).isExact = true := by
  cases a <;> cases b <;> simp_all [PyReal.pySub, PyReal.isExact]

/-- Exactness is preserved by mixed-mode multiplication. -/
theorem isExact_pyMul {a b : PyReal} (ha : a.isExact = true) (hb : b.isExact = true) :
    (a.pyMul b).isExact = true := by
  cases a <;> cases b <;> simp_all [PyReal.pyMul, PyReal.isExact]

/-- Dividing an exact scalar by a nonzero Fraction succeeds and stays exact
(the int/int path that produces a float is not taken). -/
theorem pyDiv_pfrac_exact {x : PyReal} {q : ℚ} (hx : x.isExact = true) (hq : q ≠ 0) :
    ∃ y, x.pyDiv (.pfrac q) = some y ∧ y.isExact = true := by
  cases x <;> simp_all [PyReal.pyDiv, PyReal.toRat, PyReal.isExact]

/-- `reduceFrac` preserves exactness. -/
theorem isExact_reduceFrac {x : PyReal} (hx : x.isExact = true) :
    (reduceFrac x).isExact = true := by
  cases x with
  | pfrac q => by_cases h : q.den = 1 <;> simp [reduceFrac, h, PyReal.isExact]
  | pint z => simpa [reduceFrac] using hx
  | pfloat q => simpa [reduceFrac] using hx

/-- `reduceFrac` always yields a reduced scalar. -/
theorem isReduced_reduceFrac (x : PyReal) : (reduceFrac x).isReduced = true := by
  cases x with
  | pfrac q => by_cases h : q.den = 1 <;> simp [reduceFrac, h, PyReal.isReduced]
  | pint z => simp [reduceFrac, PyReal.isReduced]
  | pfloat q => simp [reduceFrac, PyReal.isReduced]

/-- The value constructor, applied to two real scalars, keeps exactness. -/
theorem exactParts_complexNewVal_cre {r i : PyReal} (hr : r.isExact = true)
    (hi : i.isExact = true) :
    (complexNewVal (.cre r) (.cre i)).exactParts = true := by
  simp only [complexNewVal]
  split
  · simpa [PyNum.exactParts] using isExact_reduceFrac hr
  · simp [PyNum.exactParts, isExact_reduceFrac hr, isExact_reduceFrac hi]

/-- `reduceComp` of two exact scalars has exact parts. -/
theorem exactParts_reduceComp {r i : PyReal} (hr : r.isExact = true) (hi : i.isExact = true) :
    (reduceComp r i).exactParts = true := by
  simp only [reduceComp]
  split
  · simpa [PyNum.exactParts] using isExact_reduceFrac hr
  · exact exactParts_complexNewVal_cre (isExact_reduceFrac hr) (isExact_reduceFrac hi)

/-- C3: for every pair of arguments accepted by the Complex constructor the
stored components are reduced (a Fraction with denominator 1 has become an
int); the constructor never returns a Complex whose imaginary part is 0;
for a real argument with imaginary argument 0 it returns the reduced real
component itself; in particular Complex(Rational(1,2), 0) is
Rational(1,2). -/
theorem c3_complex_constructor_canonical :
    (∀ v1 v2 : CplxArg, (complexNewVal v1 v2).reducedParts = true) ∧
    (∀ v1 v2 : CplxArg, ∀ re im : PyReal,
      complexNewVal v1 v2 = .ofCplx re im → im.toRat ≠ 0) ∧
    (∀ r : PyReal, complexNewVal (.cre r) (.cre (.pint 0)) = .ofReal (reduceFrac r)) ∧
    complexNewVal (.cre (.pfrac (mkRat 1 2))) (.cre (.pint 0)) =
      .ofReal (.pfrac (mkRat 1 2)) := by
  refine ⟨?_, ?_, ?_, by decide⟩
  · intro v1 v2
    simp only [complexNewVal]
    split
    · simpa [PyNum.reducedParts] using isReduced_reduceFrac _
    · simp [PyNum.reducedParts, isReduced_reduceFrac]
  · intro v1 v2 re im h
    simp only [complexNewVal] at h
    split at h
    · exact absurd h (by simp)
    · cases h
      assumption
  · intro r
    simp [complexNewVal, reduceFrac, PyReal.toRat]

/-- C3 witness: the universally quantified parts applied at concrete
arguments, discharging the hypothesis of the second part. -/
theorem c3_complex_constructor_canonical_witness :
    (complexNewVal (.cre (.pint 3)) (.cre (.pfrac (mkRat 1 2)))).reducedParts = true ∧
    (PyReal.pfrac (mkRat 1 2)).toRat ≠ 0 ∧
    complexNewVal (.cre (.pint 7)) (.cre (.pint 0)) = .ofReal (reduceFrac (.pint 7)) :=
  ⟨c3_complex_constructor_canonical.1 _ _,
   c3_complex_constructor_canonical.2.1 (.cre (.pint 3)) (.cre (.pfrac (mkRat 1 2)))
     (.pint 3) (.pfrac (mkRat 1 2)) (by decide),
   c3_complex_constructor_canonical.2.2.1 _⟩

/-- Splitting a cdr walk at the far end: one more step is a `bind` with
`cdrNext`. -/
theorem cdrIterN_succ_right {α : Type} (h : Heap α) (k a : Nat) :
    cdrIterN h (k + 1) a = (cdrIterN h k a).bind (cdrNext h) := by
  induction k generalizing a with
  | zero => cases hc : cdrNext h a <;> simp [cdrIterN, hc]
  | succ k ih =>
    cases hc : cdrNext h a with
    | none => simp [cdrIterN, hc]
    | some b =>
      have hl : cdrIterN h (k + 1 + 1) a = cdrIterN h (k + 1) b := by
        simp [cdrIterN, hc]
      rw [hl, ih b]
      simp [cdrIterN, hc]


/-- One more step from a known position is a plain `cdrNext`. -/
theorem cdrIterN_succ_of_some {α : Type} {h : Heap α} {k a c : Nat}
    (hck : cdrIterN h k a = some c) :
    cdrIterN h (k + 1) a = cdrNext h c := by
  rw [cdrIterN_succ_right, hck]
  rfl

/-- A successful cdr step elaborated: the cell resolves and its cdr field
is a reference. -/
theorem cdrNext_eq_some {α : Type} {h : Heap α} {a b : Nat} (hx : cdrNext h a = some b) :
    ∃ car, heapFind h a = some (car, .href b) := by
  unfold cdrNext at hx
  cases hfind : heapFind h a with
  | none => rw [hfind] at hx; cases hx
  | some cell =>
    rw [hfind] at hx
    obtain ⟨car, cd⟩ := cell
    cases cd <;> simp_all

/-- A resolvable address occurs among the heap addresses. -/
theorem heapFind_mem_fst {α : Type} {h : Heap α} {a : Nat} {cell : HV α × HV α}
    (hf : heapFind h a = some cell) : a ∈ h.map Prod.fst := by
  unfold heapFind at hf
  cases hfind : h.find? (fun e => e.1 == a) with
  | none => rw [hfind] at hf; cases hf
  | some e =>
    have hmem := List.mem_of_find?_eq_some hfind
    have hpred := List.find?_some hfind
    exact List.mem_map.mpr ⟨e, hmem, by simpa using hpred⟩

/-- The `Cons.__len__` loop along a recorded cdr path `L` (distinct
addresses, `L[i]` reached in `i` steps, the walk stopping after the last
element): started at position `k` with the first `k+1` cells visited, it
returns the length of the whole path. -/
theorem lenLoop_walk {α : Type} (h : Heap α) (a : Nat) (L : List Nat)
    (hL : ∀ i, i < L.length → L[i]? = cdrIterN h i a)
    (hnodup : L.Nodup)
    (hstop : cdrIterN h L.length a = none ∨
      ∃ j, j < L.length ∧ cdrIterN h L.length a = L[j]?) :
    ∀ fuel k c occ, k < L.length → L.length ≤ k + 1 + fuel →
      L[k]? = some c → (∀ x, x ∈ occ ↔ ∃ i, i ≤ k ∧ L[i]? = some x) →
      lenLoop h fuel c occ (k + 1) = L.length := by
  intro fuel
  induction fuel with
  | zero =>
    intro k c occ hk hfuel _ _
    have hlen : L.length = k + 1 := by omega
    simp [lenLoop, hlen]
  | succ fuel ih =>
    intro k c occ hk hfuel hc hocc
    have hck : cdrIterN h k a = some c := by rw [← hL k hk]; exact hc
    by_cases hlast : k + 1 = L.length
    · have hIter : cdrIterN h L.length a = cdrNext h c := by
        rw [← hlast, cdrIterN_succ_right, hck]
        rfl
      rcases hstop with hnone | ⟨j, hj, hjeq⟩
      · have hcnone : cdrNext h c = none := by rw [← hIter]; exact hnone
        cases hfind : heapFind h c with
        | none => simp [lenLoop, hfind, hlast]
        | some cell =>
          obtain ⟨car, cd⟩ := cell
          cases cd with
          | href b =>
            exact absurd (by simp [cdrNext, hfind] : cdrNext h c = some b)
              (by simp [hcnone])
          | hnil => simp [lenLoop, hfind, hlast]
          | hatom v => simp [lenLoop, hfind, hlast]
      · have hjlt : j < L.length := hj
        have hjget : L[j]? = some L[j] := List.getElem?_eq_getElem hjlt
        have hcd : cdrNext h c = some L[j] := by
          rw [← hIter, hjeq]
          exact hjget
        obtain ⟨car, hfind⟩ := cdrNext_eq_some hcd
        have hmemocc : L[j] ∈ occ := (hocc _).mpr ⟨j, by omega, hjget⟩
        simp [lenLoop, hfind, hmemocc, hlast]
    · have hk1 : k + 1 < L.length := by omega
      have hnext : L[k + 1]? = some L[k + 1] := List.getElem?_eq_getElem hk1
      have hstep : cdrNext h c = some L[k + 1] := by
        have hx := hL (k + 1) hk1
        rw [cdrIterN_succ_of_some hck] at hx
        rw [← hx]
        exact hnext
      obtain ⟨car, hfind⟩ := cdrNext_eq_some hstep
      have hdnot : L[k + 1] ∉ occ := by
        intro hd
        obtain ⟨i, hik, hieq⟩ := (hocc _).mp hd
        have : i = k + 1 :=
          List.getElem?_inj (by omega) hnodup (hieq.trans hnext.symm)
        omega
      have hres : lenLoop h (fuel + 1) c occ (k + 1) =
          lenLoop h fuel L[k + 1] (L[k + 1] :: occ) (k + 1 + 1) := by
        simp [lenLoop, hfind, hdnot]
      rw [hres]
      refine ih (k + 1) L[k + 1] (L[k + 1] :: occ) hk1 (by omega) hnext ?_
      intro x
      constructor
      · intro hx
        rcases List.mem_cons.mp hx with rfl | hx2
        · exact ⟨k + 1, le_refl _, hnext⟩
        · obtain ⟨i, hik, hieq⟩ := (hocc x).mp hx2
          exact ⟨i, by omega, hieq⟩
      · rintro ⟨i, hik, hieq⟩
        rcases Nat.lt_or_ge i (k + 1) with hik2 | hik2
        · exact List.mem_cons.mpr (.inr ((hocc x).mpr ⟨i, by omega, hieq⟩))
        · have : i = k + 1 := by omega
          subst this
          have : x = L[k + 1] := by
            rw [hnext] at hieq
            exact (Option.some.injEq _ _ ▸ hieq).symm
          exact this ▸ List.mem_cons_self _ _

/-- Every cell reachable from `a` lies on the recorded path. -/
theorem reach_mem_path {α : Type} (h : Heap α) (a : Nat) (L : List Nat)
    (hne : L ≠ [])
    (hL : ∀ i, i < L.length → L[i]? = cdrIterN h i a)
    (hstop : cdrIterN h L.length a = none ∨
      ∃ j, j < L.length ∧ cdrIterN h L.length a = L[j]?) :
    ∀ k x, cdrIterN h k a = some x → x ∈ L := by
  intro k
  induction k with
  | zero =>
    intro x hx
    simp only [cdrIterN] at hx
    cases hx
    have hpos : 0 < L.length := List.length_pos.mpr hne
    exact List.getElem?_mem (by simpa [cdrIterN] using hL 0 hpos)
  | succ k ih =>
    intro x hx
    cases hy : cdrIterN h k a with
    | none => rw [cdrIterN_succ_right, hy] at hx; cases hx
    | some y =>
      have hx2 : cdrNext h y = some x := by
        rw [cdrIterN_succ_of_some hy] at hx
        exact hx
      have hymem : y ∈ L := ih y hy
      obtain ⟨j, hj, hjy⟩ := List.getElem_of_mem hymem
      have hjget : L[j]? = some y := by rw [List.getElem?_eq_getElem hj, hjy]
      have hyj : cdrIterN h j a = some y := by rw [← hL j hj]; exact hjget
      by_cases hj1 : j + 1 < L.length
      · have hx3 : L[j + 1]? = cdrNext h y := by
          rw [hL (j + 1) hj1, cdrIterN_succ_of_some hyj]
        rw [hx2] at hx3
        exact List.getElem?_mem hx3
      · have hjlen : j + 1 = L.length := by omega
        have hIter : cdrIterN h L.length a = cdrNext h y := by
          rw [← hjlen, cdrIterN_succ_of_some hyj]
        rcases hstop with hnone | ⟨j2, hj2, hj2eq⟩
        · rw [hIter, hx2] at hnone
          cases hnone
        · rw [hIter, hx2] at hj2eq
          exact List.getElem?_mem hj2eq.symm

/-- The recorded path is not longer than the heap plus one: all but its
last element resolve to distinct heap addresses. -/
theorem path_length_le {α : Type} (h : Heap α) (a : Nat) (L : List Nat)
    (hL : ∀ i, i < L.length → L[i]? = cdrIterN h i a)
    (hnodup : L.Nodup) :
    L.length ≤ h.length + 1 := by
  by_cases hlen : L.length ≤ 1
  · omega
  have hdom : ∀ i, ∀ hi : i + 1 < L.length, L.get ⟨i, by omega⟩ ∈ h.map Prod.fst := by
    intro i hi
    have hilt : i < L.length := by omega
    have hx : L[i]? = some (L.get ⟨i, hilt⟩) := List.getElem?_eq_getElem hilt
    have h2 : cdrIterN h i a = some (L.get ⟨i, hilt⟩) := by rw [← hL i (by omega)]; exact hx
    have h1 := hL (i + 1) hi
    rw [cdrIterN_succ_of_some h2] at h1
    have h3 : ∃ d, cdrNext h (L.get ⟨i, hilt⟩) = some d := by
      cases hcd : cdrNext h (L.get ⟨i, hilt⟩) with
      | none =>
        rw [hcd] at h1
        exact absurd (List.getElem?_eq_getElem hi ▸ h1) (by simp)
      | some d => exact ⟨d, rfl⟩
    obtain ⟨d, hd⟩ := h3
    obtain ⟨car, hfind⟩ := cdrNext_eq_some hd
    exact heapFind_mem_fst hfind
  have hcard : L.length - 1 ≤ h.length := by
    have hmaps : ∀ i ∈ Finset.range (L.length - 1), L.getD i 0 ∈ (h.map Prod.fst).toFinset := by
      intro i hi
      have hi2 : i + 1 < L.length := by
        have := Finset.mem_range.mp hi
        omega
      rw [List.getD_eq_getElem L 0 (by omega)]
      exact List.mem_toFinset.mpr (hdom i hi2)
    have hinj : Set.InjOn (fun i => L.getD i 0) ↑(Finset.range (L.length - 1)) := by
      intro i hi j hj hij
      simp only [Finset.coe_range, Set.mem_Iio] at hi hj
      simp only [List.getD_eq_getElem L 0 (by omega : i < L.length),
        List.getD_eq_getElem L 0 (by omega : j < L.length)] at hij
      have h2 : L[i]? = L[j]? := by
        rw [List.getElem?_eq_getElem (by omega : i < L.length),
          List.getElem?_eq_getElem (by omega : j < L.length), hij]
      exact List.getElem?_inj (by omega) hnodup h2
    calc L.length - 1 = (Finset.range (L.length - 1)).card := by simp
      _ ≤ (h.map Prod.fst).toFinset.card := Finset.card_le_card_of_injOn _ hmaps hinj
      _ ≤ (h.map Prod.fst).length := (h.map Prod.fst).toFinset_card_le
      _ = h.length := by simp
  omega

/-- C5: for every Cons cell, `len` returns the number of distinct Cons
cells reachable from it by following cdr.  The reachable cells are
recorded as the path `L`: `L[i]` is the cell reached after `i` cdr steps,
the addresses are distinct, and after the last element the walk either
leaves the cons cells or returns to a recorded cell. -/
theorem c5_len_counts_reachable {α : Type} (h : Heap α) (a : Nat) (L : List Nat)
    (hne : L ≠ [])
    (hL : ∀ i, i < L.length → L[i]? = cdrIterN h i a)
    (hnodup : L.Nodup)
    (hstop : cdrIterN h L.length a = none ∨
      ∃ j, j < L.length ∧ cdrIterN h L.length a = L[j]?) :
    consLen h a = L.length ∧ {b | ReachCdr h a b}.ncard = L.length := by
  have hpos : 0 < L.length := List.length_pos.mpr hne
  have h0 : L[0]? = some a := by simpa [cdrIterN] using hL 0 hpos
  constructor
  · have hbound := path_length_le h a L hL hnodup
    refine lenLoop_walk h a L hL hnodup hstop h.length 0 a [a] hpos (by omega) h0 ?_
    intro x
    constructor
    · intro hx
      rcases List.mem_cons.mp hx with rfl | hx2
      · exact ⟨0, le_refl _, h0⟩
      · cases hx2
    · rintro ⟨i, hik, hieq⟩
      have : i = 0 := by omega
      subst this
      rw [h0] at hieq
      cases hieq
      exact List.mem_cons_self _ _
  · have hset : {b | ReachCdr h a b} = ↑L.toFinset := by
      ext b
      simp only [Set.mem_setOf_eq, Finset.coe_sort_coe, List.coe_toFinset, Set.mem_setOf_eq]
      constructor
      · rintro ⟨k, hk⟩
        exact reach_mem_path h a L hne hL hstop k b hk
      · intro hb
        obtain ⟨j, hj, hjb⟩ := List.getElem_of_mem hb
        refine ⟨j, ?_⟩
        rw [← hL j hj, List.getElem?_eq_getElem hj, hjb]
    rw [hset, Set.ncard_coe_Finset, List.toFinset_card_of_nodup hnodup]

/-- C5 witness: a single self-cycle cell `c` with `c.cdr = c`; its length
is 1 and exactly one cell is reachable. -/
theorem c5_len_counts_reachable_witness :
    consLen [(0, (HV.hatom (1 : ℤ), HV.href 0))] 0 = 1 ∧
    {b | ReachCdr [(0, (HV.hatom (1 : ℤ), HV.href 0))] 0 b}.ncard = 1 :=
  c5_len_counts_reachable [(0, (HV.hatom (1 : ℤ), HV.href 0))] 0 [0]
    (by decide) (by decide) (by decide) (.inr ⟨0, by decide, by decide⟩)

/-- Walking an index through Nil stays on Nil and finally returns Nil. -/
theorem getLoop_nil {α : Type} (h : Heap α) : ∀ m, getLoop h m (.hnil : HV α) = .ok .hnil := by
  intro m
  induction m with
  | zero => rfl
  | succ m ih => simpa [getLoop] using ih

/-- An index walk that passes `k` cons cells reduces to the walk from the
cell reached after `k` cdr steps. -/
theorem getLoop_shift {α : Type} {h : Heap α} {k a b : Nat} (hk : cdrIterN h k a = some b) :
    ∀ m, getLoop h (k + m) (.href a) = getLoop h m (.href b) := by
  induction k generalizing a with
  | zero =>
    simp only [cdrIterN] at hk
    cases hk
    intro m
    rw [Nat.zero_add]
  | succ k ih =>
    intro m
    unfold cdrIterN at hk
    cases hc : cdrNext h a with
    | none => rw [hc] at hk; cases hk
    | some c =>
      rw [hc] at hk
      obtain ⟨car, hfind⟩ := cdrNext_eq_some hc
      have hcdr : heapCdr h a = .href c := by simp [heapCdr, hfind]
      have harith : k + 1 + m = (k + m) + 1 := by omega
      rw [harith]
      have hstep : getLoop h ((k + m) + 1) (.href a) = getLoop h (k + m) (.href c) := by
        simp [getLoop, hcdr]
      rw [hstep]
      exact ih hk m

/-- C6 counterexample: the claim says indexing past the Nil terminator of a
proper list raises an out-of-range error, but on the one-element list
`Cons(1, Nil)` the index 2 returns NIL: Nil passes the
`type(c) in (Cons, Nil)` check and `Nil.cdr` is Nil. -/
theorem c6_getitem_counterexample :
    consGetItem [(0, (HV.hatom (1 : ℤ), HV.hnil))] 0 2 = .ok .hnil ∧
    consGetItem [(0, (HV.hatom (1 : ℤ), HV.hnil))] 0 2 ≠ .error .indexError := by
  decide

/-- C6 amended: a negative index raises IndexError; reading index `n` walks
cdr `n` times; if the walk ends on a Cons it returns that cell car, and if
it ends exactly on the terminal atom it returns that atom; meeting a
non-Cons non-Nil atom while more indexing remains raises IndexError; but
meeting Nil does not raise: the walk continues through `Nil.cdr = Nil` and
returns NIL. -/
theorem c6_getitem_amended {α : Type} :
    (∀ (h : Heap α) (a : Nat) (n : ℤ), n < 0 → consGetItem h a n = .error .indexError) ∧
    (∀ (h : Heap α) (a n b : Nat), cdrIterN h n a = some b →
      consGetItem h a (n : ℤ) = .ok (heapCar h b)) ∧
    (∀ (h : Heap α) (a k ℓ : Nat) (car : HV α) (v : α),
      cdrIterN h k a = some ℓ → heapFind h ℓ = some (car, .hatom v) →
      consGetItem h a ((k + 1 : ℕ) : ℤ) = .ok (.hatom v)) ∧
    (∀ (h : Heap α) (a k ℓ j : Nat) (car : HV α) (v : α),
      cdrIterN h k a = some ℓ → heapFind h ℓ = some (car, .hatom v) →
      consGetItem h a ((k + 2 + j : ℕ) : ℤ) = .error .indexError) ∧
    (∀ (h : Heap α) (a k ℓ j : Nat) (car : HV α),
      cdrIterN h k a = some ℓ → heapFind h ℓ = some (car, .hnil) →
      consGetItem h a ((k + 1 + j : ℕ) : ℤ) = .ok .hnil) := by
  refine ⟨?_, ?_, ?_, ?_, ?_⟩
  · intro h a n hn
    simp [consGetItem, hn]
  · intro h a n b hb
    unfold consGetItem
    rw [if_neg (by omega), Int.toNat_natCast]
    have := getLoop_shift hb 0
    rw [Nat.add_zero] at this
    rw [this]
    rfl
  · intro h a k ℓ car v hℓ hfind
    unfold consGetItem
    rw [if_neg (by omega), Int.toNat_natCast]
    rw [getLoop_shift hℓ 1]
    have hcdr : heapCdr h ℓ = .hatom v := by simp [heapCdr, hfind]
    simp [getLoop, hcdr]
  · intro h a k ℓ j car v hℓ hfind
    unfold consGetItem
    rw [if_neg (by omega), Int.toNat_natCast]
    have harith : k + 2 + j = k + (2 + j) := by omega
    rw [harith, getLoop_shift hℓ (2 + j)]
    have hcdr : heapCdr h ℓ = .hatom v := by simp [heapCdr, hfind]
    have hstep : getLoop h (2 + j) (.href ℓ) = getLoop h (1 + j) (.hatom v) := by
      have h2j : 2 + j = (1 + j) + 1 := by omega
      rw [h2j]
      simp [getLoop, hcdr]
    rw [hstep]
    have h1j : 1 + j = j + 1 := by omega
    rw [h1j]
    simp [getLoop]
  · intro h a k ℓ j car hℓ hfind
    unfold consGetItem
    rw [if_neg (by omega), Int.toNat_natCast]
    have harith : k + 1 + j = k + (1 + j) := by omega
    rw [harith, getLoop_shift hℓ (1 + j)]
    have hcdr : heapCdr h ℓ = .hnil := by simp [heapCdr, hfind]
    have hstep : getLoop h (1 + j) (.href ℓ) = getLoop h j (.hnil : HV α) := by
      have h1j : 1 + j = j + 1 := by omega
      rw [h1j]
      simp [getLoop, hcdr]
    rw [hstep]
    exact getLoop_nil h j

/-- C6 witness: on the dotted pair `Cons(7, 5)` index 0 reads the car,
index 1 the terminal atom, index 2 raises; a negative index raises; and
past-the-end indexing of `Cons(7, Nil)` returns NIL. -/
theorem c6_getitem_amended_witness :
    consGetItem [(0, (HV.hatom (7 : ℤ), HV.hatom 5))] 0 (-1) = .error .indexError ∧
    consGetItem [(0, (HV.hatom (7 : ℤ), HV.hatom 5))] 0 ((0 : ℕ) : ℤ) =
      .ok (heapCar [(0, (HV.hatom (7 : ℤ), HV.hatom 5))] 0) ∧
    consGetItem [(0, (HV.hatom (7 : ℤ), HV.hatom 5))] 0 ((0 + 1 : ℕ) : ℤ) =
      .ok (.hatom 5) ∧
    consGetItem [(0, (HV.hatom (7 : ℤ), HV.hatom 5))] 0 ((0 + 2 + 0 : ℕ) : ℤ) =
      .error .indexError ∧
    consGetItem [(1, (HV.hatom (7 : ℤ), HV.hnil))] 1 ((0 + 1 + 3 : ℕ) : ℤ) = .ok .hnil :=
  ⟨c6_getitem_amended.1 _ 0 (-1) (by decide),
   c6_getitem_amended.2.1 _ 0 0 0 (by decide),
   c6_getitem_amended.2.2.1 _ 0 0 0 (HV.hatom 7) 5 (by decide) (by decide),
   c6_getitem_amended.2.2.2.1 _ 0 0 0 0 (HV.hatom 7) 5 (by decide) (by decide),
   c6_getitem_amended.2.2.2.2 _ 1 0 1 3 (HV.hatom 7) (by decide) (by decide)⟩

/-- Iterating from Nil yields nothing, whatever the fuel and visit set. -/
theorem iterLoop_nil {α : Type} (h : Heap α) :
    ∀ fuel occ, iterLoop h fuel (.hnil : HV α) occ = [] := by
  intro fuel occ
  cases fuel <;> rfl

/-- A list of distinct elements drawn from `M` is no longer than `M`. -/
theorem nodup_mem_length_le {L M : List Nat} (hnd : L.Nodup) (hsub : ∀ x ∈ L, x ∈ M) :
    L.length ≤ M.length := by
  calc L.length = L.toFinset.card := (List.toFinset_card_of_nodup hnd).symm
    _ ≤ M.toFinset.card :=
      Finset.card_le_card (fun x hx => List.mem_toFinset.mpr (hsub x (List.mem_toFinset.mp hx)))
    _ ≤ M.length := M.toFinset_card_le

/-- The `_ConsIterator` loop along a recorded cdr path: from position `k`
with the first `k` cells visited, it yields the cars of the remaining
cells in order followed by the tail dictated by the cdr of the final cell
(nothing for Nil, the atom itself for a dotted chain, nothing on a return
to a visited cell). -/
theorem iterLoop_walk {α : Type} (h : Heap α) (a : Nat) (L : List Nat)
    (hL : ∀ i, i < L.length → L[i]? = cdrIterN h i a)
    (hnodup : L.Nodup)
    {ℓ : Nat} (hℓ : L[L.length - 1]? = some ℓ)
    {cell : HV α × HV α} (hfind : heapFind h ℓ = some cell)
    (tail : List (HV α))
    (htail : (cell.2 = .hnil ∧ tail = []) ∨
      (∃ v, cell.2 = .hatom v ∧ tail = [.hatom v]) ∨
      (∃ b, cell.2 = .href b ∧ b ∈ L ∧ tail = [])) :
    ∀ fuel k c occ, k < L.length → L.length + 1 ≤ k + fuel → L[k]? = some c →
      (∀ x, x ∈ occ ↔ ∃ i, i < k ∧ L[i]? = some x) →
      iterLoop h fuel (.href c) occ = (L.drop k).map (heapCar h) ++ tail := by
  intro fuel
  induction fuel with
  | zero =>
    intro k c occ hk hfuel _ _
    omega
  | succ fuel ih =>
    intro k c occ hk hfuel hc hocc
    have hcnot : c ∉ occ := by
      intro hmem
      obtain ⟨i, hik, hieq⟩ := (hocc c).mp hmem
      have : i = k := List.getElem?_inj (by omega) hnodup (hieq.trans hc.symm)
      omega
    have hdrop : L.drop k = c :: L.drop (k + 1) := by
      have := List.drop_eq_getElem_cons hk
      rw [List.getElem?_eq_getElem hk] at hc
      cases hc
      exact this
    by_cases hk1 : k + 1 < L.length
    · have hnext : L[k + 1]? = some L[k + 1] := List.getElem?_eq_getElem hk1
      have hck : cdrIterN h k a = some c := by rw [← hL k hk]; exact hc
      have hstep : cdrNext h c = some L[k + 1] := by
        have hx := hL (k + 1) hk1
        rw [cdrIterN_succ_of_some hck] at hx
        rw [← hx]
        exact hnext
      obtain ⟨car, hfindc⟩ := cdrNext_eq_some hstep
      have hcdr : heapCdr h c = .href L[k + 1] := by simp [heapCdr, hfindc]
      have hres : iterLoop h (fuel + 1) (.href c) occ =
          heapCar h c :: iterLoop h fuel (.href L[k + 1]) (c :: occ) := by
        simp [iterLoop, hcnot, hcdr]
      rw [hres, hdrop]
      have hrec := ih (k + 1) L[k + 1] (c :: occ) hk1 (by omega) hnext ?_
      · rw [hrec]
        simp
      · intro x
        constructor
        · intro hx
          rcases List.mem_cons.mp hx with rfl | hx2
          · exact ⟨k, by omega, hc⟩
          · obtain ⟨i, hik, hieq⟩ := (hocc x).mp hx2
            exact ⟨i, by omega, hieq⟩
        · rintro ⟨i, hik, hieq⟩
          rcases Nat.lt_or_ge i k with hik2 | hik2
          · exact List.mem_cons.mpr (.inr ((hocc x).mpr ⟨i, hik2, hieq⟩))
          · have : i = k := by omega
            subst this
            have : x = c := by
              rw [hc] at hieq
              exact (Option.some.injEq _ _ ▸ hieq).symm
            exact this ▸ List.mem_cons_self _ _
    · have hklast : k = L.length - 1 := by omega
      have hcl : c = ℓ := by
        rw [hklast] at hc
        rw [hc] at hℓ
        exact Option.some.injEq _ _ ▸ hℓ
      subst hcl
      have hcdr : heapCdr h c = cell.2 := by simp [heapCdr, hfind]
      have hdropend : L.drop (k + 1) = [] := by
        apply List.drop_eq_nil_of_le
        omega
      rcases htail with ⟨hnil, htl⟩ | ⟨v, hatom, htl⟩ | ⟨b, hrefb, hbmem, htl⟩
      · have hres : iterLoop h (fuel + 1) (.href c) occ =
            heapCar h c :: iterLoop h fuel (.hnil : HV α) (c :: occ) := by
          rw [hnil] at hcdr
          simp [iterLoop, hcnot, hcdr]
        rw [hres, iterLoop_nil, hdrop, hdropend, htl]
        simp
      · have hres : iterLoop h (fuel + 1) (.href c) occ =
            heapCar h c :: iterLoop h fuel (.hatom v) (c :: occ) := by
          rw [hatom] at hcdr
          simp [iterLoop, hcnot, hcdr]
        have hfuelpos : ∃ fuel2, fuel = fuel2 + 1 := by
          cases fuel with
          | zero => omega
          | succ f => exact ⟨f, rfl⟩
        obtain ⟨fuel2, rfl⟩ := hfuelpos
        rw [hres, hdrop, hdropend, htl]
        simp [iterLoop]
      · have hbocc : b ∈ c :: occ := by
          obtain ⟨i, hi, hib⟩ := List.getElem_of_mem hbmem
          rcases Nat.lt_or_ge i k with hik | hik
          · exact List.mem_cons.mpr
              (.inr ((hocc b).mpr ⟨i, hik, by rw [List.getElem?_eq_getElem hi, hib]⟩))
          · have : i = k := by omega
            subst this
            have hbc : b = c := by
              rw [List.getElem?_eq_getElem hi, hib] at hc
              exact Option.some.injEq _ _ ▸ hc
            exact hbc ▸ List.mem_cons_self _ _
        have hres : iterLoop h (fuel + 1) (.href c) occ =
            heapCar h c :: iterLoop h fuel (.href b) (c :: occ) := by
          rw [hrefb] at hcdr
          simp [iterLoop, hcnot, hcdr]
        have hstop : iterLoop h fuel (.href b) (c :: occ) = [] := by
          cases fuel with
          | zero => rfl
          | succ f => simp [iterLoop, hbocc]
        rw [hres, hstop, hdrop, hdropend, htl]
        simp

/-- C10: iterating Nil yields no elements; iterating a Cons chain yields
the car of each distinct cell in cdr order, visiting each cell at most
once (the path `L` of cells is duplicate-free), with a terminal non-Nil
atom yielded last and a cyclic chain terminating after one element per
distinct cell. -/
theorem c10_cons_iteration {α : Type} :
    (∀ h : Heap α, consIter h .hnil = []) ∧
    (∀ (h : Heap α) (a ℓ : Nat) (L : List Nat) (cell : HV α × HV α),
      L ≠ [] → (∀ i, i < L.length → L[i]? = cdrIterN h i a) → L.Nodup →
      L[L.length - 1]? = some ℓ → heapFind h ℓ = some cell →
      ((cell.2 = .hnil → consIter h (.href a) = L.map (heapCar h)) ∧
       (∀ v, cell.2 = .hatom v →
         consIter h (.href a) = L.map (heapCar h) ++ [.hatom v]) ∧
       (∀ b, cell.2 = .href b → b ∈ L →
         consIter h (.href a) = L.map (heapCar h)))) := by
  constructor
  · intro h
    exact iterLoop_nil h _ _
  · intro h a ℓ L cell hne hL hnodup hℓ hfind
    have hpos : 0 < L.length := List.length_pos.mpr hne
    have h0 : L[0]? = some a := by simpa [cdrIterN] using hL 0 hpos
    have hdom : ∀ x ∈ L, x ∈ h.map Prod.fst := by
      intro x hx
      obtain ⟨i, hi, hix⟩ := List.getElem_of_mem hx
      by_cases hi1 : i + 1 < L.length
      · have hxi : L[i]? = some x := by rw [List.getElem?_eq_getElem hi, hix]
        have h2 : cdrIterN h i a = some x := by rw [← hL i hi]; exact hxi
        have h1 := hL (i + 1) hi1
        rw [cdrIterN_succ_of_some h2] at h1
        cases hcd : cdrNext h x with
        | none =>
          rw [hcd] at h1
          exact absurd (List.getElem?_eq_getElem hi1 ▸ h1) (by simp)
        | some d =>
          obtain ⟨car, hfindx⟩ := cdrNext_eq_some hcd
          exact heapFind_mem_fst hfindx
      · have : i = L.length - 1 := by omega
        subst this
        have : x = ℓ := by
          rw [List.getElem?_eq_getElem hi, hix] at hℓ
          exact Option.some.injEq _ _ ▸ hℓ
        subst this
        exact heapFind_mem_fst hfind
    have hlen : L.length ≤ h.length := by
      have := nodup_mem_length_le hnodup hdom
      simpa using this
    refine ⟨fun hnil => ?_, fun v hatom => ?_, fun b hrefb hbmem => ?_⟩
    · have := iterLoop_walk h a L hL hnodup hℓ hfind [] (.inl ⟨hnil, rfl⟩)
        (h.length + 1) 0 a [] hpos (by omega) h0 (by simp)
      simpa [consIter] using this
    · have := iterLoop_walk h a L hL hnodup hℓ hfind [.hatom v] (.inr (.inl ⟨v, hatom, rfl⟩))
        (h.length + 1) 0 a [] hpos (by omega) h0 (by simp)
      simpa [consIter] using this
    · have := iterLoop_walk h a L hL hnodup hℓ hfind [] (.inr (.inr ⟨b, hrefb, hbmem, rfl⟩))
        (h.length + 1) 0 a [] hpos (by omega) h0 (by simp)
      simpa [consIter] using this

/-- C10 witness: iterating the dotted chain `Cons(1, Cons(2, 3))` yields
1, 2 and then the terminal atom 3, and iterating a two-cell cycle yields
one element per distinct cell. -/
theorem c10_cons_iteration_witness :
    consIter ([] : Heap ℤ) .hnil = [] ∧
    consIter [(0, (HV.hatom (1 : ℤ), HV.href 1)), (1, (HV.hatom 2, HV.hatom 3))] (.href 0) =
      [HV.hatom 1, HV.hatom 2, HV.hatom 3] ∧
    consIter [(0, (HV.hatom (1 : ℤ), HV.href 1)), (1, (HV.hatom 2, HV.href 0))] (.href 0) =
      [HV.hatom 1, HV.hatom 2] := by
  refine ⟨(c10_cons_iteration (α := ℤ)).1 [], ?_, ?_⟩
  · have := ((c10_cons_iteration (α := ℤ)).2
      [(0, (HV.hatom (1 : ℤ), HV.href 1)), (1, (HV.hatom 2, HV.hatom 3))] 0 1 [0, 1]
      (HV.hatom 2, HV.hatom 3) (by decide) (by decide) (by decide) (by decide)
      (by decide)).2.1 3 (by decide)
    rw [this]
    rfl
  · have := ((c10_cons_iteration (α := ℤ)).2
      [(0, (HV.hatom (1 : ℤ), HV.href 1)), (1, (HV.hatom 2, HV.href 0))] 0 1 [0, 1]
      (HV.hatom 2, HV.href 0) (by decide) (by decide) (by decide) (by decide)
      (by decide)).2.2 0 (by decide) (by decide)
    rw [this]
    rfl

/-- C8: on an already constructed Symbol, Char or String (whose instance
dictionary binds "value") or Complex (binding "real" and "imag"), any
attempt to reassign the write-once attribute raises PermissionError, any
attempt to delete it raises PermissionError unconditionally, and the
dictionary is unchanged afterwards. -/
theorem c8_write_once_attributes {α : Type} :
    (∀ (d : List (String × α)) (v : α), dictHas d "value" = true →
        symbolSetattr d "value" v = (.error .permissionError, d) ∧
        charSetattr d "value" v = (.error .permissionError, d) ∧
        stringSetattr d "value" v = (.error .permissionError, d)) ∧
    (∀ d : List (String × α),
        symbolDelattr d "value" = (.error .permissionError, d) ∧
        charDelattr d "value" = (.error .permissionError, d) ∧
        stringDelattr d "value" = (.error .permissionError, d)) ∧
    (∀ (d : List (String × α)) (v : α), dictHas d "real" = true →
        complexSetattr d "real" v = (.error .permissionError, d)) ∧
    (∀ (d : List (String × α)) (v : α), dictHas d "imag" = true →
        complexSetattr d "imag" v = (.error .permissionError, d)) ∧
    (∀ d : List (String × α),
        complexDelattr d "real" = (.error .permissionError, d) ∧
        complexDelattr d "imag" = (.error .permissionError, d)) := by
  refine ⟨fun d v h => ?_, fun d => ?_, fun d v h => ?_, fun d v h => ?_, fun d => ?_⟩
  · exact ⟨by simp [symbolSetattr, h], by simp [charSetattr, h], by simp [stringSetattr, h]⟩
  · exact ⟨by simp [symbolDelattr], by simp [charDelattr], by simp [stringDelattr]⟩
  · simp [complexSetattr, h]
  · simp [complexSetattr, h]
  · exact ⟨by simp [complexDelattr], by simp [complexDelattr]⟩

/-- C8 witness: the guards applied to concrete one-attribute dictionaries. -/
theorem c8_write_once_attributes_witness :
    symbolSetattr [("value", 0)] "value" 1 = (.error .permissionError, [("value", 0)]) ∧
    complexSetattr [("real", 0), ("imag", 1)] "imag" 2 =
      (.error .permissionError, [("real", 0), ("imag", 1)]) ∧
    complexDelattr ([("real", 0), ("imag", 1)] : List (String × ℕ)) "real" =
      (.error .permissionError, [("real", 0), ("imag", 1)]) :=
  ⟨((c8_write_once_attributes (α := ℕ)).1 [("value", 0)] 1 (by decide)).1,
   (c8_write_once_attributes (α := ℕ)).2.2.2.1 [("real", 0), ("imag", 1)] 2 (by decide),
   ((c8_write_once_attributes (α := ℕ)).2.2.2.2 [("real", 0), ("imag", 1)]).1⟩

/-- C4 counterexample: the claim says division of an exact Complex by a
nonzero exact real yields exact (Int or Rational) components, but
Complex(1,1) / 2 is computed with Python int/int true division and has
float components 0.5 and 0.5. -/
theorem c4_division_exactness_counterexample :
    complexTrueDiv (.pint 1) (.pint 1) (.cre (.pint 2)) =
      some (.ofCplx (.pfloat (mkRat 1 2)) (.pfloat (mkRat 1 2))) ∧
    (PyNum.ofCplx (.pfloat (mkRat 1 2)) (.pfloat (mkRat 1 2))).exactParts = false := by
  decide

/-- C4 amended: division of an exact Complex by a nonzero Fraction divisor
yields exact components, and division by an exact Complex divisor at least
one of whose parts is a Fraction (with nonzero norm) yields exact
components; with an int divisor or an all-int Complex divisor the int/int
true divisions produce float components instead. -/
theorem c4_division_exactness_amended :
    (∀ sre sim : PyReal, ∀ q : ℚ, sre.isExact = true → sim.isExact = true → q ≠ 0 →
      ∃ res, complexTrueDiv sre sim (.cre (.pfrac q)) = some res ∧
        res.exactParts = true) ∧
    (∀ sre sim vre vim : PyReal, sre.isExact = true → sim.isExact = true →
      vre.isExact = true → vim.isExact = true →
      ((∃ qr, vre = .pfrac qr) ∨ (∃ qi, vim = .pfrac qi)) →
      (PyReal.pyAdd (PyReal.pyMul vre vre) (PyReal.pyMul vim vim)).toRat ≠ 0 →
      ∃ res, complexTrueDiv sre sim (.ccx vre vim) = some res ∧
        res.exactParts = true) := by
  constructor
  · intro sre sim q hre him hq
    obtain ⟨yr, hyr, hyre⟩ := pyDiv_pfrac_exact hre hq
    obtain ⟨yi, hyi, hyie⟩ := pyDiv_pfrac_exact him hq
    exact ⟨reduceComp yr yi, by simp [complexTrueDiv, hyr, hyi],
      exactParts_reduceComp hyre hyie⟩
  · intro sre sim vre vim hre him hvre hvim hfrac hd
    have hnum1 : (PyReal.pyAdd (PyReal.pyMul sre vre) (PyReal.pyMul sim vim)).isExact = true :=
      isExact_pyAdd (isExact_pyMul hre hvre) (isExact_pyMul him hvim)
    have hnum2 : (PyReal.pySub (PyReal.pyMul sim vre) (PyReal.pyMul sre vim)).isExact = true :=
      isExact_pySub (isExact_pyMul him hvre) (isExact_pyMul hre hvim)
    have hdfrac : ∃ qd, PyReal.pyAdd (PyReal.pyMul vre vre) (PyReal.pyMul vim vim) =
        .pfrac qd := by
      rcases hfrac with ⟨qr, rfl⟩ | ⟨qi, rfl⟩
      · cases vim <;> simp_all [PyReal.pyMul, PyReal.pyAdd, PyReal.isExact]
      · cases vre <;> simp_all [PyReal.pyMul, PyReal.pyAdd, PyReal.isExact]
    obtain ⟨qd, hqd⟩ := hdfrac
    have hqd0 : qd ≠ 0 := by
      intro h0
      rw [hqd, h0] at hd
      exact hd rfl
    obtain ⟨yr, hyr, hyre⟩ := pyDiv_pfrac_exact hnum1 hqd0
    obtain ⟨yi, hyi, hyie⟩ := pyDiv_pfrac_exact hnum2 hqd0
    refine ⟨reduceComp yr yi, ?_, exactParts_reduceComp hyre hyie⟩
    simp [complexTrueDiv, hqd, hyr, hyi]

/-- C4 witness: the amended statement applied at Complex(1,1) / Rational(1,2)
and at Complex(1,1) / Complex(1/2, 1/2). -/
theorem c4_division_exactness_amended_witness :
    (∃ res, complexTrueDiv (.pint 1) (.pint 1) (.cre (.pfrac (mkRat 1 2))) = some res ∧
      res.exactParts = true) ∧
    (∃ res, complexTrueDiv (.pint 1) (.pint 1)
        (.ccx (.pfrac (mkRat 1 2)) (.pfrac (mkRat 1 2))) = some res ∧
      res.exactParts = true) :=
  ⟨c4_division_exactness_amended.1 (.pint 1) (.pint 1) (mkRat 1 2) (by decide) (by decide)
      (by decide),
   c4_division_exactness_amended.2 (.pint 1) (.pint 1) (.pfrac (mkRat 1 2))
      (.pfrac (mkRat 1 2)) (by decide) (by decide) (by decide) (by decide)
      (.inl ⟨mkRat 1 2, rfl⟩) (by decide)⟩

/-- A dictionary lookup is unchanged when the key is replaced by a
`keyEq`-equal key, provided `keyEq` is symmetric and transitive. -/
theorem find_key_congr {κ ν : Type} (keyEq : κ → κ → Bool)
    (htrans : ∀ a b c, keyEq a b = true → keyEq b c = true → keyEq a c = true)
    (hsymm : ∀ a b, keyEq a b = keyEq b a)
    {k k2 : κ} (hk : keyEq k k2 = true) :
    ∀ l : List (κ × InternObj ν),
      l.find? (fun e => keyEq e.1 k) = l.find? (fun e => keyEq e.1 k2) := by
  intro l
  induction l with
  | nil => rfl
  | cons e es ih =>
    by_cases h : keyEq e.1 k = true
    · have h2 : keyEq e.1 k2 = true := htrans _ _ _ h hk
      simp [List.find?, h, h2]
    · have h2 : keyEq e.1 k2 = false := by
        rcases hx : keyEq e.1 k2 with _ | _
        · rfl
        · exact absurd (htrans _ _ _ hx (by rw [hsymm]; exact hk)) h
      simp only [List.find?]
      rw [eq_false_of_ne_true h, h2]
      exact ih

/-- Interning the same canonical key a second time (up to dictionary key
equality, and regardless of the data supplied for the hypothetical new
object) returns the object created or found the first time, and leaves the
dictionary unchanged. -/
theorem internNew_stable {κ ν : Type} (keyEq : κ → κ → Bool)
    (htrans : ∀ a b c, keyEq a b = true → keyEq b c = true → keyEq a c = true)
    (hsymm : ∀ a b, keyEq a b = keyEq b a)
    {t t' : InternTable κ ν} {k k2 : κ} {v v2 : ν} {o : InternObj ν}
    (hk : keyEq k k2 = true) (h : internNew keyEq t k v = (o, t')) :
    internNew keyEq t' k2 v2 = (o, t') := by
  cases hfind : t.entries.find? (fun e => keyEq e.1 k) with
  | none =>
    simp only [internNew, hfind] at h
    cases h
    simp [internNew, List.find?, hk]
  | some e =>
    simp only [internNew, hfind] at h
    cases h
    simp only [internNew]
    rw [← find_key_congr keyEq htrans hsymm hk, hfind]

/-- Interning preserves the identity invariant. -/
theorem internNew_oidsOk {κ ν : Type} (keyEq : κ → κ → Bool)
    {t : InternTable κ ν} {k : κ} {v : ν} (h : tblOidsOk t) :
    tblOidsOk (internNew keyEq t k v).2 := by
  cases hfind : t.entries.find? (fun e => keyEq e.1 k) <;>
    simp only [internNew, hfind]
  · refine ⟨?_, ?_⟩
    · intro e he
      rcases List.mem_cons.mp he with rfl | he2
      · exact Nat.lt_succ_self _
      · exact Nat.lt_succ_of_lt (h.1 e he2)
    · intro e1 h1 e2 h2 hoid
      rcases List.mem_cons.mp h1 with rfl | h1x
      · rcases List.mem_cons.mp h2 with rfl | h2x
        · rfl
        · exact absurd hoid (Nat.ne_of_gt (h.1 e2 h2x))
      · rcases List.mem_cons.mp h2 with rfl | h2x
        · exact absurd hoid (Nat.ne_of_gt (h.1 e1 h1x)).symm
        · exact h.2 e1 h1x e2 h2x hoid
  · exact h

/-- Under the identity invariant, two interned objects with the same
identity are the same object. -/
theorem tbl_identity_eq {κ ν : Type} {t : InternTable κ ν} (h : tblOidsOk t)
    {k1 k2 : κ} {o1 o2 : InternObj ν}
    (h1 : (k1, o1) ∈ t.entries) (h2 : (k2, o2) ∈ t.entries) (ho : o1.oid = o2.oid) :
    o1 = o2 :=
  congrArg Prod.snd (h.2 _ h1 _ h2 ho)

/-- `keyEq4` is symmetric. -/
theorem keyEq4_symm (a b : PyReal × PyReal × PyReal × PyReal) : keyEq4 a b = keyEq4 b a := by
  have hsy : ∀ x y : ℚ, decide (x = y) = decide (y = x) := by
    intro x y
    by_cases h : x = y
    · simp [h]
    · simp [h, Ne.symm h]
  simp only [keyEq4, pyNumEq]
  rw [hsy a.1.toRat, hsy a.2.1.toRat, hsy a.2.2.1.toRat, hsy a.2.2.2.toRat]

/-- `keyEq4` is transitive. -/
theorem keyEq4_trans (a b c : PyReal × PyReal × PyReal × PyReal)
    (hab : keyEq4 a b = true) (hbc : keyEq4 b c = true) : keyEq4 a c = true := by
  simp only [keyEq4, pyNumEq, decide_eq_true_eq, Bool.and_eq_true] at hab hbc ⊢
  exact ⟨⟨⟨hab.1.1.1.trans hbc.1.1.1, hab.1.1.2.trans hbc.1.1.2⟩,
    hab.1.2.trans hbc.1.2⟩, hab.2.trans hbc.2⟩

/-- C2: intern uniqueness.  Constructing a Symbol, Char or Complex twice
from the same canonical key (the same symbol string after case folding,
the same character scalar after name and hex canonicalization, the same
canonical 4-tuple up to Python tuple equality) returns the identical
object and leaves the intern dictionary unchanged; interning preserves the
identity invariant; and under that invariant, identity of interned objects
implies object equality, hence Python equality of the stored values. -/
theorem c2_intern_uniqueness :
    (∀ (ic : Bool) (t t' : InternTable String String) (v v2 : String) (o : InternObj String),
      symbolCanon ic v = symbolCanon ic v2 →
      symbolNew ic t v = .ok (o, t') → symbolNew ic t' v2 = .ok (o, t')) ∧
    (∀ (t t' : InternTable String String) (s s2 : String) (o : InternObj String),
      charIsChar s2 = true → charCanonStr s = charCanonStr s2 →
      charNew t s = .ok (o, t') → charNew t' s2 = .ok (o, t')) ∧
    (∀ (t t' : CTable) (a1 a2 b1 b2 : CplxArg) (re im re2 im2 : PyReal)
      (o : InternObj (PyReal × PyReal)),
      complexNewVal a1 a2 = .ofCplx re im → complexNewVal b1 b2 = .ofCplx re2 im2 →
      keyEq4 (complexKey re im) (complexKey re2 im2) = true →
      complexNewStateful t a1 a2 = (.inr o, t') →
      complexNewStateful t' b1 b2 = (.inr o, t')) ∧
    (∀ (κ ν : Type) (keyEq : κ → κ → Bool) (t : InternTable κ ν) (k : κ) (v : ν),
      tblOidsOk t → tblOidsOk (internNew keyEq t k v).2) ∧
    (∀ (t : InternTable String String), tblOidsOk t →
      ∀ k1 o1 k2 o2, (k1, o1) ∈ t.entries → (k2, o2) ∈ t.entries → o1.oid = o2.oid →
      o1 = o2 ∧ symbolEqPy o1 o2 = true ∧ charEqPy o1 o2 = true) ∧
    (∀ (t : CTable), tblOidsOk t →
      ∀ k1 o1 k2 o2, (k1, o1) ∈ t.entries → (k2, o2) ∈ t.entries → o1.oid = o2.oid →
      o1 = o2 ∧ complexEqPy o1 o2 = true) := by
  refine ⟨?_, ?_, ?_, ?_, ?_, ?_⟩
  · intro ic t t' v v2 o hcanon h
    unfold symbolNew at h ⊢
    rw [← hcanon]
    split at h
    · exact absurd h (by simp)
    · rename_i hne
      rw [if_neg hne]
      cases hok : internNew (· == ·) t (symbolCanon ic v) (symbolCanon ic v) with
      | mk o2 t2 =>
        rw [hok] at h
        simp only [Except.ok.injEq, Prod.mk.injEq] at h
        obtain ⟨rfl, rfl⟩ := h
        rw [internNew_stable (· == ·)
          (fun a b c h1 h2 => by simp only [beq_iff_eq] at h1 h2 ⊢; exact h1.trans h2)
          (fun a b => by by_cases hab : a = b <;> simp [hab, Ne.symm, eq_comm])
          (by simp) hok]
  · intro t t' s s2 o h2 hcanon h
    unfold charNew at h ⊢
    split at h
    · rw [if_pos h2, ← hcanon]
      cases hok : internNew (· == ·) t (charCanonStr s) (charCanonStr s) with
      | mk o2 t2 =>
        rw [hok] at h
        simp only [Except.ok.injEq, Prod.mk.injEq] at h
        obtain ⟨rfl, rfl⟩ := h
        rw [internNew_stable (· == ·)
          (fun a b c h1 h2 => by simp only [beq_iff_eq] at h1 h2 ⊢; exact h1.trans h2)
          (fun a b => by by_cases hab : a = b <;> simp [hab, Ne.symm, eq_comm])
          (by simp) hok]
    · exact absurd h (by simp)
  · intro t t' a1 a2 b1 b2 re im re2 im2 o ha hb hkey h
    simp only [complexNewStateful, ha] at h
    simp only [complexNewStateful, hb]
    cases hok : internNew keyEq4 t (complexKey re im) (re, im) with
    | mk o2 t2 =>
      rw [hok] at h
      simp only [Prod.mk.injEq, Sum.inr.injEq] at h
      obtain ⟨rfl, rfl⟩ := h
      rw [internNew_stable keyEq4 keyEq4_trans keyEq4_symm hkey hok]
  · intro κ ν keyEq t k v h
    exact internNew_oidsOk keyEq h
  · intro t h k1 o1 k2 o2 h1 h2 ho
    have heq := tbl_identity_eq h h1 h2 ho
    exact ⟨heq, by simp [symbolEqPy, heq], by simp [charEqPy, heq]⟩
  · intro t h k1 o1 k2 o2 h1 h2 ho
    have heq := tbl_identity_eq h h1 h2 ho
    exact ⟨heq, by simp [complexEqPy, heq]⟩

/-- C2 witness: interning Symbol "Ab" twice under the ignore-case option
(second spelling "aB"), interning Char "#\x20" and then Char "Space"
(same canonical scalar, a space), and interning Complex(1,2) twice, each
returning the object created first; plus the identity invariant fact on a
concrete one-entry dictionary. -/
theorem c2_intern_uniqueness_witness :
    symbolNew true ⟨[], 0⟩ "Ab" = .ok (⟨0, "ab"⟩, ⟨[("ab", ⟨0, "ab"⟩)], 1⟩) ∧
    symbolNew true ⟨[("ab", ⟨0, "ab"⟩)], 1⟩ "aB" = .ok (⟨0, "ab"⟩, ⟨[("ab", ⟨0, "ab"⟩)], 1⟩) ∧
    charNew ⟨[], 0⟩ "#\\x20" = .ok (⟨0, " "⟩, ⟨[(" ", ⟨0, " "⟩)], 1⟩) ∧
    charNew ⟨[(" ", ⟨0, " "⟩)], 1⟩ "Space" = .ok (⟨0, " "⟩, ⟨[(" ", ⟨0, " "⟩)], 1⟩) ∧
    (∀ o2 t2, complexNewStateful ⟨[], 0⟩ (.cre (.pint 1)) (.cre (.pint 2)) = (.inr o2, t2) →
      complexNewStateful t2 (.cre (.pint 1)) (.cre (.pint 2)) = (.inr o2, t2)) := by
  refine ⟨by rfl, ?_, by rfl, ?_, ?_⟩
  · exact c2_intern_uniqueness.1 true ⟨[], 0⟩ ⟨[("ab", ⟨0, "ab"⟩)], 1⟩ "Ab" "aB" ⟨0, "ab"⟩
      (by rfl) (by rfl)
  · exact c2_intern_uniqueness.2.1 ⟨[], 0⟩ ⟨[(" ", ⟨0, " "⟩)], 1⟩ "#\\x20" "Space" ⟨0, " "⟩
      (by rfl) (by rfl) (by rfl)
  · intro o2 t2 h
    exact c2_intern_uniqueness.2.2.1 ⟨[], 0⟩ t2 (.cre (.pint 1)) (.cre (.pint 2))
      (.cre (.pint 1)) (.cre (.pint 2)) (.pint 1) (.pint 2) (.pint 1) (.pint 2) o2
      (by decide) (by decide) (by decide) h

/-! ### C9: the quote shorthand -/

/-- C9: with the quote option enabled, reading the apostrophe-foo text
yields `Cons(Symbol "quote", Cons(Symbol "foo", NIL))`, and printing
that value renders the apostrophe shorthand (apostrophe followed by
`foo`) again. -/
theorem c9_quote_shorthand :
    sxparse rdCfg unitW ⟨squoteCh :: ['f', 'o', 'o']⟩ =
      .ok (some (.scons (.ssym "quote") (.scons (.ssym "foo") .snil))) ∧
    sxpr2Str rdCfg (.scons (.ssym "quote") (.scons (.ssym "foo") .snil)) =
      some ⟨squoteCh :: ['f', 'o', 'o']⟩ := by
  exact ⟨by decide, by decide⟩

/-! ### C7: end of input before and inside a form -/

/-- C7 counterexample: after a quote prefix the input may end with the
form incomplete, yet no "unexpected EOF" error is raised - the recursive
read returns the end-of-stream `None`, which is wrapped into
`Cons(Symbol "quote", Cons(None, NIL))` and returned as a value. -/
theorem c7_counterexample :
    sxparse rdCfg unitW ⟨[squoteCh]⟩ =
      .ok (some (.scons (.ssym "quote") (.scons .pynone .snil))) := by
  decide

/-! ### C1: the print / parse round trip -/

/-- C1 counterexample: the Symbol whose value is a single space is a
finite acyclic value, but `Symbol.__str__` rewrites the space to an
underscore, so parsing the rendering yields the different Symbol
underscore - a failure not covered by the claim's two numeric
canonicalization exceptions. -/
theorem c1_counterexample :
    sxpr2Str stdCfg (.ssym " ") = some "_" ∧
    sxparse stdCfg unitW "_" = .ok (some (.ssym "_")) ∧
    SExpr.ssym "_" ≠ SExpr.ssym " " := by
  exact ⟨by decide, by decide, by decide⟩

lemma dropWhile_ws_replicate (n : Nat) : (List.replicate n ' ').dropWhile isWsCh = [] := by
  induction n with
  | zero => rfl
  | succ k ih => simp [List.replicate_succ, List.dropWhile_cons, isWsCh, ih]

lemma advancePos_space (p : Nat × Nat) : advancePos unitW p ' ' = (p.1, p.2 + 1) := by
  rw [advancePos, if_neg (by decide)]
  rfl

lemma advancePosList_spaces (n : Nat) (p : Nat × Nat) :
    advancePosList unitW p (List.replicate n ' ') = (p.1, p.2 + n) := by
  induction n generalizing p with
  | zero => simp [advancePosList]
  | succ k ih =>
    rw [List.replicate_succ]
    show advancePosList unitW (advancePos unitW p ' ') (List.replicate k ' ') = _
    rw [advancePos_space, ih]
    have h2 : p.2 + 1 + k = p.2 + (k + 1) := by omega
    rw [h2]

lemma tokenizeCore_ws_eof (cfg : Dialect) (f l c : Nat) (cs : List Char)
    (h : cs.dropWhile isWsCh = []) :
    tokenizeCore cfg (f + 1) cs l c = .ok (none, []) := by
  simp [tokenizeCore, h]

lemma tokenizeCore_lparen (cfg : Dialect) (f l c : Nat) (cs : List Char) :
    tokenizeCore cfg (f + 1) ('(' :: cs) l c = .ok (some .lparT, cs) := by
  simp [tokenizeCore, List.dropWhile_cons, isWsCh, squoteCh]

lemma tokenizeCore_rparen (cfg : Dialect) (f l c : Nat) (cs : List Char) :
    tokenizeCore cfg (f + 1) (')' :: cs) l c = .ok (some .rparT, cs) := by
  simp [tokenizeCore, List.dropWhile_cons, isWsCh, squoteCh]

lemma stringScan_plain (cfg : Dialect) (h : cfg.enableEscape = false) :
    ∀ (f n : Nat), stringScan cfg f (List.replicate n 'a') = none := by
  intro f
  induction f with
  | zero => intro n; rfl
  | succ g ih =>
    intro n
    cases n with
    | zero => rfl
    | succ k =>
      rw [List.replicate_succ]
      have hne : ¬('a' = dquoteCh) := by decide
      simp [stringScan, h, ih k, hne]

lemma sxprTokenizer_ws_eof (cfg : Dialect) (w : Char → Nat) (st : St)
    (h : st.chars.dropWhile isWsCh = []) :
    sxprTokenizer cfg w st =
      .ok (none, { st with
        chars := [],
        lkLine := (advancePosList w (st.lkLine, st.lkCol) st.chars).1,
        lkCol := (advancePosList w (st.lkLine, st.lkCol) st.chars).2 }) := by
  have h1 := tokenizeCore_ws_eof cfg st.chars.length st.line st.col st.chars h
  simp [sxprTokenizer, h1]

lemma nextToken_undef_eof (cfg : Dialect) (w : Char → Nat) (st : St)
    (h1 : st.lkTok = none) (h2 : st.chars.dropWhile isWsCh = []) :
    nextToken cfg w st =
      .ok (none, ⟨[], (advancePosList w (st.lkLine, st.lkCol) st.chars).1,
        (advancePosList w (st.lkLine, st.lkCol) st.chars).2,
        (advancePosList w (st.lkLine, st.lkCol) st.chars).1,
        (advancePosList w (st.lkLine, st.lkCol) st.chars).2, some none⟩) := by
  have h3 := sxprTokenizer_ws_eof cfg w st h2
  simp [nextToken, fillTok, h1, h3]

lemma nextToken_buf_eof (cfg : Dialect) (w : Char → Nat) (st : St)
    (h1 : st.lkTok = some none) :
    nextToken cfg w st = .ok (none, { st with line := st.lkLine, col := st.lkCol }) := by
  simp [nextToken, fillTok, h1]

lemma sxparse_ws_only (n : Nat) : sxparse rdCfg unitW ⟨List.replicate n ' '⟩ = .ok none := by
  have hnt := nextToken_undef_eof rdCfg unitW ⟨List.replicate n ' ', 1, 0, 1, 0, none⟩
    rfl (dropWhile_ws_replicate n)
  have hlen : (String.mk (List.replicate n ' ')).length = n := by
    simp [String.length]
  unfold sxparse
  have hinit : St.init ⟨List.replicate n ' '⟩ = ⟨List.replicate n ' ', 1, 0, 1, 0, none⟩ := rfl
  rw [hinit, hlen]
  have hf : 2 * n + 4 = (2 * n + 3) + 1 := rfl
  rw [hf]
  simp [readObj, hnt]

lemma sxparse_lpar_spaces (n : Nat) :
    sxparse rdCfg unitW ⟨'(' :: List.replicate n ' '⟩ =
      .error (.syntaxUnexpectedEOF 1 (n + 1)) := by
  have hlen : (String.mk ('(' :: List.replicate n ' ')).length = n + 1 := by
    simp [String.length]
  unfold sxparse
  have hinit : St.init ⟨'(' :: List.replicate n ' '⟩ =
      ⟨'(' :: List.replicate n ' ', 1, 0, 1, 0, none⟩ := rfl
  rw [hinit, hlen]
  have h1 : nextToken rdCfg unitW ⟨'(' :: List.replicate n ' ', 1, 0, 1, 0, none⟩ =
      .ok (some .lparT, ⟨[], 1, 1, 1, n + 1, some none⟩) := by
    have hadv : advancePosList unitW (1, 0) ['('] = (1, 1) := rfl
    have hws := tokenizeCore_ws_eof rdCfg n 1 1 (List.replicate n ' ') (dropWhile_ws_replicate n)
    simp [nextToken, fillTok, sxprTokenizer, tokenizeCore_lparen, hadv, hws,
      List.take_succ_cons, advancePosList_spaces]
    omega
  have h2 : nextToken rdCfg unitW ⟨([] : List Char), 1, 1, 1, n + 1, some none⟩ =
      .ok (none, ⟨[], 1, n + 1, 1, n + 1, some none⟩) := by
    rw [nextToken_buf_eof rdCfg unitW _ rfl]
  have h3 : nextToken rdCfg unitW ⟨([] : List Char), 1, n + 1, 1, n + 1, some none⟩ =
      .ok (none, ⟨[], 1, n + 1, 1, n + 1, some none⟩) := by
    rw [nextToken_buf_eof rdCfg unitW _ rfl]
  have hf : 2 * (n + 1) + 4 = (2 * n + 5) + 1 := by omega
  rw [hf]
  simp only [readObj, h1]
  have hf2 : 2 * n + 5 = (2 * n + 4) + 1 := rfl
  rw [hf2]
  simp only [readList]
  have hf3 : 2 * n + 4 = (2 * n + 3) + 1 := rfl
  rw [hf3]
  simp only [readObj, h2]
  simp only [consTail, h3]

lemma sxparse_unterminated_str (n : Nat) :
    sxparse rdCfg unitW ⟨dquoteCh :: List.replicate n 'a'⟩ = .error (.eofError 1 0) := by
  have hlen : (String.mk (dquoteCh :: List.replicate n 'a')).length = n + 1 := by
    simp [String.length]
  unfold sxparse
  have hinit : St.init ⟨dquoteCh :: List.replicate n 'a'⟩ =
      ⟨dquoteCh :: List.replicate n 'a', 1, 0, 1, 0, none⟩ := rfl
  rw [hinit, hlen]
  have htok : ∀ f, tokenizeCore rdCfg (f + 1) (dquoteCh :: List.replicate n 'a') 1 0 =
      .error (.eofError 1 0) := by
    intro f
    simp [tokenizeCore, List.dropWhile_cons, isWsCh, squoteCh, dquoteCh,
      stringScan_plain rdCfg rfl]
  have hf : 2 * (n + 1) + 4 = (2 * n + 5) + 1 := by omega
  rw [hf]
  simp only [readObj]
  simp [nextToken, fillTok, sxprTokenizer, htok]


/-- C7 amended: end of input before any token yields the end-of-stream
result (`None`); inside a started list it raises the unexpected-EOF
syntax error carrying the token-level position; inside an unterminated
string literal the tokenizer raises EOFError carrying the position of
the last completed token; but a form begun with a prefix token (see the
counterexample) returns a value, and an incomplete `#C(` form raises the
invalid-Complex syntax error rather than an unexpected-EOF one. -/
theorem c7_eof_amended :
    (∀ n, sxparse rdCfg unitW ⟨List.replicate n ' '⟩ = .ok none) ∧
    (∀ n, sxparse rdCfg unitW ⟨'(' :: List.replicate n ' '⟩ =
      .error (.syntaxUnexpectedEOF 1 (n + 1))) ∧
    (∀ n, sxparse rdCfg unitW ⟨dquoteCh :: List.replicate n 'a'⟩ =
      .error (.eofError 1 0)) ∧
    sxparse rdCfg unitW "#C(1" = .error (.syntaxInvalidComplex 1 4) :=
  ⟨sxparse_ws_only, sxparse_lpar_spaces, sxparse_unterminated_str, by decide⟩

lemma char_ne_of_toNat {c d : Char} (h : ¬ c.toNat = d.toNat) : ¬ c = d :=
  fun he => h (by rw [he])

lemma isDigit_false_of_lower (c : Char) (h1 : 97 ≤ c.toNat) (h2 : c.toNat ≤ 122) :
    c.isDigit = false := by
  simp [Char.isDigit]
  intro hle
  show (57 : UInt32).toNat < c.val.toNat
  have he : c.toNat = c.val.toNat := rfl
  have h57 : (57 : UInt32).toNat = 57 := rfl
  omega

lemma isDigit_true_of_digit (c : Char) (h1 : 48 ≤ c.toNat) (h2 : c.toNat ≤ 57) :
    c.isDigit = true := by
  simp [Char.isDigit]
  have he : c.toNat = c.val.toNat := rfl
  have h48 : (48 : UInt32).toNat = 48 := rfl
  have h57 : (57 : UInt32).toNat = 57 := rfl
  constructor
  · show (48 : UInt32).toNat ≤ c.val.toNat
    omega
  · show c.val.toNat ≤ (57 : UInt32).toNat
    omega

lemma ws_delim_false (c : Char) (h1 : 35 ≤ c.toNat) (h2 : c.toNat ≤ 125)
    (h3 : ¬ c.toNat = 40) (h4 : ¬ c.toNat = 41) :
    isWsCh c = false ∧ isDelimCh c = false := by
  have hsp : ¬ c = ' ' := char_ne_of_toNat (by intro h; rw [show (' ' : Char).toNat = 32 from rfl] at h; omega)
  have htb : ¬ c = '\t' := char_ne_of_toNat (by intro h; rw [show Char.toNat '\t' = 9 from rfl] at h; omega)
  have hcr : ¬ c = '\r' := char_ne_of_toNat (by intro h; rw [show Char.toNat '\r' = 13 from rfl] at h; omega)
  have hlf : ¬ c = '\n' := char_ne_of_toNat (by intro h; rw [show Char.toNat '\n' = 10 from rfl] at h; omega)
  have hlp : ¬ c = '(' := char_ne_of_toNat (by intro h; rw [show ('(' : Char).toNat = 40 from rfl] at h; omega)
  have hrp : ¬ c = ')' := char_ne_of_toNat (by intro h; rw [show (')' : Char).toNat = 41 from rfl] at h; omega)
  have hdq : ¬ c = dquoteCh := char_ne_of_toNat (by intro h; rw [show dquoteCh.toNat = 34 from rfl] at h; omega)
  have hws : isWsCh c = false := by simp [isWsCh, hsp, htb, hcr, hlf]
  exact ⟨hws, by simp [isDelimCh, hlp, hrp, hdq, hws]⟩

lemma takeWhile_app_all {p : Char → Bool} (xs rest : List Char)
    (h : ∀ c ∈ xs, p c = true) (h2 : ∀ r, rest.head? = some r → p r = false) :
    (xs ++ rest).takeWhile p = xs ∧ (xs ++ rest).dropWhile p = rest := by
  induction xs with
  | nil =>
    cases rest with
    | nil => simp
    | cons r rs => simp [List.takeWhile_cons, List.dropWhile_cons, h2 r rfl]
  | cons x xs ih =>
    have hx : p x = true := h x (List.mem_cons_self x xs)
    have ih2 := ih (fun c hc => h c (List.mem_cons_of_mem x hc))
    simp [List.takeWhile_cons, List.dropWhile_cons, hx, ih2.1, ih2.2]

lemma dropSign_of_head (c0 : Char) (cs : List Char)
    (h1 : ¬ c0 = '+') (h2 : ¬ c0 = '-') : dropSign (c0 :: cs) = c0 :: cs := by
  show (if c0 = '+' ∨ c0 = '-' then cs else c0 :: cs) = c0 :: cs
  rw [if_neg]
  rintro (h | h)
  · exact h1 h
  · exact h2 h

lemma letter_head_nes (c0 : Char) (h1 : 97 ≤ c0.toNat) (h2 : c0.toNat ≤ 122) :
    ¬ c0 = '+' ∧ ¬ c0 = '-' ∧ ¬ c0 = '.' ∧ ¬ c0 = '/' ∧ ¬ c0 = '#' ∧
    ¬ c0 = '(' ∧ ¬ c0 = ')' ∧ ¬ c0 = dquoteCh := by
  refine ⟨char_ne_of_toNat ?_, char_ne_of_toNat ?_, char_ne_of_toNat ?_,
    char_ne_of_toNat ?_, char_ne_of_toNat ?_, char_ne_of_toNat ?_,
    char_ne_of_toNat ?_, char_ne_of_toNat ?_⟩
  · intro h; rw [show ('+' : Char).toNat = 43 from rfl] at h; omega
  · intro h; rw [show ('-' : Char).toNat = 45 from rfl] at h; omega
  · intro h; rw [show ('.' : Char).toNat = 46 from rfl] at h; omega
  · intro h; rw [show ('/' : Char).toNat = 47 from rfl] at h; omega
  · intro h; rw [show Char.toNat '#' = 35 from rfl] at h; omega
  · intro h; rw [show ('(' : Char).toNat = 40 from rfl] at h; omega
  · intro h; rw [show (')' : Char).toNat = 41 from rfl] at h; omega
  · intro h; rw [show dquoteCh.toNat = 34 from rfl] at h; omega

lemma isIntegerChars_letter_head (c0 : Char) (cs : List Char)
    (h1 : 97 ≤ c0.toNat) (h2 : c0.toNat ≤ 122) :
    isIntegerChars (c0 :: cs) = false := by
  obtain ⟨hp, hm, _⟩ := letter_head_nes c0 h1 h2
  simp [isIntegerChars, dropSign_of_head c0 cs hp hm, List.all_cons,
    isDigit_false_of_lower c0 h1 h2]

lemma isNumberChars_letter_head (c0 : Char) (cs : List Char)
    (h1 : 97 ≤ c0.toNat) (h2 : c0.toNat ≤ 122) :
    isNumberChars (c0 :: cs) = false := by
  obtain ⟨hp, hm, hdot, _⟩ := letter_head_nes c0 h1 h2
  have hd := isDigit_false_of_lower c0 h1 h2
  simp only [isNumberChars, dropSign_of_head c0 cs hp hm, List.takeWhile_cons, hd,
    List.dropWhile_cons, Bool.false_eq_true, if_false]
  split
  · rfl
  · next heq =>
    split at heq
    · next r2 heq2 =>
      injection heq2 with hh _
      exact absurd hh hdot
    · simp at heq
  · next m r4 heq =>
    split at heq
    · next r2 heq2 =>
      injection heq2 with hh _
      exact absurd hh hdot
    · simp at heq

lemma isFractionChars_letter_head (c0 : Char) (cs : List Char)
    (h1 : 97 ≤ c0.toNat) (h2 : c0.toNat ≤ 122) :
    isFractionChars (c0 :: cs) = false := by
  obtain ⟨hp, hm, hdot, _⟩ := letter_head_nes c0 h1 h2
  have hd := isDigit_false_of_lower c0 h1 h2
  simp only [isFractionChars, dropSign_of_head c0 cs hp hm, List.takeWhile_cons, hd,
    List.dropWhile_cons, Bool.false_eq_true, if_false]
  split <;> simp

lemma flatten_singletons (l : List Char) : (l.map (fun c => [c])).flatten = l := by
  induction l with
  | nil => rfl
  | cons c cs ih => simp [List.map_cons, List.flatten_cons, ih]

lemma symTranslate_lower (c : Char) (h1 : 97 ≤ c.toNat) (h2 : c.toNat ≤ 122) :
    symTranslate c = [c] := by
  have n01 : ¬ c = '(' := char_ne_of_toNat (by intro h; rw [show ('(' : Char).toNat = 40 from rfl] at h; omega)
  have n02 : ¬ c = ')' := char_ne_of_toNat (by intro h; rw [show (')' : Char).toNat = 41 from rfl] at h; omega)
  have n03 : ¬ c = ' ' := char_ne_of_toNat (by intro h; rw [show (' ' : Char).toNat = 32 from rfl] at h; omega)
  have n04 : ¬ c = '|' := char_ne_of_toNat (by intro h; rw [show ('|' : Char).toNat = 124 from rfl] at h; omega)
  have n05 : ¬ c = dquoteCh := char_ne_of_toNat (by intro h; rw [show dquoteCh.toNat = 34 from rfl] at h; omega)
  have n06 : ¬ c = Char.ofNat 7 := char_ne_of_toNat (by intro h; rw [show (Char.ofNat 7).toNat = 7 from rfl] at h; omega)
  have n07 : ¬ c = Char.ofNat 8 := char_ne_of_toNat (by intro h; rw [show (Char.ofNat 8).toNat = 8 from rfl] at h; omega)
  have n08 : ¬ c = Char.ofNat 12 := char_ne_of_toNat (by intro h; rw [show (Char.ofNat 12).toNat = 12 from rfl] at h; omega)
  have n09 : ¬ c = '\n' := char_ne_of_toNat (by intro h; rw [show Char.toNat '\n' = 10 from rfl] at h; omega)
  have n10 : ¬ c = '\r' := char_ne_of_toNat (by intro h; rw [show Char.toNat '\r' = 13 from rfl] at h; omega)
  have n11 : ¬ c = '\t' := char_ne_of_toNat (by intro h; rw [show Char.toNat '\t' = 9 from rfl] at h; omega)
  have n12 : ¬ c = Char.ofNat 11 := char_ne_of_toNat (by intro h; rw [show (Char.ofNat 11).toNat = 11 from rfl] at h; omega)
  simp [symTranslate, n01, n02, n03, n04, n05, n06, n07, n08, n09, n10, n11, n12]

lemma goodSym_elim (s : String) (hs : goodSym s = true) :
    ∃ c0 cs, s.data = c0 :: cs ∧ ∀ c ∈ c0 :: cs, 97 ≤ c.toNat ∧ c.toNat ≤ 122 := by
  unfold goodSym at hs
  rw [Bool.and_eq_true] at hs
  obtain ⟨hne, hall⟩ := hs
  rw [List.all_eq_true] at hall
  cases hd : s.data with
  | nil => rw [hd] at hne; simp at hne
  | cons c0 cs =>
    refine ⟨c0, cs, rfl, ?_⟩
    intro c hc
    have := hall c (hd ▸ hc)
    simp at this
    exact this

lemma symbolStr_good (s : String) (hs : goodSym s = true) : symbolStr stdCfg s = s := by
  obtain ⟨c0, cs, hd, hall⟩ := goodSym_elim s hs
  have hdot : ¬ s = "." := by
    intro h
    have : '.' ∈ c0 :: cs := by rw [← hd, h]; exact List.mem_singleton.mpr rfl
    have h2 := hall _ this
    rw [show ('.' : Char).toNat = 46 from rfl] at h2
    omega
  have hmap : s.data.map symTranslate = s.data.map (fun c => [c]) :=
    List.map_congr_left (fun c hc => symTranslate_lower c (hall c (hd ▸ hc)).1 (hall c (hd ▸ hc)).2)
  have h0 := hall c0 (List.mem_cons_self c0 cs)
  rw [symbolStr, if_neg hdot, hmap, flatten_singletons]
  rw [hd]
  simp only [stdCfg, isIntegerChars_letter_head c0 cs h0.1 h0.2,
    isNumberChars_letter_head c0 cs h0.1 h0.2,
    isFractionChars_letter_head c0 cs h0.1 h0.2,
    Bool.false_and, Bool.and_false, Bool.true_and, Bool.and_true, Bool.false_or,
    Bool.or_false, if_false]
  rw [if_neg (by simp), ← hd]

lemma tk_sym (s : String) (hs : goodSym s = true) (rest : List Char)
    (hr : ∀ r, rest.head? = some r → isDelimCh r = true) (f l c : Nat) :
    tokenizeCore stdCfg (f + 1) (s.data ++ rest) l c = .ok (some (.valT (.ssym s)), rest) := by
  obtain ⟨c0, cs, hd, hall⟩ := goodSym_elim s hs
  have h0 := hall c0 (List.mem_cons_self c0 cs)
  obtain ⟨hws0, hdl0⟩ := ws_delim_false c0 (by omega) (by omega) (by omega) (by omega)
  obtain ⟨hp, hm, hdot, hsl, hhash, hlp, hrp, hdq⟩ := letter_head_nes c0 h0.1 h0.2
  have hrun := takeWhile_app_all (p := fun c => !isDelimCh c) cs rest
    (fun c hc => by
      have hc2 := hall c (List.mem_cons_of_mem c0 hc)
      obtain ⟨_, hdl⟩ := ws_delim_false c (by omega) (by omega) (by omega) (by omega)
      simp [hdl])
    (fun r hr2 => by simp [hr r hr2])
  rw [hd]
  show tokenizeCore stdCfg (f + 1) (c0 :: (cs ++ rest)) l c = _
  rw [tokenizeCore]
  simp only [List.dropWhile_cons, hws0, Bool.false_eq_true, if_false, stdCfg,
    List.head?_cons, hrun.1, hrun.2]
  simp only [false_and, and_false, if_false, reduceCtorEq, ite_false, if_neg hlp,
    if_neg hrp, if_neg (fun h => hdq h), if_neg (fun h => hdot h)]
  simp only [if_neg (show ¬(c0 = '.' ∧ headSat isDelimCh (cs ++ rest) = true) from
      fun h => hdot h.1),
    isIntegerChars_letter_head c0 cs h0.1 h0.2,
    isNumberChars_letter_head c0 cs h0.1 h0.2,
    isFractionChars_letter_head c0 cs h0.1 h0.2,
    Bool.false_eq_true, false_and, if_false, if_neg hhash, ite_false,
    mkSymbol, symbolCanon, ite_true, if_true]
  rw [← hd]

lemma natDigitsAux_digits :
    ∀ f n, n < f → ∀ c ∈ natDigitsAux f n, 48 ≤ c.toNat ∧ c.toNat ≤ 57 := by
  intro f
  induction f with
  | zero => omega
  | succ g ih =>
    intro n hn c hc
    rw [natDigitsAux] at hc
    by_cases h10 : n < 10
    · rw [if_pos h10] at hc
      rw [List.mem_singleton] at hc
      subst hc
      interval_cases n <;> exact ⟨by decide, by decide⟩
    · rw [if_neg h10] at hc
      rcases List.mem_append.mp hc with h | h
      · exact ih (n / 10) (by omega) c h
      · rw [List.mem_singleton] at h
        subst h
        have hm : n % 10 < 10 := Nat.mod_lt _ (by omega)
        generalize n % 10 = m at hm ⊢
        interval_cases m <;> exact ⟨by decide, by decide⟩

lemma digitsToNat_natDigitsAux : ∀ f n, n < f → digitsToNat (natDigitsAux f n) = n := by
  intro f
  induction f with
  | zero => omega
  | succ g ih =>
    intro n hn
    rw [natDigitsAux]
    by_cases h10 : n < 10
    · rw [if_pos h10]
      show 10 * 0 + ((Char.ofNat (48 + n)).toNat - 48) = n
      interval_cases n <;> decide
    · rw [if_neg h10]
      show (natDigitsAux g (n / 10) ++ [Char.ofNat (48 + n % 10)]).foldl
        (fun a c => 10 * a + (c.toNat - 48)) 0 = n
      rw [List.foldl_append]
      have h1 := ih (n / 10) (by omega)
      show 10 * digitsToNat (natDigitsAux g (n / 10)) + ((Char.ofNat (48 + n % 10)).toNat - 48) = n
      rw [h1]
      have hm : n % 10 < 10 := Nat.mod_lt _ (by omega)
      have h2 : (Char.ofNat (48 + n % 10)).toNat - 48 = n % 10 := by
        generalize n % 10 = m at hm ⊢
        interval_cases m <;> decide
      rw [h2]
      omega

lemma natDigits_ne_nil : ∀ f n, n < f → natDigitsAux f n ≠ [] := by
  intro f
  induction f with
  | zero => omega
  | succ g ih =>
    intro n hn
    rw [natDigitsAux]
    by_cases h10 : n < 10
    · rw [if_pos h10]; simp
    · rw [if_neg h10]; simp

lemma digit_head_nes (c0 : Char) (h1 : 48 ≤ c0.toNat) (h2 : c0.toNat ≤ 57) :
    ¬ c0 = '+' ∧ ¬ c0 = '-' ∧ ¬ c0 = '.' ∧ ¬ c0 = '/' ∧ ¬ c0 = '#' ∧
    ¬ c0 = '(' ∧ ¬ c0 = ')' ∧ ¬ c0 = dquoteCh := by
  refine ⟨char_ne_of_toNat ?_, char_ne_of_toNat ?_, char_ne_of_toNat ?_,
    char_ne_of_toNat ?_, char_ne_of_toNat ?_, char_ne_of_toNat ?_,
    char_ne_of_toNat ?_, char_ne_of_toNat ?_⟩
  · intro h; rw [show ('+' : Char).toNat = 43 from rfl] at h; omega
  · intro h; rw [show ('-' : Char).toNat = 45 from rfl] at h; omega
  · intro h; rw [show ('.' : Char).toNat = 46 from rfl] at h; omega
  · intro h; rw [show ('/' : Char).toNat = 47 from rfl] at h; omega
  · intro h; rw [show Char.toNat '#' = 35 from rfl] at h; omega
  · intro h; rw [show ('(' : Char).toNat = 40 from rfl] at h; omega
  · intro h; rw [show (')' : Char).toNat = 41 from rfl] at h; omega
  · intro h; rw [show dquoteCh.toNat = 34 from rfl] at h; omega

lemma digits_all_elim (ds : List Char) (hall : ∀ c ∈ ds, 48 ≤ c.toNat ∧ c.toNat ≤ 57) :
    ds.all Char.isDigit = true := by
  rw [List.all_eq_true]
  intro c hc
  exact isDigit_true_of_digit c (hall c hc).1 (hall c hc).2

lemma isIntegerChars_digits (c0 : Char) (cs : List Char)
    (hall : ∀ c ∈ c0 :: cs, 48 ≤ c.toNat ∧ c.toNat ≤ 57) :
    isIntegerChars (c0 :: cs) = true ∧ isIntegerChars ('-' :: c0 :: cs) = true ∧
    pyParseInt (c0 :: cs) = (digitsToNat (c0 :: cs) : ℤ) ∧
    pyParseInt ('-' :: c0 :: cs) = -(digitsToNat (c0 :: cs) : ℤ) := by
  have h0 := hall c0 (List.mem_cons_self c0 cs)
  obtain ⟨hp, hm, _⟩ := digit_head_nes c0 h0.1 h0.2
  have hds := dropSign_of_head c0 cs hp hm
  have hadrop : dropSign ('-' :: c0 :: cs) = c0 :: cs := by
    show (if ('-' : Char) = '+' ∨ ('-' : Char) = '-' then c0 :: cs else '-' :: c0 :: cs) = c0 :: cs
    rw [if_pos (Or.inr rfl)]
  refine ⟨?_, ?_, ?_, ?_⟩
  · rw [isIntegerChars, hds]
    exact digits_all_elim _ hall
  · rw [isIntegerChars, hadrop]
    exact digits_all_elim _ hall
  · rw [pyParseInt] <;>
      first
        | (intro ds1 heq; injection heq with hh _; exact absurd hh hm)
        | (intro ds1 heq; injection heq with hh _; exact absurd hh hp)
  · rfl

lemma natDigits_facts (n : Nat) :
    ∃ c0 cs, natDigits n = c0 :: cs ∧ (∀ c ∈ c0 :: cs, 48 ≤ c.toNat ∧ c.toNat ≤ 57) ∧
      digitsToNat (c0 :: cs) = n := by
  have hne := natDigits_ne_nil (n + 1) n (by omega)
  have hdig := natDigitsAux_digits (n + 1) n (by omega)
  have hval := digitsToNat_natDigitsAux (n + 1) n (by omega)
  cases hd : natDigits n with
  | nil => exact absurd hd hne
  | cons c0 cs =>
    rw [natDigits] at hd
    refine ⟨c0, cs, rfl, ?_, ?_⟩
    · intro c hc
      exact hdig c (hd ▸ hc)
    · rw [← hd, hval]

lemma tk_digit_run (c0 : Char) (cs rest : List Char)
    (hall : ∀ c ∈ c0 :: cs, 48 ≤ c.toNat ∧ c.toNat ≤ 57)
    (hr : ∀ r, rest.head? = some r → isDelimCh r = true) (f l c : Nat) :
    tokenizeCore stdCfg (f + 1) ((c0 :: cs) ++ rest) l c =
      .ok (some (.valT (.sreal (.pint (digitsToNat (c0 :: cs) : ℤ)))), rest) := by
  have h0 := hall c0 (List.mem_cons_self c0 cs)
  obtain ⟨hws0, hdl0⟩ := ws_delim_false c0 (by omega) (by omega) (by omega) (by omega)
  obtain ⟨hp, hm, hdot, hsl, hhash, hlp, hrp, hdq⟩ := digit_head_nes c0 h0.1 h0.2
  obtain ⟨hint, _, hpp, _⟩ := isIntegerChars_digits c0 cs hall
  have hrun := takeWhile_app_all (p := fun c => !isDelimCh c) cs rest
    (fun c hc => by
      have hc2 := hall c (List.mem_cons_of_mem c0 hc)
      obtain ⟨_, hdl⟩ := ws_delim_false c (by omega) (by omega) (by omega) (by omega)
      simp [hdl])
    (fun r hr2 => by simp [hr r hr2])
  show tokenizeCore stdCfg (f + 1) (c0 :: (cs ++ rest)) l c = _
  rw [tokenizeCore]
  simp only [List.dropWhile_cons, hws0, Bool.false_eq_true, if_false, stdCfg,
    List.head?_cons, hrun.1, hrun.2]
  simp only [false_and, and_false, if_false, reduceCtorEq, ite_false, if_neg hlp,
    if_neg hrp, if_neg (fun h => hdq h), if_neg (fun h => hdot h)]
  simp only [if_neg (show ¬(c0 = '.' ∧ headSat isDelimCh (cs ++ rest) = true) from
      fun h => hdot h.1), hint, ite_true, hpp]

lemma tk_neg_digit_run (c0 : Char) (cs rest : List Char)
    (hall : ∀ c ∈ c0 :: cs, 48 ≤ c.toNat ∧ c.toNat ≤ 57)
    (hr : ∀ r, rest.head? = some r → isDelimCh r = true) (f l c : Nat) :
    tokenizeCore stdCfg (f + 1) (('-' :: c0 :: cs) ++ rest) l c =
      .ok (some (.valT (.sreal (.pint (-(digitsToNat (c0 :: cs) : ℤ))))), rest) := by
  have h0 := hall c0 (List.mem_cons_self c0 cs)
  obtain ⟨_, hint, _, hpp⟩ := isIntegerChars_digits c0 cs hall
  have hrun := takeWhile_app_all (p := fun c => !isDelimCh c) (c0 :: cs) rest
    (fun c hc => by
      have hc2 := hall c hc
      obtain ⟨_, hdl⟩ := ws_delim_false c (by omega) (by omega) (by omega) (by omega)
      simp [hdl])
    (fun r hr2 => by simp [hr r hr2])
  show tokenizeCore stdCfg (f + 1) ('-' :: ((c0 :: cs) ++ rest)) l c = _
  rw [tokenizeCore]
  simp only [List.dropWhile_cons, show isWsCh '-' = false from rfl, Bool.false_eq_true,
    if_false, stdCfg, List.head?_cons, hrun.1, hrun.2]
  simp only [false_and, and_false, if_false, reduceCtorEq, ite_false,
    if_neg (show ¬('-' : Char) = '(' by decide), if_neg (show ¬('-' : Char) = ')' by decide),
    if_neg (show ¬('-' : Char) = dquoteCh by decide)]
  simp only [if_neg (show ¬(('-' : Char) = '.' ∧ headSat isDelimCh ((c0 :: cs) ++ rest) = true) from
      fun h => absurd h.1 (by decide)), hint, ite_true, hpp]

lemma tk_int (z : ℤ) (rest : List Char)
    (hr : ∀ r, rest.head? = some r → isDelimCh r = true) (f l c : Nat) :
    tokenizeCore stdCfg (f + 1) ((pyIntStr z).data ++ rest) l c =
      .ok (some (.valT (.sreal (.pint z))), rest) := by
  by_cases hz : z < 0
  · have hd : (pyIntStr z).data = '-' :: natDigits z.natAbs := by
      rw [pyIntStr, if_pos hz, String.data_append]
      rfl
    obtain ⟨c0, cs, hnd, hall, hval⟩ := natDigits_facts z.natAbs
    rw [hd, hnd, tk_neg_digit_run c0 cs rest hall hr f l c, hval]
    have hza : -(z.natAbs : ℤ) = z := by omega
    rw [hza]
  · have hd : (pyIntStr z).data = natDigits z.toNat := by
      rw [pyIntStr, if_neg hz]
      rfl
    obtain ⟨c0, cs, hnd, hall, hval⟩ := natDigits_facts z.toNat
    rw [hd, hnd, tk_digit_run c0 cs rest hall hr f l c, hval]
    have hza : (z.toNat : ℤ) = z := by omega
    rw [hza]

lemma fraction_body_facts (c0 d0 : Char) (cs ds : List Char)
    (hall : ∀ c ∈ c0 :: cs, 48 ≤ c.toNat ∧ c.toNat ≤ 57)
    (hall2 : ∀ c ∈ d0 :: ds, 48 ≤ c.toNat ∧ c.toNat ≤ 57) :
    List.takeWhile Char.isDigit (c0 :: (cs ++ '/' :: d0 :: ds)) = c0 :: cs ∧
    List.dropWhile Char.isDigit (c0 :: (cs ++ '/' :: d0 :: ds)) = '/' :: d0 :: ds ∧
    isIntegerChars (c0 :: (cs ++ '/' :: d0 :: ds)) = false ∧
    isNumberChars (c0 :: (cs ++ '/' :: d0 :: ds)) = false ∧
    isFractionChars (c0 :: (cs ++ '/' :: d0 :: ds)) = true := by
  have h0 := hall c0 (List.mem_cons_self c0 cs)
  obtain ⟨hp, hm, hdot, hsl, _⟩ := digit_head_nes c0 h0.1 h0.2
  have hd0 := isDigit_true_of_digit c0 h0.1 h0.2
  have hrun := takeWhile_app_all (p := Char.isDigit) cs ('/' :: d0 :: ds)
    (fun c hc =>
      isDigit_true_of_digit c (hall c (List.mem_cons_of_mem c0 hc)).1
        (hall c (List.mem_cons_of_mem c0 hc)).2)
    (fun r hr2 => by
      rw [List.head?_cons] at hr2
      injection hr2 with hr3
      rw [← hr3]
      decide)
  have htk : List.takeWhile Char.isDigit (c0 :: (cs ++ '/' :: d0 :: ds)) = c0 :: cs := by
    rw [List.takeWhile_cons, hd0]
    simp [hrun.1]
  have hdr : List.dropWhile Char.isDigit (c0 :: (cs ++ '/' :: d0 :: ds)) = '/' :: d0 :: ds := by
    rw [List.dropWhile_cons, hd0]
    simp [hrun.2]
  have hds := dropSign_of_head c0 (cs ++ '/' :: d0 :: ds) hp hm
  refine ⟨htk, hdr, ?_, ?_, ?_⟩
  · rw [isIntegerChars, hds]
    show (c0 :: (cs ++ '/' :: d0 :: ds)).all Char.isDigit = false
    simp only [List.all_cons, List.all_append]
    simp [show ('/' : Char).isDigit = false from rfl]
  · rw [isNumberChars]
    simp only [hds, htk, hdr]
    split
    · rfl
    · next heq =>
      split at heq
      · next r2 heq2 =>
        injection heq2 with hh _
        exact absurd hh.symm (by decide)
      · simp at heq
    · next m r4 heq =>
      split at heq
      · next r2 heq2 =>
        injection heq2 with hh _
        exact absurd hh.symm (by decide)
      · simp at heq
        rw [← heq.1]
        simp
  · rw [isFractionChars]
    simp only [hds, htk, hdr]
    show ((!(c0 :: cs).isEmpty) && (!(d0 :: ds).isEmpty) && (d0 :: ds).all Char.isDigit) = true
    simp [digits_all_elim (d0 :: ds) hall2]

lemma parseFraction_eval (c0 d0 : Char) (cs ds : List Char)
    (hall : ∀ c ∈ c0 :: cs, 48 ≤ c.toNat ∧ c.toNat ≤ 57)
    (hall2 : ∀ c ∈ d0 :: ds, 48 ≤ c.toNat ∧ c.toNat ≤ 57)
    (hne : ¬ digitsToNat (d0 :: ds) = 0) :
    parseFractionChars (c0 :: (cs ++ '/' :: d0 :: ds)) =
      .ok (if (mkRat ((digitsToNat (c0 :: cs) : ℤ)) (digitsToNat (d0 :: ds))).den = 1
        then .pint (mkRat ((digitsToNat (c0 :: cs) : ℤ)) (digitsToNat (d0 :: ds))).num
        else .pfrac (mkRat ((digitsToNat (c0 :: cs) : ℤ)) (digitsToNat (d0 :: ds)))) ∧
    parseFractionChars ('-' :: c0 :: (cs ++ '/' :: d0 :: ds)) =
      .ok (if (mkRat (-(digitsToNat (c0 :: cs) : ℤ)) (digitsToNat (d0 :: ds))).den = 1
        then .pint (mkRat (-(digitsToNat (c0 :: cs) : ℤ)) (digitsToNat (d0 :: ds))).num
        else .pfrac (mkRat (-(digitsToNat (c0 :: cs) : ℤ)) (digitsToNat (d0 :: ds)))) := by
  have h0 := hall c0 (List.mem_cons_self c0 cs)
  obtain ⟨hp, hm, _⟩ := digit_head_nes c0 h0.1 h0.2
  obtain ⟨htk, hdr, _⟩ := fraction_body_facts c0 d0 cs ds hall hall2
  constructor
  · rw [parseFractionChars]
    rotate_left
    · intro r heq; injection heq with hh _; exact absurd hh hm
    · intro r heq; injection heq with hh _; exact absurd hh hp
    simp only [htk, hdr, List.drop_succ_cons, List.drop_zero, if_neg hne, one_mul]
    split <;> rfl
  · rw [parseFractionChars]
    simp only [htk, hdr, List.drop_succ_cons, List.drop_zero, if_neg hne, neg_one_mul]
    split <;> rfl

lemma tk_frac_run (c0 d0 : Char) (cs ds rest : List Char)
    (hall : ∀ c ∈ c0 :: cs, 48 ≤ c.toNat ∧ c.toNat ≤ 57)
    (hall2 : ∀ c ∈ d0 :: ds, 48 ≤ c.toNat ∧ c.toNat ≤ 57)
    (hne : ¬ digitsToNat (d0 :: ds) = 0)
    (hr : ∀ r, rest.head? = some r → isDelimCh r = true) (f l c : Nat) :
    tokenizeCore stdCfg (f + 1) ((c0 :: (cs ++ '/' :: d0 :: ds)) ++ rest) l c =
      .ok (some (.valT (.sreal
        (if (mkRat ((digitsToNat (c0 :: cs) : ℤ)) (digitsToNat (d0 :: ds))).den = 1
          then .pint (mkRat ((digitsToNat (c0 :: cs) : ℤ)) (digitsToNat (d0 :: ds))).num
          else .pfrac (mkRat ((digitsToNat (c0 :: cs) : ℤ)) (digitsToNat (d0 :: ds)))))),
        rest) ∧
    tokenizeCore stdCfg (f + 1) (('-' :: c0 :: (cs ++ '/' :: d0 :: ds)) ++ rest) l c =
      .ok (some (.valT (.sreal
        (if (mkRat (-(digitsToNat (c0 :: cs) : ℤ)) (digitsToNat (d0 :: ds))).den = 1
          then .pint (mkRat (-(digitsToNat (c0 :: cs) : ℤ)) (digitsToNat (d0 :: ds))).num
          else .pfrac (mkRat (-(digitsToNat (c0 :: cs) : ℤ)) (digitsToNat (d0 :: ds)))))),
        rest) := by
  have h0 := hall c0 (List.mem_cons_self c0 cs)
  obtain ⟨hws0, hdl0⟩ := ws_delim_false c0 (by omega) (by omega) (by omega) (by omega)
  obtain ⟨hp, hm, hdot, hsl, hhash, hlp, hrp, hdq⟩ := digit_head_nes c0 h0.1 h0.2
  obtain ⟨htk, hdr, hint, hnum, hfrac⟩ := fraction_body_facts c0 d0 cs ds hall hall2
  obtain ⟨hpf1, hpf2⟩ := parseFraction_eval c0 d0 cs ds hall hall2 hne
  have hnd : ∀ c ∈ cs ++ '/' :: d0 :: ds, (!isDelimCh c) = true := by
    intro c hc
    rcases List.mem_append.mp hc with h | h
    · have hc2 := hall c (List.mem_cons_of_mem c0 h)
      obtain ⟨_, hdl⟩ := ws_delim_false c (by omega) (by omega) (by omega) (by omega)
      simp [hdl]
    · rcases List.mem_cons.mp h with rfl | h2
      · decide
      · have hc2 := hall2 c h2
        obtain ⟨_, hdl⟩ := ws_delim_false c (by omega) (by omega) (by omega) (by omega)
        simp [hdl]
  have hrun := takeWhile_app_all (p := fun c => !isDelimCh c) (cs ++ '/' :: d0 :: ds) rest
    hnd (fun r hr2 => by simp [hr r hr2])
  constructor
  · show tokenizeCore stdCfg (f + 1) (c0 :: ((cs ++ '/' :: d0 :: ds) ++ rest)) l c = _
    rw [tokenizeCore]
    simp only [List.dropWhile_cons, hws0, Bool.false_eq_true, if_false, stdCfg,
      List.head?_cons, hrun.1, hrun.2]
    simp only [false_and, and_false, if_false, reduceCtorEq, ite_false, if_neg hlp,
      if_neg hrp, if_neg (fun h => hdq h), if_neg (fun h => hdot h)]
    simp only [if_neg (show ¬(c0 = '.' ∧ headSat isDelimCh ((cs ++ '/' :: d0 :: ds) ++ rest) = true)
        from fun h => hdot h.1),
      hint, hnum, Bool.false_eq_true, if_false, ite_false, hfrac, true_and, and_true,
      if_pos rfl, hpf1]
    rw [if_pos trivial]
  · show tokenizeCore stdCfg (f + 1) ('-' :: ((c0 :: (cs ++ '/' :: d0 :: ds)) ++ rest)) l c = _
    have hnd2 : ∀ c ∈ c0 :: (cs ++ '/' :: d0 :: ds), (!isDelimCh c) = true := by
      intro c hc
      rcases List.mem_cons.mp hc with rfl | h2
      · simp [hdl0]
      · exact hnd c h2
    have hrun2 := takeWhile_app_all (p := fun c => !isDelimCh c) (c0 :: (cs ++ '/' :: d0 :: ds))
      rest hnd2 (fun r hr2 => by simp [hr r hr2])
    have hint2 : isIntegerChars ('-' :: c0 :: (cs ++ '/' :: d0 :: ds)) = false := by
      rw [isIntegerChars]
      rw [show dropSign ('-' :: c0 :: (cs ++ '/' :: d0 :: ds)) = c0 :: (cs ++ '/' :: d0 :: ds)
        from by rw [dropSign]; rw [if_pos (Or.inr rfl)]]
      rw [isIntegerChars, dropSign_of_head c0 _ hp hm] at hint
      exact hint
    have hnum2 : isNumberChars ('-' :: c0 :: (cs ++ '/' :: d0 :: ds)) = false := by
      rw [isNumberChars]
      rw [show dropSign ('-' :: c0 :: (cs ++ '/' :: d0 :: ds)) = c0 :: (cs ++ '/' :: d0 :: ds)
        from by rw [dropSign]; rw [if_pos (Or.inr rfl)]]
      rw [isNumberChars, dropSign_of_head c0 _ hp hm] at hnum
      exact hnum
    have hfrac2 : isFractionChars ('-' :: c0 :: (cs ++ '/' :: d0 :: ds)) = true := by
      rw [isFractionChars]
      rw [show dropSign ('-' :: c0 :: (cs ++ '/' :: d0 :: ds)) = c0 :: (cs ++ '/' :: d0 :: ds)
        from by rw [dropSign]; rw [if_pos (Or.inr rfl)]]
      rw [isFractionChars, dropSign_of_head c0 _ hp hm] at hfrac
      exact hfrac
    rw [tokenizeCore]
    simp only [List.dropWhile_cons, show isWsCh '-' = false from rfl, Bool.false_eq_true,
      if_false, stdCfg, List.head?_cons, hrun2.1, hrun2.2]
    simp only [false_and, and_false, if_false, reduceCtorEq, ite_false,
      if_neg (show ¬('-' : Char) = '(' by decide), if_neg (show ¬('-' : Char) = ')' by decide),
      if_neg (show ¬('-' : Char) = dquoteCh by decide)]
    simp only [if_neg (show ¬(('-' : Char) = '.' ∧
        headSat isDelimCh ((c0 :: (cs ++ '/' :: d0 :: ds)) ++ rest) = true) from
        fun h => absurd h.1 (by decide)),
      hint2, hnum2, Bool.false_eq_true, if_false, ite_false, hfrac2, true_and, and_true,
      hpf2]
    rw [if_pos trivial]

lemma tk_fracToken (z : ℤ) (n : Nat) (hn : 0 < n) (rest : List Char)
    (hr : ∀ r, rest.head? = some r → isDelimCh r = true) (f l c : Nat) :
    tokenizeCore stdCfg (f + 1) (((pyIntStr z).data ++ '/' :: natDigits n) ++ rest) l c =
      .ok (some (.valT (.sreal
        (if (mkRat z n).den = 1 then .pint (mkRat z n).num else .pfrac (mkRat z n)))), rest) := by
  obtain ⟨d0, ds, hnd, hall2, hval2⟩ := natDigits_facts n
  have hne : ¬ digitsToNat (d0 :: ds) = 0 := by rw [hval2]; omega
  by_cases hz : z < 0
  · have hd : (pyIntStr z).data = '-' :: natDigits z.natAbs := by
      rw [pyIntStr, if_pos hz, String.data_append]
      rfl
    obtain ⟨c0, cs, hnd1, hall1, hval1⟩ := natDigits_facts z.natAbs
    rw [hd, hnd1, hnd]
    have := (tk_frac_run c0 d0 cs ds rest hall1 hall2 hne hr f l c).2
    rw [show ('-' :: c0 :: cs) ++ '/' :: d0 :: ds = '-' :: c0 :: (cs ++ '/' :: d0 :: ds) from by
      simp, this, hval1, hval2]
    have hza : -((z.natAbs : ℕ) : ℤ) = z := by omega
    rw [hza]
  · have hd : (pyIntStr z).data = natDigits z.toNat := by
      rw [pyIntStr, if_neg hz]
      rfl
    obtain ⟨c0, cs, hnd1, hall1, hval1⟩ := natDigits_facts z.toNat
    rw [hd, hnd1, hnd]
    have := (tk_frac_run c0 d0 cs ds rest hall1 hall2 hne hr f l c).1
    rw [show (c0 :: cs) ++ '/' :: d0 :: ds = c0 :: (cs ++ '/' :: d0 :: ds) from by
      simp, this, hval1, hval2]
    have hza : ((z.toNat : ℕ) : ℤ) = z := by omega
    rw [hza]

lemma stringScan_through (cs : List Char) (hnq : ∀ c ∈ cs, ¬ c = dquoteCh) :
    ∀ f rest, cs.length < f → stringScan stdCfg f (cs ++ dquoteCh :: rest) = some (cs, rest) := by
  induction cs with
  | nil =>
    intro f rest hf
    obtain ⟨g, rfl⟩ : ∃ g, f = g + 1 := ⟨f - 1, by omega⟩
    rw [List.nil_append]
    rfl
  | cons x xs ih =>
    intro f rest hf
    obtain ⟨g, rfl⟩ : ∃ g, f = g + 1 := ⟨f - 1, by omega⟩
    have hx : ¬ x = dquoteCh := hnq x (List.mem_cons_self x xs)
    have hxs := ih (fun c hc => hnq c (List.mem_cons_of_mem x hc)) g rest (by
      rw [List.length_cons] at hf
      omega)
    rw [List.cons_append, stringScan.eq_def]
    simp only [if_neg hx,
      if_neg (show ¬(stdCfg.enableEscape = true ∧ x = '\\') from fun h => by
        rw [show stdCfg.enableEscape = false from rfl] at h
        exact absurd h.1 (by decide)),
      hxs]

lemma tk_str (cs rest : List Char) (hnq : ∀ c ∈ cs, ¬ c = dquoteCh) (f l c : Nat) :
    tokenizeCore stdCfg (f + 1) (dquoteCh :: (cs ++ dquoteCh :: rest)) l c =
      .ok (some (.valT (.sstr ⟨cs⟩)), rest) := by
  have hscan := stringScan_through cs hnq ((cs ++ dquoteCh :: rest).length + 1) rest (by
    rw [List.length_append, List.length_cons]
    omega)
  rw [tokenizeCore]
  simp only [List.dropWhile_cons, show isWsCh dquoteCh = false from rfl, Bool.false_eq_true,
    if_false, List.head?_cons,
    show stdCfg.enableLineComment = false from rfl,
    show stdCfg.enableBlockComment = false from rfl,
    show stdCfg.enableQuote = false from rfl,
    show stdCfg.enableFuncRef = false from rfl]
  simp only [false_and, and_false, if_false, reduceCtorEq, ite_false,
    if_neg (show ¬dquoteCh = '(' by decide), if_neg (show ¬dquoteCh = ')' by decide),
    if_neg (show ¬(dquoteCh = '.' ∧ headSat isDelimCh (cs ++ dquoteCh :: rest) = true) from
      fun h => absurd h.1 (by decide)),
    if_pos (show dquoteCh = dquoteCh from rfl), hscan]
  rw [if_pos trivial]

lemma tk_hashC (body : List Char) (f l c : Nat) :
    tokenizeCore stdCfg (f + 1) ('#' :: 'C' :: '(' :: body) l c =
      .ok (some .complexT, '(' :: body) := by
  rw [tokenizeCore]
  simp only [List.dropWhile_cons, show isWsCh '#' = false from rfl, Bool.false_eq_true,
    if_false, List.head?_cons,
    show stdCfg.enableLineComment = false from rfl,
    show stdCfg.enableBlockComment = false from rfl,
    show stdCfg.enableQuote = false from rfl,
    show stdCfg.enableFuncRef = false from rfl,
    show stdCfg.enableChar = false from rfl,
    show stdCfg.enableArray = false from rfl,
    show stdCfg.enableComplex = true from rfl]
  simp only [false_and, and_false, if_false, reduceCtorEq, ite_false,
    if_neg (show ¬('#' : Char) = '(' by decide), if_neg (show ¬('#' : Char) = ')' by decide),
    if_neg (show ¬(('#' : Char) = dquoteCh) by decide),
    if_neg (show ¬(('#' : Char) = '.' ∧ headSat isDelimCh ('C' :: '(' :: body) = true) from
      fun h => absurd h.1 (by decide))]
  simp only [List.takeWhile_cons, List.dropWhile_cons,
    show (!isDelimCh 'C') = true from rfl, show (!isDelimCh '(') = false from rfl,
    Bool.false_eq_true, if_false, if_pos rfl]
  simp only [ite_true, if_true,
    show isIntegerChars ['#', 'C'] = false from by decide,
    show isNumberChars ['#', 'C'] = false from by decide,
    show stdCfg.enableBin = false from rfl,
    show stdCfg.enableOct = false from rfl,
    show stdCfg.enableHex = false from rfl,
    show stdCfg.enableRadix = false from rfl,
    show isFractionChars ['#', 'C'] = false from by decide,
    show stdCfg.enableFrac = true from rfl,
    Bool.false_eq_true, false_and, and_false, if_false, ite_false,
    List.dropWhile_cons, show isWsCh '(' = false from rfl, List.head?_cons,
    show isHashC ['#', 'C'] = true from rfl, true_and, and_true, if_pos rfl]

lemma tk_dot (rest : List Char) (hhd : headSat isDelimCh rest = true) (f l c : Nat) :
    tokenizeCore stdCfg (f + 1) ('.' :: rest) l c = .ok (some .dotT, rest) := by
  rw [tokenizeCore]
  simp only [List.dropWhile_cons, show isWsCh '.' = false from rfl, Bool.false_eq_true,
    if_false, List.head?_cons,
    show stdCfg.enableLineComment = false from rfl,
    show stdCfg.enableBlockComment = false from rfl,
    show stdCfg.enableQuote = false from rfl,
    show stdCfg.enableFuncRef = false from rfl]
  simp only [false_and, and_false, if_false, reduceCtorEq, ite_false,
    if_neg (show ¬('.' : Char) = '(' by decide), if_neg (show ¬('.' : Char) = ')' by decide)]
  rw [if_pos (show True ∧ headSat isDelimCh rest = true from ⟨trivial, hhd⟩)]

lemma tokenizeCore_ws_skip (cs : List Char) (f g l c : Nat) :
    tokenizeCore stdCfg (f + 1) (' ' :: cs) l c = tokenizeCore stdCfg (g + 1) cs l c := by
  rw [tokenizeCore, tokenizeCore]
  simp only [List.dropWhile_cons, show isWsCh ' ' = true from rfl, if_true, ite_true,
    show stdCfg.enableLineComment = false from rfl,
    show stdCfg.enableBlockComment = false from rfl,
    Bool.false_eq_true, false_and, if_false, ite_false]

lemma toked_step (cfg : Dialect) (cs0 rest0 : List Char) (t : Tok) (ts : List Tok)
    (htok : ∀ f l c, tokenizeCore cfg (f + 1) cs0 l c = .ok (some t, rest0))
    (htl : Toked cfg rest0 ts) : Toked cfg cs0 (t :: ts) := by
  exact ⟨rest0, fun l c => htok cs0.length l c, htl⟩

lemma toked_nil (cfg : Dialect) : Toked cfg [] [] := by
  intro l c
  exact tokenizeCore_ws_eof cfg 0 l c [] rfl

lemma toked_ws (cs : List Char) (ts : List Tok) (h : Toked stdCfg cs ts) :
    Toked stdCfg (' ' :: cs) ts := by
  cases ts with
  | nil =>
    intro l c
    rw [show (' ' :: cs).length = cs.length + 1 from rfl, tokenizeCore_ws_skip cs (cs.length + 1) cs.length l c]
    exact h l c
  | cons t ts =>
    obtain ⟨rest, hrun, htl⟩ := h
    refine ⟨rest, fun l c => ?_, htl⟩
    rw [show (' ' :: cs).length = cs.length + 1 from rfl, tokenizeCore_ws_skip cs (cs.length + 1) cs.length l c]
    exact hrun l c

lemma toked_lpar (cs : List Char) (ts : List Tok) (h : Toked stdCfg cs ts) :
    Toked stdCfg ('(' :: cs) (.lparT :: ts) :=
  toked_step stdCfg _ cs _ ts (fun f l c => tokenizeCore_lparen stdCfg f l c cs) h

lemma toked_rpar (cs : List Char) (ts : List Tok) (h : Toked stdCfg cs ts) :
    Toked stdCfg (')' :: cs) (.rparT :: ts) :=
  toked_step stdCfg _ cs _ ts (fun f l c => tokenizeCore_rparen stdCfg f l c cs) h

lemma toked_dot (cs : List Char) (ts : List Tok) (hhd : headSat isDelimCh cs = true)
    (h : Toked stdCfg cs ts) : Toked stdCfg ('.' :: cs) (.dotT :: ts) :=
  toked_step stdCfg _ cs _ ts (fun f l c => tk_dot cs hhd f l c) h

lemma toked_sym (s : String) (hs : goodSym s = true) (rest : List Char) (ts : List Tok)
    (hr : ∀ r, rest.head? = some r → isDelimCh r = true) (h : Toked stdCfg rest ts) :
    Toked stdCfg (s.data ++ rest) (.valT (.ssym s) :: ts) :=
  toked_step stdCfg _ rest _ ts (fun f l c => tk_sym s hs rest hr f l c) h

lemma toked_int (z : ℤ) (rest : List Char) (ts : List Tok)
    (hr : ∀ r, rest.head? = some r → isDelimCh r = true) (h : Toked stdCfg rest ts) :
    Toked stdCfg ((pyIntStr z).data ++ rest) (.valT (.sreal (.pint z)) :: ts) :=
  toked_step stdCfg _ rest _ ts (fun f l c => tk_int z rest hr f l c) h

lemma toked_frac (z : ℤ) (n : Nat) (hn : 0 < n) (rest : List Char) (ts : List Tok)
    (hr : ∀ r, rest.head? = some r → isDelimCh r = true) (h : Toked stdCfg rest ts) :
    Toked stdCfg (((pyIntStr z).data ++ '/' :: natDigits n) ++ rest)
      (.valT (.sreal (if (mkRat z n).den = 1 then .pint (mkRat z n).num
        else .pfrac (mkRat z n))) :: ts) :=
  toked_step stdCfg _ rest _ ts (fun f l c => tk_fracToken z n hn rest hr f l c) h

lemma toked_str (cs rest : List Char) (ts : List Tok) (hnq : ∀ c ∈ cs, ¬ c = dquoteCh)
    (h : Toked stdCfg rest ts) :
    Toked stdCfg ((dquoteCh :: (cs ++ [dquoteCh])) ++ rest) (.valT (.sstr ⟨cs⟩) :: ts) := by
  have he : (dquoteCh :: (cs ++ [dquoteCh])) ++ rest = dquoteCh :: (cs ++ dquoteCh :: rest) := by
    simp
  rw [he]
  exact toked_step stdCfg _ rest _ ts (fun f l c => tk_str cs rest hnq f l c) h

lemma toked_hashC (body : List Char) (ts : List Tok)
    (h : Toked stdCfg ('(' :: body) ts) :
    Toked stdCfg ('#' :: 'C' :: '(' :: body) (.complexT :: ts) :=
  toked_step stdCfg _ ('(' :: body) _ ts (fun f l c => tk_hashC body f l c) h

lemma esize_pos (e : SExpr) : 1 ≤ esize e := by
  cases e <;> simp [esize]

lemma sxpr2StrF_scons (f : Nat) (a d : SExpr) :
    sxpr2StrF stdCfg (f + 1) (.scons a d) =
      (cons2SeqStrF stdCfg f a d).map (fun s2 => "(" ++ s2 ++ ")") := by
  cases a <;> cases d <;>
    simp only [sxpr2StrF, show stdCfg.enableQuote = false from rfl,
      show stdCfg.enableFuncRef = false from rfl, Bool.false_and, Bool.false_eq_true,
      if_false, ite_false]

lemma cons2SeqStrF_nil (f : Nat) (a : SExpr) :
    cons2SeqStrF stdCfg (f + 1) a .snil = sxpr2StrF stdCfg f a := by
  cases h : sxpr2StrF stdCfg f a <;> simp only [cons2SeqStrF, h]

lemma cons2SeqStrF_cons (f : Nat) (a b dd : SExpr) :
    cons2SeqStrF stdCfg (f + 1) a (.scons b dd) =
      (match sxpr2StrF stdCfg f a, cons2SeqStrF stdCfg f b dd with
        | some s1, some s2 => some (s1 ++ " " ++ s2)
        | _, _ => none) := by
  cases h : sxpr2StrF stdCfg f a <;> cases h2 : cons2SeqStrF stdCfg f b dd <;>
    simp only [cons2SeqStrF, h, h2]

lemma cons2SeqStrF_atom (f : Nat) (a d : SExpr) (hd1 : ¬ d = .snil)
    (hd2 : ∀ b dd, ¬ d = .scons b dd) :
    cons2SeqStrF stdCfg (f + 1) a d =
      (match sxpr2StrF stdCfg f a, sxpr2StrF stdCfg f d with
        | some s1, some s2 => some (s1 ++ " . " ++ s2)
        | _, _ => none) := by
  cases d with
  | snil => exact absurd rfl hd1
  | scons b dd => exact absurd rfl (hd2 b dd)
  | _ =>
    cases h : sxpr2StrF stdCfg f a <;> cases h2 : sxpr2StrF stdCfg f _ <;>
      simp only [cons2SeqStrF, h, h2]

lemma goodStr_elim (s : String) (hs : goodStr s = true) :
    ∀ c ∈ s.data, 32 ≤ c.toNat ∧ c.toNat ≤ 126 ∧ ¬ c = dquoteCh ∧ ¬ c = '\\' := by
  rw [goodStr, List.all_eq_true] at hs
  intro c hc
  have h := hs c hc
  simp only [Bool.and_eq_true, decide_eq_true_eq, Bool.not_eq_true', beq_eq_false_iff_ne,
    ne_eq] at h
  exact ⟨h.1.1.1, h.1.1.2, h.1.2, h.2⟩

lemma jsonEscChar_plain (c : Char) (h32 : 32 ≤ c.toNat) (h126 : c.toNat ≤ 126)
    (hdq : ¬ c = dquoteCh) (hbs : ¬ c = '\\') : jsonEscChar c = [c] := by
  have n1 : ¬ c = Char.ofNat 8 := char_ne_of_toNat (by intro h; rw [show (Char.ofNat 8).toNat = 8 from rfl] at h; omega)
  have n2 : ¬ c = '\t' := char_ne_of_toNat (by intro h; rw [show Char.toNat '\t' = 9 from rfl] at h; omega)
  have n3 : ¬ c = '\n' := char_ne_of_toNat (by intro h; rw [show Char.toNat '\n' = 10 from rfl] at h; omega)
  have n4 : ¬ c = Char.ofNat 12 := char_ne_of_toNat (by intro h; rw [show (Char.ofNat 12).toNat = 12 from rfl] at h; omega)
  have n5 : ¬ c = '\r' := char_ne_of_toNat (by intro h; rw [show Char.toNat '\r' = 13 from rfl] at h; omega)
  have n6 : ¬ c.toNat < 32 := by omega
  simp [jsonEscChar, hdq, hbs, n1, n2, n3, n4, n5, n6]

lemma collapse_no_bs (l : List Char) (h : ∀ c ∈ l, ¬ c = '\\') : collapseBackslash l = l := by
  induction l with
  | nil => rfl
  | cons c rest ih =>
    have hc : ¬ c = '\\' := h c (List.mem_cons_self c rest)
    have ih2 := ih (fun x hx => h x (List.mem_cons_of_mem c hx))
    rw [collapseBackslash.eq_def]
    split
    · next c2 r2 heq =>
      injection heq with hh _
      exact absurd hh hc
    · next x r2 heq =>
      injection heq with hh htl
      rw [← hh, ← htl, ih2]
    · next heq => exact absurd heq (by simp)

lemma stringStr_good (s : String) (hs : goodStr s = true) :
    (stringStr stdCfg s).data = dquoteCh :: (s.data ++ [dquoteCh]) := by
  have hall := goodStr_elim s hs
  have hmap : s.data.map jsonEscChar = s.data.map (fun c => [c]) :=
    List.map_congr_left (fun c hc =>
      jsonEscChar_plain c (hall c hc).1 (hall c hc).2.1 (hall c hc).2.2.1 (hall c hc).2.2.2)
  have hdump : (pyDumps s).data = dquoteCh :: (s.data ++ [dquoteCh]) := by
    rw [pyDumps]
    show dquoteCh :: ((s.data.map jsonEscChar).flatten ++ [dquoteCh]) = _
    rw [hmap, flatten_singletons]
  rw [stringStr]
  rw [show (!stdCfg.enableEscape) = true from rfl, if_pos rfl]
  show collapseBackslash (pyDumps s).data = _
  rw [hdump, collapse_no_bs]
  intro c hc
  rcases List.mem_cons.mp hc with rfl | hc2
  · decide
  · rcases List.mem_append.mp hc2 with h3 | h3
    · exact (hall c h3).2.2.2
    · rw [List.mem_singleton] at h3
      subst h3
      decide

lemma toked_real (r : PyReal) (hg : goodReal r = true) (s : String)
    (hrs : realStr r = some s) (rest : List Char) (ts : List Tok)
    (hr : ∀ x, rest.head? = some x → isDelimCh x = true) (h : Toked stdCfg rest ts) :
    Toked stdCfg (s.data ++ rest) (.valT (.sreal r) :: ts) := by
  cases r with
  | pint z =>
    rw [realStr] at hrs
    injection hrs with hrs
    rw [← hrs]
    exact toked_int z rest ts hr h
  | pfrac q =>
    rw [realStr] at hrs
    injection hrs with hrs
    rw [goodReal] at hg
    have hq : ¬ q.den = 1 := by simpa using hg
    have hdata : s.data = (pyIntStr q.num).data ++ '/' :: natDigits q.den := by
      rw [← hrs]
      simp [String.data_append]
      rfl
    rw [hdata]
    have := toked_frac q.num q.den q.pos rest ts hr h
    rw [Rat.mkRat_self, if_neg hq] at this
    exact this
  | pfloat x => simp [goodReal] at hg

lemma head_delim_rpar (rest : List Char) :
    ∀ r, (')' :: rest).head? = some r → isDelimCh r = true := by
  intro r h
  injection h with h
  rw [← h]
  decide

lemma head_delim_sp (rest : List Char) :
    ∀ r, (' ' :: rest).head? = some r → isDelimCh r = true := by
  intro r h
  injection h with h
  rw [← h]
  decide

lemma realStr_some (r : PyReal) (hg : goodReal r = true) : ∃ sa, realStr r = some sa := by
  cases r
  · exact ⟨_, rfl⟩
  · exact ⟨_, rfl⟩
  · simp [goodReal] at hg

lemma scan_main : ∀ n,
    (∀ v f s rest ts, esize v ≤ n → esize v ≤ f → good v = true →
      sxpr2StrF stdCfg f v = some s →
      (∀ r, rest.head? = some r → isDelimCh r = true) → Toked stdCfg rest ts →
      Toked stdCfg (s.data ++ rest) (toks v ++ ts)) ∧
    (∀ a d f s rest ts, esize a + esize d ≤ n → esize a + esize d ≤ f →
      good a = true → good d = true →
      cons2SeqStrF stdCfg f a d = some s → Toked stdCfg rest ts →
      Toked stdCfg (s.data ++ ')' :: rest) (seqToks a d ++ .rparT :: ts)) := by
  intro n
  induction n with
  | zero =>
    constructor
    · intro v f s rest ts h1 h2 h3 h4 h5 h6
      exact absurd h1 (by have := esize_pos v; omega)
    · intro a d f s rest ts h1 h2 h3 h4 h5 h6
      exact absurd h1 (by have := esize_pos a; have := esize_pos d; omega)
  | succ k ih =>
    obtain ⟨ihV, ihQ⟩ := ih
    constructor
    · intro v f s rest ts hn hf hg hps hsep htk
      obtain ⟨f2, rfl⟩ : ∃ f2, f = f2 + 1 := ⟨f - 1, by have := esize_pos v; omega⟩
      cases v with
      | snil =>
        simp only [sxpr2StrF] at hps
        injection hps with hps
        rw [← hps]
        simp only [toks, List.cons_append, List.nil_append]
        exact toked_lpar _ _ (toked_rpar _ _ htk)
      | sreal r =>
        simp only [sxpr2StrF] at hps
        simp only [good] at hg
        simp only [toks, List.cons_append, List.nil_append]
        exact toked_real r hg s hps rest ts hsep htk
      | scplx re im =>
        simp only [good, Bool.and_eq_true] at hg
        obtain ⟨⟨hgre, hgim⟩, _⟩ := hg
        obtain ⟨sa, hsa⟩ := realStr_some re hgre
        obtain ⟨sb, hsb⟩ := realStr_some im hgim
        simp only [sxpr2StrF, hsa, hsb] at hps
        injection hps with hps
        have hL : s.data ++ rest =
            '#' :: 'C' :: '(' :: (sa.data ++ ' ' :: (sb.data ++ ')' :: rest)) := by
          rw [← hps]
          simp [String.data_append]
        rw [hL]
        simp only [toks, List.cons_append, List.nil_append]
        exact toked_hashC _ _ (toked_lpar _ _
          (toked_real re hgre sa hsa _ _ (head_delim_sp _)
            (toked_ws _ _ (toked_real im hgim sb hsb _ _ (head_delim_rpar rest)
              (toked_rpar rest ts htk)))))
      | ssym s0 =>
        simp only [sxpr2StrF] at hps
        simp only [good] at hg
        rw [symbolStr_good s0 hg] at hps
        injection hps with hps
        rw [← hps]
        simp only [toks, List.cons_append, List.nil_append]
        exact toked_sym s0 hg rest ts hsep htk
      | sstr s0 =>
        simp only [sxpr2StrF] at hps
        simp only [good] at hg
        injection hps with hps
        have hL : s.data ++ rest = (dquoteCh :: (s0.data ++ [dquoteCh])) ++ rest := by
          rw [← hps, stringStr_good s0 hg]
        rw [hL]
        simp only [toks, List.cons_append, List.nil_append]
        exact toked_str s0.data rest ts
          (fun c hc => ((goodStr_elim s0 hg) c hc).2.2.1) htk
      | schar s0 => simp [good] at hg
      | sarr dim p => simp [good] at hg
      | pynone => simp [good] at hg
      | scons a d =>
        simp only [good, Bool.and_eq_true] at hg
        obtain ⟨hga, hgd⟩ := hg
        rw [sxpr2StrF_scons] at hps
        cases hc2 : cons2SeqStrF stdCfg f2 a d with
        | none => rw [hc2] at hps; simp at hps
        | some s2 =>
          rw [hc2] at hps
          have hps2 : some ("(" ++ s2 ++ ")") = some s := hps
          injection hps2 with hps
          have hesz : esize (SExpr.scons a d) = esize a + esize d + 1 := rfl
          have hQ := ihQ a d f2 s2 rest ts (by omega) (by omega) hga hgd hc2 htk
          have hL : s.data ++ rest = '(' :: (s2.data ++ ')' :: rest) := by
            rw [← hps]
            simp [String.data_append]
          rw [hL]
          simp only [toks, List.cons_append, List.append_assoc, List.nil_append]
          exact toked_lpar _ _ hQ
    · intro a d f s rest ts hn hf hga hgd hps htk
      obtain ⟨f2, rfl⟩ : ∃ f2, f = f2 + 1 :=
        ⟨f - 1, by have := esize_pos a; have := esize_pos d; omega⟩
      have hea := esize_pos a
      have hed := esize_pos d
      cases d with
      | snil =>
        rw [cons2SeqStrF_nil] at hps
        have hV := ihV a f2 s (')' :: rest) (.rparT :: ts) (by omega) (by omega) hga hps
          (head_delim_rpar rest) (toked_rpar rest ts htk)
        rw [seqToks]
        simp only [tailToks, List.append_nil]
        exact hV
      | scons b dd =>
        rw [cons2SeqStrF_cons] at hps
        have hsda : ∃ sa, sxpr2StrF stdCfg f2 a = some sa := by
          cases hx : sxpr2StrF stdCfg f2 a
          · rw [hx] at hps; simp at hps
          · exact ⟨_, rfl⟩
        obtain ⟨sa, hsa⟩ := hsda
        have hsdd : ∃ s2, cons2SeqStrF stdCfg f2 b dd = some s2 := by
          cases hx : cons2SeqStrF stdCfg f2 b dd
          · rw [hsa, hx] at hps; simp at hps
          · exact ⟨_, rfl⟩
        obtain ⟨s2, hs2⟩ := hsdd
        rw [hsa, hs2] at hps
        injection hps with hps
        simp only [good, Bool.and_eq_true] at hgd
        obtain ⟨hgb, hgdd⟩ := hgd
        have heszd : esize (SExpr.scons b dd) = esize b + esize dd + 1 := rfl
        have heb := esize_pos b
        have hedd := esize_pos dd
        have hQ := ihQ b dd f2 s2 rest ts (by omega) (by omega) hgb hgdd hs2 htk
        have hT2 := toked_ws _ _ hQ
        have hV := ihV a f2 sa _ _ (by omega) (by omega) hga hsa (head_delim_sp _) hT2
        have hL : s.data ++ ')' :: rest = sa.data ++ ' ' :: (s2.data ++ ')' :: rest) := by
          rw [← hps]
          simp [String.data_append]
        rw [hL]
        rw [seqToks]
        simp only [tailToks, List.append_assoc, List.cons_append]
        exact hV
      | sreal r =>
        rw [cons2SeqStrF_atom f2 a _ (by simp) (by simp)] at hps
        have hsda : ∃ sa, sxpr2StrF stdCfg f2 a = some sa := by
          cases hx : sxpr2StrF stdCfg f2 a
          · rw [hx] at hps; simp at hps
          · exact ⟨_, rfl⟩
        obtain ⟨sa, hsa⟩ := hsda
        have hsdd : ∃ s2, sxpr2StrF stdCfg f2 (SExpr.sreal r) = some s2 := by
          cases hx : sxpr2StrF stdCfg f2 (SExpr.sreal r)
          · rw [hsa, hx] at hps; simp at hps
          · exact ⟨_, rfl⟩
        obtain ⟨s2, hs2⟩ := hsdd
        rw [hsa, hs2] at hps
        injection hps with hps
        have hT1 := ihV (SExpr.sreal r) f2 s2 (')' :: rest) (.rparT :: ts) (by have := esize_pos a; omega)
          (by have := esize_pos a; omega) hgd hs2 (head_delim_rpar rest) (toked_rpar rest ts htk)
        have hT2 := toked_ws _ _ hT1
        have hT3 := toked_dot _ _ (by rfl) hT2
        have hT4 := toked_ws _ _ hT3
        have hT5 := ihV a f2 sa _ _ (by have := esize_pos (SExpr.sreal r); omega)
          (by have := esize_pos (SExpr.sreal r); omega) hga hsa (head_delim_sp _) hT4
        have hL : s.data ++ ')' :: rest =
            sa.data ++ ' ' :: '.' :: ' ' :: (s2.data ++ ')' :: rest) := by
          rw [← hps]
          simp [String.data_append]
        rw [hL]
        rw [seqToks]
        simp only [tailToks, List.append_assoc, List.cons_append, List.nil_append]
        exact hT5
      | scplx re im =>
        rw [cons2SeqStrF_atom f2 a _ (by simp) (by simp)] at hps
        have hsda : ∃ sa, sxpr2StrF stdCfg f2 a = some sa := by
          cases hx : sxpr2StrF stdCfg f2 a
          · rw [hx] at hps; simp at hps
          · exact ⟨_, rfl⟩
        obtain ⟨sa, hsa⟩ := hsda
        have hsdd : ∃ s2, sxpr2StrF stdCfg f2 (SExpr.scplx re im) = some s2 := by
          cases hx : sxpr2StrF stdCfg f2 (SExpr.scplx re im)
          · rw [hsa, hx] at hps; simp at hps
          · exact ⟨_, rfl⟩
        obtain ⟨s2, hs2⟩ := hsdd
        rw [hsa, hs2] at hps
        injection hps with hps
        have hT1 := ihV (SExpr.scplx re im) f2 s2 (')' :: rest) (.rparT :: ts) (by have := esize_pos a; omega)
          (by have := esize_pos a; omega) hgd hs2 (head_delim_rpar rest) (toked_rpar rest ts htk)
        have hT2 := toked_ws _ _ hT1
        have hT3 := toked_dot _ _ (by rfl) hT2
        have hT4 := toked_ws _ _ hT3
        have hT5 := ihV a f2 sa _ _ (by have := esize_pos (SExpr.scplx re im); omega)
          (by have := esize_pos (SExpr.scplx re im); omega) hga hsa (head_delim_sp _) hT4
        have hL : s.data ++ ')' :: rest =
            sa.data ++ ' ' :: '.' :: ' ' :: (s2.data ++ ')' :: rest) := by
          rw [← hps]
          simp [String.data_append]
        rw [hL]
        rw [seqToks]
        simp only [tailToks, List.append_assoc, List.cons_append, List.nil_append]
        exact hT5
      | ssym s0 =>
        rw [cons2SeqStrF_atom f2 a _ (by simp) (by simp)] at hps
        have hsda : ∃ sa, sxpr2StrF stdCfg f2 a = some sa := by
          cases hx : sxpr2StrF stdCfg f2 a
          · rw [hx] at hps; simp at hps
          · exact ⟨_, rfl⟩
        obtain ⟨sa, hsa⟩ := hsda
        have hsdd : ∃ s2, sxpr2StrF stdCfg f2 (SExpr.ssym s0) = some s2 := by
          cases hx : sxpr2StrF stdCfg f2 (SExpr.ssym s0)
          · rw [hsa, hx] at hps; simp at hps
          · exact ⟨_, rfl⟩
        obtain ⟨s2, hs2⟩ := hsdd
        rw [hsa, hs2] at hps
        injection hps with hps
        have hT1 := ihV (SExpr.ssym s0) f2 s2 (')' :: rest) (.rparT :: ts) (by have := esize_pos a; omega)
          (by have := esize_pos a; omega) hgd hs2 (head_delim_rpar rest) (toked_rpar rest ts htk)
        have hT2 := toked_ws _ _ hT1
        have hT3 := toked_dot _ _ (by rfl) hT2
        have hT4 := toked_ws _ _ hT3
        have hT5 := ihV a f2 sa _ _ (by have := esize_pos (SExpr.ssym s0); omega)
          (by have := esize_pos (SExpr.ssym s0); omega) hga hsa (head_delim_sp _) hT4
        have hL : s.data ++ ')' :: rest =
            sa.data ++ ' ' :: '.' :: ' ' :: (s2.data ++ ')' :: rest) := by
          rw [← hps]
          simp [String.data_append]
        rw [hL]
        rw [seqToks]
        simp only [tailToks, List.append_assoc, List.cons_append, List.nil_append]
        exact hT5
      | sstr s0 =>
        rw [cons2SeqStrF_atom f2 a _ (by simp) (by simp)] at hps
        have hsda : ∃ sa, sxpr2StrF stdCfg f2 a = some sa := by
          cases hx : sxpr2StrF stdCfg f2 a
          · rw [hx] at hps; simp at hps
          · exact ⟨_, rfl⟩
        obtain ⟨sa, hsa⟩ := hsda
        have hsdd : ∃ s2, sxpr2StrF stdCfg f2 (SExpr.sstr s0) = some s2 := by
          cases hx : sxpr2StrF stdCfg f2 (SExpr.sstr s0)
          · rw [hsa, hx] at hps; simp at hps
          · exact ⟨_, rfl⟩
        obtain ⟨s2, hs2⟩ := hsdd
        rw [hsa, hs2] at hps
        injection hps with hps
        have hT1 := ihV (SExpr.sstr s0) f2 s2 (')' :: rest) (.rparT :: ts) (by have := esize_pos a; omega)
          (by have := esize_pos a; omega) hgd hs2 (head_delim_rpar rest) (toked_rpar rest ts htk)
        have hT2 := toked_ws _ _ hT1
        have hT3 := toked_dot _ _ (by rfl) hT2
        have hT4 := toked_ws _ _ hT3
        have hT5 := ihV a f2 sa _ _ (by have := esize_pos (SExpr.sstr s0); omega)
          (by have := esize_pos (SExpr.sstr s0); omega) hga hsa (head_delim_sp _) hT4
        have hL : s.data ++ ')' :: rest =
            sa.data ++ ' ' :: '.' :: ' ' :: (s2.data ++ ')' :: rest) := by
          rw [← hps]
          simp [String.data_append]
        rw [hL]
        rw [seqToks]
        simp only [tailToks, List.append_assoc, List.cons_append, List.nil_append]
        exact hT5
      | schar s0 => simp [good] at hgd
      | sarr dim p => simp [good] at hgd
      | pynone => simp [good] at hgd

lemma realStr_len_pos (r : PyReal) (hg : goodReal r = true) (s : String)
    (hrs : realStr r = some s) : 1 ≤ s.data.length := by
  cases r with
  | pint z =>
    rw [realStr] at hrs
    injection hrs with hrs
    rw [← hrs]
    by_cases hz : z < 0
    · rw [pyIntStr, if_pos hz, String.data_append]
      simp
    · rw [pyIntStr, if_neg hz]
      show 1 ≤ (natDigits z.toNat).length
      obtain ⟨c0, cs, hnd, _, _⟩ := natDigits_facts z.toNat
      rw [hnd]
      simp
  | pfrac q =>
    rw [realStr] at hrs
    injection hrs with hrs
    rw [← hrs]
    simp [String.data_append]
    omega
  | pfloat x => simp [goodReal] at hg

lemma len_main : ∀ n,
    (∀ v f s, esize v ≤ n → esize v ≤ f → good v = true →
      sxpr2StrF stdCfg f v = some s → esize v ≤ s.data.length) ∧
    (∀ a d f s, esize a + esize d ≤ n → esize a + esize d ≤ f →
      good a = true → good d = true →
      cons2SeqStrF stdCfg f a d = some s → esize a + esize d ≤ s.data.length + 1) := by
  intro n
  induction n with
  | zero =>
    constructor
    · intro v f s h1 h2 h3 h4
      exact absurd h1 (by have := esize_pos v; omega)
    · intro a d f s h1 h2 h3 h4 h5
      exact absurd h1 (by have := esize_pos a; have := esize_pos d; omega)
  | succ k ih =>
    obtain ⟨ihV, ihQ⟩ := ih
    constructor
    · intro v f s hn hf hg hps
      obtain ⟨f2, rfl⟩ : ∃ f2, f = f2 + 1 := ⟨f - 1, by have := esize_pos v; omega⟩
      cases v with
      | snil =>
        simp only [sxpr2StrF] at hps
        injection hps with hps
        rw [← hps]
        decide
      | sreal r =>
        simp only [sxpr2StrF] at hps
        simp only [good] at hg
        exact realStr_len_pos r hg s hps
      | scplx re im =>
        simp only [good, Bool.and_eq_true] at hg
        obtain ⟨⟨hgre, hgim⟩, _⟩ := hg
        obtain ⟨sa, hsa⟩ := realStr_some re hgre
        obtain ⟨sb, hsb⟩ := realStr_some im hgim
        simp only [sxpr2StrF, hsa, hsb] at hps
        injection hps with hps
        rw [← hps]
        simp [String.data_append, esize]
      | ssym s0 =>
        simp only [sxpr2StrF] at hps
        simp only [good] at hg
        rw [symbolStr_good s0 hg] at hps
        injection hps with hps
        rw [← hps]
        obtain ⟨c0, cs, hd, _⟩ := goodSym_elim s0 hg
        rw [show esize (SExpr.ssym s0) = 1 from rfl, hd]
        simp
      | sstr s0 =>
        simp only [sxpr2StrF] at hps
        simp only [good] at hg
        injection hps with hps
        rw [← hps, stringStr_good s0 hg]
        simp [esize]
      | schar s0 => simp [good] at hg
      | sarr dim p => simp [good] at hg
      | pynone => simp [good] at hg
      | scons a d =>
        simp only [good, Bool.and_eq_true] at hg
        obtain ⟨hga, hgd⟩ := hg
        rw [sxpr2StrF_scons] at hps
        cases hc2 : cons2SeqStrF stdCfg f2 a d with
        | none => rw [hc2] at hps; simp at hps
        | some s2 =>
          rw [hc2] at hps
          have hps2 : some ("(" ++ s2 ++ ")") = some s := hps
          injection hps2 with hps3
          have hesz : esize (SExpr.scons a d) = esize a + esize d + 1 := rfl
          have hQ := ihQ a d f2 s2 (by omega) (by omega) hga hgd hc2
          rw [← hps3]
          simp only [String.data_append, List.length_append]
          rw [hesz]
          have h1 : (['('] : List Char).length = 1 := rfl
          have h2 : ([')'] : List Char).length = 1 := rfl
          omega
    · intro a d f s hn hf hga hgd hps
      obtain ⟨f2, rfl⟩ : ∃ f2, f = f2 + 1 :=
        ⟨f - 1, by have := esize_pos a; have := esize_pos d; omega⟩
      have hea := esize_pos a
      have hed := esize_pos d
      cases d with
      | snil =>
        rw [cons2SeqStrF_nil] at hps
        have hV := ihV a f2 s (by omega) (by omega) hga hps
        rw [show esize SExpr.snil = 1 from rfl]
        omega
      | scons b dd =>
        rw [cons2SeqStrF_cons] at hps
        have hsda : ∃ sa, sxpr2StrF stdCfg f2 a = some sa := by
          cases hx : sxpr2StrF stdCfg f2 a
          · rw [hx] at hps; simp at hps
          · exact ⟨_, rfl⟩
        obtain ⟨sa, hsa⟩ := hsda
        have hsdd : ∃ s2, cons2SeqStrF stdCfg f2 b dd = some s2 := by
          cases hx : cons2SeqStrF stdCfg f2 b dd
          · rw [hsa, hx] at hps; simp at hps
          · exact ⟨_, rfl⟩
        obtain ⟨s2, hs2⟩ := hsdd
        rw [hsa, hs2] at hps
        injection hps with hps
        simp only [good, Bool.and_eq_true] at hgd
        obtain ⟨hgb, hgdd⟩ := hgd
        have heszd : esize (SExpr.scons b dd) = esize b + esize dd + 1 := rfl
        have heb := esize_pos b
        have hedd := esize_pos dd
        have hV := ihV a f2 sa (by omega) (by omega) hga hsa
        have hQ := ihQ b dd f2 s2 (by omega) (by omega) hgb hgdd hs2
        rw [← hps]
        simp only [String.data_append, List.length_append]
        rw [heszd]
        have h1 : ([' '] : List Char).length = 1 := rfl
        have h1b : (" " : String).data.length = 1 := rfl
        omega
      | sreal r =>
        rw [cons2SeqStrF_atom f2 a _ (by simp) (by simp)] at hps
        have hsda : ∃ sa, sxpr2StrF stdCfg f2 a = some sa := by
          cases hx : sxpr2StrF stdCfg f2 a
          · rw [hx] at hps; simp at hps
          · exact ⟨_, rfl⟩
        obtain ⟨sa, hsa⟩ := hsda
        have hsdd : ∃ s2, sxpr2StrF stdCfg f2 (SExpr.sreal r) = some s2 := by
          cases hx : sxpr2StrF stdCfg f2 (SExpr.sreal r)
          · rw [hsa, hx] at hps; simp at hps
          · exact ⟨_, rfl⟩
        obtain ⟨s2, hs2⟩ := hsdd
        rw [hsa, hs2] at hps
        injection hps with hps
        have hV := ihV a f2 sa (by omega) (by omega) hga hsa
        have hV2 := ihV (SExpr.sreal r) f2 s2 (by omega) (by omega) hgd hs2
        rw [← hps]
        simp only [String.data_append, List.length_append]
        have h1 : ([' ', '.', ' '] : List Char).length = 3 := rfl
        have h1b : (" . " : String).data.length = 3 := rfl
        omega
      | scplx re im =>
        rw [cons2SeqStrF_atom f2 a _ (by simp) (by simp)] at hps
        have hsda : ∃ sa, sxpr2StrF stdCfg f2 a = some sa := by
          cases hx : sxpr2StrF stdCfg f2 a
          · rw [hx] at hps; simp at hps
          · exact ⟨_, rfl⟩
        obtain ⟨sa, hsa⟩ := hsda
        have hsdd : ∃ s2, sxpr2StrF stdCfg f2 (SExpr.scplx re im) = some s2 := by
          cases hx : sxpr2StrF stdCfg f2 (SExpr.scplx re im)
          · rw [hsa, hx] at hps; simp at hps
          · exact ⟨_, rfl⟩
        obtain ⟨s2, hs2⟩ := hsdd
        rw [hsa, hs2] at hps
        injection hps with hps
        have hV := ihV a f2 sa (by omega) (by omega) hga hsa
        have hV2 := ihV (SExpr.scplx re im) f2 s2 (by omega) (by omega) hgd hs2
        rw [← hps]
        simp only [String.data_append, List.length_append]
        have h1 : ([' ', '.', ' '] : List Char).length = 3 := rfl
        have h1b : (" . " : String).data.length = 3 := rfl
        omega
      | ssym s0 =>
        rw [cons2SeqStrF_atom f2 a _ (by simp) (by simp)] at hps
        have hsda : ∃ sa, sxpr2StrF stdCfg f2 a = some sa := by
          cases hx : sxpr2StrF stdCfg f2 a
          · rw [hx] at hps; simp at hps
          · exact ⟨_, rfl⟩
        obtain ⟨sa, hsa⟩ := hsda
        have hsdd : ∃ s2, sxpr2StrF stdCfg f2 (SExpr.ssym s0) = some s2 := by
          cases hx : sxpr2StrF stdCfg f2 (SExpr.ssym s0)
          · rw [hsa, hx] at hps; simp at hps
          · exact ⟨_, rfl⟩
        obtain ⟨s2, hs2⟩ := hsdd
        rw [hsa, hs2] at hps
        injection hps with hps
        have hV := ihV a f2 sa (by omega) (by omega) hga hsa
        have hV2 := ihV (SExpr.ssym s0) f2 s2 (by omega) (by omega) hgd hs2
        rw [← hps]
        simp only [String.data_append, List.length_append]
        have h1 : ([' ', '.', ' '] : List Char).length = 3 := rfl
        have h1b : (" . " : String).data.length = 3 := rfl
        omega
      | sstr s0 =>
        rw [cons2SeqStrF_atom f2 a _ (by simp) (by simp)] at hps
        have hsda : ∃ sa, sxpr2StrF stdCfg f2 a = some sa := by
          cases hx : sxpr2StrF stdCfg f2 a
          · rw [hx] at hps; simp at hps
          · exact ⟨_, rfl⟩
        obtain ⟨sa, hsa⟩ := hsda
        have hsdd : ∃ s2, sxpr2StrF stdCfg f2 (SExpr.sstr s0) = some s2 := by
          cases hx : sxpr2StrF stdCfg f2 (SExpr.sstr s0)
          · rw [hsa, hx] at hps; simp at hps
          · exact ⟨_, rfl⟩
        obtain ⟨s2, hs2⟩ := hsdd
        rw [hsa, hs2] at hps
        injection hps with hps
        have hV := ihV a f2 sa (by omega) (by omega) hga hsa
        have hV2 := ihV (SExpr.sstr s0) f2 s2 (by omega) (by omega) hgd hs2
        rw [← hps]
        simp only [String.data_append, List.length_append]
        have h1 : ([' ', '.', ' '] : List Char).length = 3 := rfl
        have h1b : (" . " : String).data.length = 3 := rfl
        omega
      | schar s0 => simp [good] at hgd
      | sarr dim p => simp [good] at hgd
      | pynone => simp [good] at hgd

lemma strm_eof (w : Char → Nat) (st : St) (h : Strm stdCfg st []) :
    nextToken stdCfg w st =
      .ok (none, { st with line := st.lkLine, col := st.lkCol }) ∧
    Strm stdCfg { st with line := st.lkLine, col := st.lkCol } [] := by
  obtain ⟨chars, line, col, lkL, lkC, lkT⟩ := st
  obtain ⟨hlk, htl⟩ := h
  simp only at hlk htl
  subst hlk
  constructor
  · rfl
  · exact ⟨rfl, htl⟩

lemma strm_step (w : Char → Nat) (st : St) (t : Tok) (ts : List Tok)
    (h : Strm stdCfg st (t :: ts)) :
    ∃ s2, nextToken stdCfg w st = .ok (some t, s2) ∧ Strm stdCfg s2 ts := by
  obtain ⟨chars, line, col, lkL, lkC, lkT⟩ := st
  obtain ⟨hlk, htl⟩ := h
  simp only [List.head?_cons] at hlk htl
  subst hlk
  have hfill : fillTok stdCfg w (⟨chars, line, col, lkL, lkC, some (some t)⟩ : St) =
      .ok ⟨chars, line, col, lkL, lkC, some (some t)⟩ := rfl
  cases ts with
  | nil =>
    have htc := htl lkL lkC
    have hstk : sxprTokenizer stdCfg w ⟨chars, lkL, lkC, lkL, lkC, some (some t)⟩ =
        .ok (none, ⟨[], lkL, lkC,
          (advancePosList w (lkL, lkC) (chars.take chars.length)).1,
          (advancePosList w (lkL, lkC) (chars.take chars.length)).2,
          some (some t)⟩) := by
      show ((match tokenizeCore stdCfg (chars.length + 1) chars lkL lkC with
        | .error e => .error e
        | .ok (tr, rest) =>
          Except.ok (tr,
            (⟨rest, lkL, lkC,
              (advancePosList w (lkL, lkC) (chars.take (chars.length - rest.length))).1,
              (advancePosList w (lkL, lkC) (chars.take (chars.length - rest.length))).2,
              some (some t)⟩ : St))) : Except SxErr (Option Tok × St)) = _
      rw [htc]
      rfl
    refine ⟨⟨[], lkL, lkC,
      (advancePosList w (lkL, lkC) (chars.take chars.length)).1,
      (advancePosList w (lkL, lkC) (chars.take chars.length)).2,
      some none⟩, ?_, ?_⟩
    · rw [nextToken, hfill]
      simp only [Option.getD_some, hstk]
    · exact ⟨rfl, toked_nil stdCfg⟩
  | cons t2 ts2 =>
    obtain ⟨rest, hrun, htl2⟩ := htl
    have htc := hrun lkL lkC
    have hstk : sxprTokenizer stdCfg w ⟨chars, lkL, lkC, lkL, lkC, some (some t)⟩ =
        .ok (some t2, ⟨rest, lkL, lkC,
          (advancePosList w (lkL, lkC) (chars.take (chars.length - rest.length))).1,
          (advancePosList w (lkL, lkC) (chars.take (chars.length - rest.length))).2,
          some (some t)⟩) := by
      show ((match tokenizeCore stdCfg (chars.length + 1) chars lkL lkC with
        | .error e => .error e
        | .ok (tr, rest2) =>
          Except.ok (tr,
            (⟨rest2, lkL, lkC,
              (advancePosList w (lkL, lkC) (chars.take (chars.length - rest2.length))).1,
              (advancePosList w (lkL, lkC) (chars.take (chars.length - rest2.length))).2,
              some (some t)⟩ : St))) : Except SxErr (Option Tok × St)) = _
      rw [htc]
    refine ⟨⟨rest, lkL, lkC,
      (advancePosList w (lkL, lkC) (chars.take (chars.length - rest.length))).1,
      (advancePosList w (lkL, lkC) (chars.take (chars.length - rest.length))).2,
      some (some t2)⟩, ?_, ?_⟩
    · rw [nextToken, hfill]
      simp only [Option.getD_some, hstk]
    · exact ⟨rfl, htl2⟩

lemma reduceFrac_good (r : PyReal) (hg : goodReal r = true) : reduceFrac r = r := by
  cases r with
  | pint z => rfl
  | pfrac q =>
    rw [goodReal] at hg
    rw [reduceFrac, if_neg (by simpa using hg)]
  | pfloat x => rfl

lemma complexNewVal_good (re im : PyReal) (hre : goodReal re = true)
    (him : goodReal im = true) (h0 : ¬ im.toRat = 0) :
    pyNumToSx (complexNewVal (.cre re) (.cre im)) = .scplx re im := by
  rw [complexNewVal]
  simp only [reduceFrac_good re hre, reduceFrac_good im him, if_neg h0]
  rfl

lemma toks_head (v : SExpr) (hg : good v = true) :
    ∃ t0 ts0, toks v = t0 :: ts0 ∧ ¬ t0 = .rparT ∧ ¬ t0 = .dotT := by
  cases v with
  | snil => exact ⟨.lparT, [.rparT], by simp [toks], by simp, by simp⟩
  | scons a d => exact ⟨.lparT, seqToks a d ++ [.rparT], by simp [toks], by simp, by simp⟩
  | sreal r => exact ⟨.valT (.sreal r), [], by simp [toks], by simp, by simp⟩
  | scplx re im =>
    exact ⟨.complexT, [.lparT, .valT (.sreal re), .valT (.sreal im), .rparT],
      by simp [toks], by simp, by simp⟩
  | ssym s => exact ⟨.valT (.ssym s), [], by simp [toks], by simp, by simp⟩
  | sstr s => exact ⟨.valT (.sstr s), [], by simp [toks], by simp, by simp⟩
  | schar s => simp [good] at hg
  | sarr dim p => simp [good] at hg
  | pynone => simp [good] at hg

lemma parse_main (w : Char → Nat) : ∀ fuel,
    (∀ v ts st, good v = true → 2 * esize v ≤ fuel → Strm stdCfg st (toks v ++ ts) →
      ∃ st2, readObj stdCfg w fuel st = .ok (some v, st2) ∧ Strm stdCfg st2 ts) ∧
    (∀ a d ts st, good a = true → good d = true → 2 * (esize a + esize d) + 1 ≤ fuel →
      Strm stdCfg st (seqToks a d ++ .rparT :: ts) →
      ∃ st2, readList stdCfg w fuel st = .ok (.scons a d, st2) ∧ Strm stdCfg st2 ts) ∧
    (∀ d ts st, good d = true → 2 * esize d + 1 ≤ fuel →
      Strm stdCfg st (tailToks d ++ .rparT :: ts) →
      ∃ st2, consTail stdCfg w fuel st = .ok (d, st2) ∧ Strm stdCfg st2 ts) := by
  intro fuel
  induction fuel with
  | zero =>
    refine ⟨?_, ?_, ?_⟩
    · intro v ts st h1 h2 h3
      exact absurd h2 (by have := esize_pos v; omega)
    · intro a d ts st h1 h2 h3 h4
      exact absurd h3 (by omega)
    · intro d ts st h1 h2 h3
      exact absurd h2 (by omega)
  | succ f ih =>
    obtain ⟨ihV, ihL, ihT⟩ := ih
    refine ⟨?_, ?_, ?_⟩
    · intro v ts st hg hfu hst
      cases v with
      | snil =>
        rw [show toks SExpr.snil ++ ts = .lparT :: .rparT :: ts from by simp [toks]] at hst
        obtain ⟨s1, hnt1, hs1⟩ := strm_step w st .lparT _ hst
        have hpk : s1.lkTok = some (some .rparT) := hs1.1
        obtain ⟨s2, hnt2, hs2⟩ := strm_step w s1 .rparT ts hs1
        obtain ⟨g, rfl⟩ : ∃ g, f = g + 1 := ⟨f - 1, by have := esize_pos SExpr.snil; omega⟩
        refine ⟨s2, ?_, hs2⟩
        simp only [readObj, hnt1, readList, hpk, hnt2]
      | sreal r =>
        rw [show toks (SExpr.sreal r) ++ ts = .valT (.sreal r) :: ts from by simp [toks]] at hst
        obtain ⟨s1, hnt1, hs1⟩ := strm_step w st (.valT (.sreal r)) ts hst
        refine ⟨s1, ?_, hs1⟩
        simp only [readObj, hnt1]
      | ssym s0 =>
        rw [show toks (SExpr.ssym s0) ++ ts = .valT (.ssym s0) :: ts from by simp [toks]] at hst
        obtain ⟨s1, hnt1, hs1⟩ := strm_step w st (.valT (.ssym s0)) ts hst
        refine ⟨s1, ?_, hs1⟩
        simp only [readObj, hnt1]
      | sstr s0 =>
        rw [show toks (SExpr.sstr s0) ++ ts = .valT (.sstr s0) :: ts from by simp [toks]] at hst
        obtain ⟨s1, hnt1, hs1⟩ := strm_step w st (.valT (.sstr s0)) ts hst
        refine ⟨s1, ?_, hs1⟩
        simp only [readObj, hnt1]
      | scplx re im =>
        simp only [good, Bool.and_eq_true, Bool.not_eq_true', decide_eq_false_iff_not] at hg
        obtain ⟨⟨hgre, hgim⟩, h0⟩ := hg
        rw [show toks (SExpr.scplx re im) ++ ts =
          .complexT :: .lparT :: .valT (.sreal re) :: .valT (.sreal im) :: .rparT :: ts
          from by simp [toks]] at hst
        obtain ⟨s1, hnt1, hs1⟩ := strm_step w st .complexT _ hst
        obtain ⟨s2, hnt2, hs2⟩ := strm_step w s1 .lparT _ hs1
        obtain ⟨s3, hnt3, hs3⟩ := strm_step w s2 (.valT (.sreal re)) _ hs2
        obtain ⟨s4, hnt4, hs4⟩ := strm_step w s3 (.valT (.sreal im)) _ hs3
        obtain ⟨s5, hnt5, hs5⟩ := strm_step w s4 .rparT ts hs4
        refine ⟨s5, ?_, hs5⟩
        simp only [readObj, hnt1, hnt2, hnt3, hnt4, hnt5]
        rw [complexNewVal_good re im hgre hgim h0]
      | scons a d =>
        simp only [good, Bool.and_eq_true] at hg
        obtain ⟨hga, hgd⟩ := hg
        rw [show toks (SExpr.scons a d) ++ ts = .lparT :: (seqToks a d ++ .rparT :: ts)
          from by simp [toks]] at hst
        obtain ⟨s1, hnt1, hs1⟩ := strm_step w st .lparT _ hst
        have hesz : esize (SExpr.scons a d) = esize a + esize d + 1 := rfl
        obtain ⟨s2, hrl, hs2⟩ := ihL a d ts s1 hga hgd (by omega) hs1
        refine ⟨s2, ?_, hs2⟩
        simp only [readObj, hnt1, hrl]
      | schar s0 => simp [good] at hg
      | sarr dim p => simp [good] at hg
      | pynone => simp [good] at hg
    · intro a d ts st hga hgd hfu hst
      obtain ⟨t0, ts0, hts0, ht0r, ht0d⟩ := toks_head a hga
      have hea := esize_pos a
      have hed := esize_pos d
      have hst2 : Strm stdCfg st (toks a ++ (tailToks d ++ .rparT :: ts)) := by
        rw [show toks a ++ (tailToks d ++ .rparT :: ts) =
          seqToks a d ++ .rparT :: ts from by rw [seqToks]; simp]
        exact hst
      have hlk0 : st.lkTok = some (some t0) := by
        have := hst2.1
        rw [hts0] at this
        simpa using this
      obtain ⟨s1, hro, hs1⟩ := ihV a (tailToks d ++ .rparT :: ts) st hga (by omega) hst2
      obtain ⟨s2, hct, hs2⟩ := ihT d ts s1 hgd (by omega) hs1
      refine ⟨s2, ?_, hs2⟩
      rw [readList.eq_def]
      cases t0 <;> simp only [hlk0, hro, hct] <;> first
        | rfl
        | exact absurd rfl ht0r
    · intro d ts st hgd hfu hst
      cases d with
      | snil =>
        rw [show tailToks SExpr.snil ++ .rparT :: ts = .rparT :: ts from by simp [tailToks]] at hst
        have hlk0 : st.lkTok = some (some .rparT) := hst.1
        obtain ⟨s1, hnt1, hs1⟩ := strm_step w st .rparT ts hst
        refine ⟨s1, ?_, hs1⟩
        simp only [consTail, hlk0, hnt1]
      | scons b dd =>
        simp only [good, Bool.and_eq_true] at hgd
        obtain ⟨hgb, hgdd⟩ := hgd
        have heb := esize_pos b
        have hedd := esize_pos dd
        have hesz : esize (SExpr.scons b dd) = esize b + esize dd + 1 := rfl
        obtain ⟨t0, ts0, hts0, ht0r, ht0d⟩ := toks_head b hgb
        have hst2 : Strm stdCfg st (toks b ++ (tailToks dd ++ .rparT :: ts)) := by
          rw [show toks b ++ (tailToks dd ++ .rparT :: ts) =
            tailToks (SExpr.scons b dd) ++ .rparT :: ts from by
            simp only [tailToks]; rw [seqToks]; simp]
          exact hst
        have hlk0 : st.lkTok = some (some t0) := by
          have := hst2.1
          rw [hts0] at this
          simpa using this
        obtain ⟨s1, hro, hs1⟩ := ihV b (tailToks dd ++ .rparT :: ts) st hgb (by omega) hst2
        obtain ⟨s2, hct, hs2⟩ := ihT dd ts s1 hgdd (by omega) hs1
        refine ⟨s2, ?_, hs2⟩
        rw [consTail.eq_def]
        cases t0 <;> simp only [hlk0, hro, hct] <;> first
          | rfl
          | exact absurd rfl ht0r
          | exact absurd rfl ht0d
      | sreal r =>
        have hhd : tailToks (SExpr.sreal r) = .dotT :: toks (SExpr.sreal r) := by simp [tailToks]
        rw [hhd] at hst
        obtain ⟨s1, hnt1, hs1⟩ := strm_step w st .dotT _ hst
        have hV := ihV (SExpr.sreal r) (.rparT :: ts) s1 hgd (by omega) (by
          have : toks (SExpr.sreal r) ++ .rparT :: ts = (toks (SExpr.sreal r) ++ [.rparT]) ++ ts := by simp
          exact hs1)
        obtain ⟨s2, hro, hs2⟩ := hV
        have hpk : s2.lkTok = some (some .rparT) := hs2.1
        obtain ⟨s3, hnt3, hs3⟩ := strm_step w s2 .rparT ts hs2
        refine ⟨s3, ?_, hs3⟩
        have hlk0 : st.lkTok = some (some Tok.dotT) := hst.1
        simp only [consTail, hlk0, hnt1, hro, hpk, hnt3]
        rfl
      | scplx re im =>
        have hhd : tailToks (SExpr.scplx re im) = .dotT :: toks (SExpr.scplx re im) := by simp [tailToks]
        rw [hhd] at hst
        obtain ⟨s1, hnt1, hs1⟩ := strm_step w st .dotT _ hst
        have hV := ihV (SExpr.scplx re im) (.rparT :: ts) s1 hgd (by omega) (by
          have : toks (SExpr.scplx re im) ++ .rparT :: ts = (toks (SExpr.scplx re im) ++ [.rparT]) ++ ts := by simp
          exact hs1)
        obtain ⟨s2, hro, hs2⟩ := hV
        have hpk : s2.lkTok = some (some .rparT) := hs2.1
        obtain ⟨s3, hnt3, hs3⟩ := strm_step w s2 .rparT ts hs2
        refine ⟨s3, ?_, hs3⟩
        have hlk0 : st.lkTok = some (some Tok.dotT) := hst.1
        simp only [consTail, hlk0, hnt1, hro, hpk, hnt3]
        rfl
      | ssym s0 =>
        have hhd : tailToks (SExpr.ssym s0) = .dotT :: toks (SExpr.ssym s0) := by simp [tailToks]
        rw [hhd] at hst
        obtain ⟨s1, hnt1, hs1⟩ := strm_step w st .dotT _ hst
        have hV := ihV (SExpr.ssym s0) (.rparT :: ts) s1 hgd (by omega) (by
          have : toks (SExpr.ssym s0) ++ .rparT :: ts = (toks (SExpr.ssym s0) ++ [.rparT]) ++ ts := by simp
          exact hs1)
        obtain ⟨s2, hro, hs2⟩ := hV
        have hpk : s2.lkTok = some (some .rparT) := hs2.1
        obtain ⟨s3, hnt3, hs3⟩ := strm_step w s2 .rparT ts hs2
        refine ⟨s3, ?_, hs3⟩
        have hlk0 : st.lkTok = some (some Tok.dotT) := hst.1
        simp only [consTail, hlk0, hnt1, hro, hpk, hnt3]
        rfl
      | sstr s0 =>
        have hhd : tailToks (SExpr.sstr s0) = .dotT :: toks (SExpr.sstr s0) := by simp [tailToks]
        rw [hhd] at hst
        obtain ⟨s1, hnt1, hs1⟩ := strm_step w st .dotT _ hst
        have hV := ihV (SExpr.sstr s0) (.rparT :: ts) s1 hgd (by omega) (by
          have : toks (SExpr.sstr s0) ++ .rparT :: ts = (toks (SExpr.sstr s0) ++ [.rparT]) ++ ts := by simp
          exact hs1)
        obtain ⟨s2, hro, hs2⟩ := hV
        have hpk : s2.lkTok = some (some .rparT) := hs2.1
        obtain ⟨s3, hnt3, hs3⟩ := strm_step w s2 .rparT ts hs2
        refine ⟨s3, ?_, hs3⟩
        have hlk0 : st.lkTok = some (some Tok.dotT) := hst.1
        simp only [consTail, hlk0, hnt1, hro, hpk, hnt3]
        rfl
      | schar s0 => simp [good] at hgd
      | sarr dim p => simp [good] at hgd
      | pynone => simp [good] at hgd

lemma fill_strm (w : Char → Nat) (st : St) (ts : List Tok) (h1 : st.lkTok = none)
    (h2 : Toked stdCfg st.chars ts) :
    ∃ s1, fillTok stdCfg w st = .ok s1 ∧ Strm stdCfg s1 ts := by
  obtain ⟨chars, line, col, lkL, lkC, lkT⟩ := st
  simp only at h1 h2
  subst h1
  cases ts with
  | nil =>
    have htc := h2 line col
    have hstk : sxprTokenizer stdCfg w ⟨chars, line, col, lkL, lkC, none⟩ =
        .ok (none, ⟨[], line, col,
          (advancePosList w (lkL, lkC) (chars.take chars.length)).1,
          (advancePosList w (lkL, lkC) (chars.take chars.length)).2,
          none⟩) := by
      show ((match tokenizeCore stdCfg (chars.length + 1) chars line col with
        | .error e => .error e
        | .ok (tr, rest) =>
          Except.ok (tr,
            (⟨rest, line, col,
              (advancePosList w (lkL, lkC) (chars.take (chars.length - rest.length))).1,
              (advancePosList w (lkL, lkC) (chars.take (chars.length - rest.length))).2,
              none⟩ : St))) : Except SxErr (Option Tok × St)) = _
      rw [htc]
      rfl
    refine ⟨⟨[], line, col,
      (advancePosList w (lkL, lkC) (chars.take chars.length)).1,
      (advancePosList w (lkL, lkC) (chars.take chars.length)).2,
      some none⟩, ?_, ?_⟩
    · rw [fillTok]
      simp only [hstk]
    · exact ⟨rfl, toked_nil stdCfg⟩
  | cons t ts2 =>
    obtain ⟨rest, hrun, htl2⟩ := h2
    have htc := hrun line col
    have hstk : sxprTokenizer stdCfg w ⟨chars, line, col, lkL, lkC, none⟩ =
        .ok (some t, ⟨rest, line, col,
          (advancePosList w (lkL, lkC) (chars.take (chars.length - rest.length))).1,
          (advancePosList w (lkL, lkC) (chars.take (chars.length - rest.length))).2,
          none⟩) := by
      show ((match tokenizeCore stdCfg (chars.length + 1) chars line col with
        | .error e => .error e
        | .ok (tr, rest2) =>
          Except.ok (tr,
            (⟨rest2, line, col,
              (advancePosList w (lkL, lkC) (chars.take (chars.length - rest2.length))).1,
              (advancePosList w (lkL, lkC) (chars.take (chars.length - rest2.length))).2,
              none⟩ : St))) : Except SxErr (Option Tok × St)) = _
      rw [htc]
    refine ⟨⟨rest, line, col,
      (advancePosList w (lkL, lkC) (chars.take (chars.length - rest.length))).1,
      (advancePosList w (lkL, lkC) (chars.take (chars.length - rest.length))).2,
      some (some t)⟩, ?_, ?_⟩
    · rw [fillTok]
      simp only [hstk]
    · exact ⟨rfl, htl2⟩

lemma fillTok_idem (w : Char → Nat) (st s1 : St) (h : fillTok stdCfg w st = .ok s1) :
    fillTok stdCfg w s1 = .ok s1 := by
  cases hl : st.lkTok with
  | some x =>
    rw [fillTok, hl] at h
    injection h with h
    subst h
    rw [fillTok, hl]
  | none =>
    rw [fillTok, hl] at h
    cases hsx : sxprTokenizer stdCfg w st with
    | error e => rw [hsx] at h; exact absurd h (by simp)
    | ok p =>
      obtain ⟨t, stx⟩ := p
      rw [hsx] at h
      injection h with h
      subst h
      rw [fillTok]

lemma nextToken_fill (w : Char → Nat) (st s1 : St) (h : fillTok stdCfg w st = .ok s1) :
    nextToken stdCfg w st = nextToken stdCfg w s1 := by
  rw [nextToken, nextToken, h, fillTok_idem w st s1 h]

lemma readObj_fill (w : Char → Nat) (fuel : Nat) (st s1 : St)
    (h : fillTok stdCfg w st = .ok s1) :
    readObj stdCfg w fuel st = readObj stdCfg w fuel s1 := by
  cases fuel with
  | zero => rfl
  | succ f => rw [readObj, readObj, nextToken_fill w st s1 h]

lemma parse_of_toked (text : String) (v : SExpr) (hg : good v = true)
    (h : Toked stdCfg text.data (toks v)) (hfuel : 2 * esize v ≤ 2 * text.length + 4) :
    sxparse stdCfg unitW text = .ok (some v) := by
  obtain ⟨s1, hfill, hstrm⟩ := fill_strm unitW (St.init text) (toks v) rfl h
  have hstrm2 : Strm stdCfg s1 (toks v ++ []) := by rw [List.append_nil]; exact hstrm
  obtain ⟨st2, hro, _⟩ := (parse_main unitW (2 * text.length + 4)).1 v [] s1 hg hfuel hstrm2
  rw [sxparse, readObj_fill unitW (2 * text.length + 4) (St.init text) s1 hfill, hro]

lemma roundtrip_good (v : SExpr) (s : String) (hg : good v = true)
    (hps : sxpr2Str stdCfg v = some s) : sxparse stdCfg unitW s = .ok (some v) := by
  have hps2 : sxpr2StrF stdCfg (esize v) v = some s := hps
  have htk := (scan_main (esize v)).1 v (esize v) s [] [] le_rfl le_rfl hg hps2
    (fun r h => absurd h (by simp)) (toked_nil stdCfg)
  rw [List.append_nil, List.append_nil] at htk
  have hlen := (len_main (esize v)).1 v (esize v) s le_rfl le_rfl hg hps2
  have hlen2 : s.length = s.data.length := rfl
  exact parse_of_toked s v hg htk (by omega)

lemma parse_slash_one (z : ℤ) :
    sxparse stdCfg unitW ⟨(pyIntStr z).data ++ ['/', '1']⟩ = .ok (some (.sreal (.pint z))) := by
  have hr : ∀ r, ([] : List Char).head? = some r → isDelimCh r = true :=
    fun r h => absurd h (by simp)
  have htok : ∀ f l c, tokenizeCore stdCfg (f + 1) ((pyIntStr z).data ++ ['/', '1']) l c =
      .ok (some (.valT (.sreal (.pint z))), []) := by
    intro f l c
    have h2 := tk_fracToken z 1 one_pos [] hr f l c
    rw [List.append_nil] at h2
    rw [show ((pyIntStr z).data ++ ['/', '1'] : List Char) =
      (pyIntStr z).data ++ '/' :: natDigits 1 from rfl, h2]
    simp
  have htk : Toked stdCfg ((pyIntStr z).data ++ ['/', '1']) (toks (.sreal (.pint z))) := by
    rw [show toks (SExpr.sreal (.pint z)) = [.valT (.sreal (.pint z))] from by simp [toks]]
    exact toked_step stdCfg _ [] _ [] htok (toked_nil stdCfg)
  exact parse_of_toked ⟨(pyIntStr z).data ++ ['/', '1']⟩ (.sreal (.pint z)) (by rfl) htk
    (by rw [show esize (SExpr.sreal (.pint z)) = 1 from rfl]; omega)

lemma readObj_complex_steps (w : Char → Nat) (fuel : Nat) (st : St) (re im : PyReal)
    (ts : List Tok)
    (hst : Strm stdCfg st
      (.complexT :: .lparT :: .valT (.sreal re) :: .valT (.sreal im) :: .rparT :: ts)) :
    ∃ st2, readObj stdCfg w (fuel + 1) st =
      .ok (some (pyNumToSx (complexNewVal (.cre re) (.cre im))), st2) ∧
      Strm stdCfg st2 ts := by
  obtain ⟨s1, hnt1, hs1⟩ := strm_step w st .complexT _ hst
  obtain ⟨s2, hnt2, hs2⟩ := strm_step w s1 .lparT _ hs1
  obtain ⟨s3, hnt3, hs3⟩ := strm_step w s2 (.valT (.sreal re)) _ hs2
  obtain ⟨s4, hnt4, hs4⟩ := strm_step w s3 (.valT (.sreal im)) _ hs3
  obtain ⟨s5, hnt5, hs5⟩ := strm_step w s4 .rparT ts hs4
  refine ⟨s5, ?_, hs5⟩
  simp only [readObj, hnt1, hnt2, hnt3, hnt4, hnt5]

lemma parse_complex_zero (z : ℤ) :
    sxparse stdCfg unitW ⟨'#' :: 'C' :: '(' :: ((pyIntStr z).data ++ [' ', '0', ')'])⟩ =
      .ok (some (.sreal (.pint z))) := by
  have T1 : Toked stdCfg [')'] [.rparT] := toked_rpar [] [] (toked_nil stdCfg)
  have T2 : Toked stdCfg (['0'] ++ [')']) [.valT (.sreal (.pint 0)), .rparT] :=
    toked_int 0 [')'] [.rparT] (head_delim_rpar []) T1
  have T2b : Toked stdCfg ['0', ')'] [.valT (.sreal (.pint 0)), .rparT] := T2
  have T3 := toked_ws _ _ T2b
  have T4 : Toked stdCfg ((pyIntStr z).data ++ (' ' :: ['0', ')']))
      [.valT (.sreal (.pint z)), .valT (.sreal (.pint 0)), .rparT] :=
    toked_int z (' ' :: ['0', ')']) _ (head_delim_sp _) T3
  have T5 := toked_lpar _ _ T4
  have T6 := toked_hashC ((pyIntStr z).data ++ (' ' :: ['0', ')'])) _ T5
  have hdata : (String.mk ('#' :: 'C' :: '(' :: ((pyIntStr z).data ++ [' ', '0', ')']))).data =
      '#' :: 'C' :: '(' :: ((pyIntStr z).data ++ (' ' :: ['0', ')'])) := rfl
  obtain ⟨s1, hfill, hstrm⟩ :=
    fill_strm unitW (St.init ⟨'#' :: 'C' :: '(' :: ((pyIntStr z).data ++ [' ', '0', ')'])⟩) _ rfl
      (hdata ▸ T6)
  obtain ⟨st2, hro, _⟩ := readObj_complex_steps unitW
    (2 * (String.mk ('#' :: 'C' :: '(' :: ((pyIntStr z).data ++ [' ', '0', ')']))).length + 3)
    s1 (.pint z) (.pint 0) [] hstrm
  rw [sxparse, readObj_fill unitW _ _ s1 hfill]
  rw [show 2 * (String.mk ('#' :: 'C' :: '(' :: ((pyIntStr z).data ++ [' ', '0', ')']))).length + 4 =
    (2 * (String.mk ('#' :: 'C' :: '(' :: ((pyIntStr z).data ++ [' ', '0', ')']))).length + 3) + 1
    from rfl]
  rw [hro]
  rfl


/-- C1 amended: under the fraction-and-complex dialect, every good value
(trees of NIL, lowercase-letter symbols, plain printable strings, ints,
reduced non-integer Fractions, and Complex values with nonzero imaginary
part) parses back from its printed form to the identical value; and the
two canonicalization exceptions hold in their parsing form: a printed
`n/1` Fraction reads back as the int `n`, and a printed Complex with a
zero imaginary part reads back as its real part alone. -/
theorem c1_roundtrip_amended :
    (∀ v s, good v = true → sxpr2Str stdCfg v = some s →
      sxparse stdCfg unitW s = .ok (some v)) ∧
    (∀ z : ℤ, sxparse stdCfg unitW ⟨(pyIntStr z).data ++ ['/', '1']⟩ =
      .ok (some (.sreal (.pint z)))) ∧
    (∀ z : ℤ, sxparse stdCfg unitW
        ⟨'#' :: 'C' :: '(' :: ((pyIntStr z).data ++ [' ', '0', ')'])⟩ =
      .ok (some (.sreal (.pint z)))) :=
  ⟨fun v s hg hps => roundtrip_good v s hg hps, parse_slash_one, parse_complex_zero⟩

/-- C1 amended witness: the two-element list of the symbol `ab` and the
Fraction one-half prints as `(ab 1/2)` and parses back to itself. -/
theorem c1_roundtrip_amended_witness :
    good (SExpr.scons (.ssym "ab") (.scons (.sreal (.pfrac (mkRat 1 2))) .snil)) = true ∧
    sxpr2Str stdCfg (SExpr.scons (.ssym "ab") (.scons (.sreal (.pfrac (mkRat 1 2))) .snil)) =
      some "(ab 1/2)" ∧
    sxparse stdCfg unitW "(ab 1/2)" =
      .ok (some (SExpr.scons (.ssym "ab") (.scons (.sreal (.pfrac (mkRat 1 2))) .snil))) :=
  ⟨by decide, by decide,
    c1_roundtrip_amended.1 (SExpr.scons (.ssym "ab") (.scons (.sreal (.pfrac (mkRat 1 2))) .snil))
      "(ab 1/2)" (by decide) (by decide)⟩

end SxprSpec
